import Mathlib

/-!
# MazeGenerator (`maze.c`): a shallow embedding and its verification

The program carves a perfect maze over a `SIZE x SIZE` grid with a randomized
recursive backtracker (`make_path`), picking directions by rejection sampling
(`check_available`) and erasing walls on a cairo surface (`remove_wall`).

Modelling decisions
* `SIZE` is the parameter `N`; C `int`s are unbounded `Int`s (for `SIZE = 50`
  every value stays far below `2^31`), `rand()` results are naturals read
  from a stream `draws : Nat → Nat` at the position `State.pos`.
* `maze` is a list of rows; every read and write is bounds checked and an
  access outside the allocation is the fault `Fault.oob`.
* The cairo context is the list of drawing calls issued so far; `double`
  arguments are rationals (all values are multiples of `0.5`, exact in C).
* `State.trace` is ghost state: it records the calls of `make_path`,
  `check_available` and `remove_wall` in program order.
* The two loops take budgets: `k` bounds the draws of one rejection loop
  (`Fault.starved` when exceeded), `fuel` bounds the iterations/nesting of the
  do-while of `make_path` (`Fault.fuel` when exceeded).  A fault carries the
  state in which it occurred.
* The `for` loop of `draw_grid` takes a budget of iterations and yields `none`
  when the budget runs out.
-/

namespace Maze

/-! ## Data model -/

/-- A cell of the grid: `(row, column)`. -/
abbrev Cell := Int × Int

/-- The array `int ** maze`: a list of rows. -/
abbrev Grid := List (List Int)

/-- The cairo line caps used by the program. -/
inductive LineCap where
  | butt
  | round
  deriving DecidableEq, Repr

/-- The cairo drawing calls the program issues. -/
inductive Cairo where
  | set_source_rgb (r g b : ℚ)
  | rectangle (x y w h : ℚ)
  | stroke_preserve
  | fill
  | set_line_width (w : ℚ)
  | set_line_cap (c : LineCap)
  | move_to (x y : ℚ)
  | line_to (x y : ℚ)
  | stroke
  deriving DecidableEq, Repr

/-- Ghost record of one call, in program order. -/
inductive Step where
  /-- A call `make_path(cr, i, j, previ, prevj)` entered at nesting depth `depth`. -/
  | enter (i j previ prevj : Int) (depth : Nat)
  /-- A call `check_available(i, j)` with the array `available` it filled. -/
  | query (i j : Int) (available : List Int)
  /-- A call `remove_wall(cr, i, j, previ, prevj)`. -/
  | wall (i j previ prevj : Int)
  deriving DecidableEq, Repr

/-- The program state: the grid, the number of `rand()` calls made, the cairo
calls issued, and the ghost trace. -/
structure State where
  maze : Grid
  pos : Nat
  cr : List Cairo
  trace : List Step
  deriving DecidableEq, Repr

/-- The ways a run can fail to return. -/
inductive Fault where
  /-- An array was indexed outside its bounds. -/
  | oob
  /-- A rejection loop made `k` draws without leaving. -/
  | starved
  /-- The do-while of `make_path` ran out of fuel. -/
  | fuel
  deriving DecidableEq, Repr

/-- The result of a run: the final state, or a fault with the state reached. -/
abbrev Res (α : Type) := Except (Fault × State) α

/-! ## Memory access -/

/-- The read `maze[r][c]`, `none` outside the allocation. -/
def rd (m : Grid) (r c : Int) : Option Int :=
  if r < 0 ∨ c < 0 then none
  else match m[r.toNat]? with
    | none => none
    | some row => row[c.toNat]?

/-- The write `maze[r][c] = v`, `none` outside the allocation. -/
def wr (m : Grid) (r c : Int) (v : Int) : Option Grid :=
  if r < 0 ∨ c < 0 then none
  else match m[r.toNat]? with
    | none => none
    | some row =>
      if c.toNat < row.length then some (m.set r.toNat (row.set c.toNat v)) else none

/-! ## `remove_wall` -/

/-- The function `remove_wall`: the cairo calls appended to the context. -/
def remove_wall (cr : List Cairo) (i j previ prevj : Int) : List Cairo :=
  let cr := cr ++ [Cairo.set_source_rgb 0 0 0, Cairo.set_line_width 4,
    Cairo.set_line_cap LineCap.butt]
  -- coordinates for the center of the previous tile
  let px : Int := 50 + ((prevj + 1) * 18) - 9
  let py : Int := 50 + ((previ + 1) * 18) - 9
  -- coordinates for the center of the new tile
  let nx : Int := 50 + ((j + 1) * 18) - 9
  let ny : Int := 50 + ((i + 1) * 18) - 9
  if px = nx then
    if py < ny then
      cr ++ [Cairo.move_to ((px : ℚ) - 7.5) ((py : ℚ) + 9),
             Cairo.line_to ((px : ℚ) + 7.5) ((py : ℚ) + 9), Cairo.stroke]
    else
      cr ++ [Cairo.move_to ((nx : ℚ) - 7.5) ((ny : ℚ) + 9),
             Cairo.line_to ((nx : ℚ) + 7.5) ((ny : ℚ) + 9), Cairo.stroke]
  else
    if px > nx then
      cr ++ [Cairo.move_to ((px : ℚ) - 9) ((py : ℚ) + 7.5),
             Cairo.line_to ((px : ℚ) - 9) ((py : ℚ) - 7.5), Cairo.stroke]
    else
      cr ++ [Cairo.move_to ((nx : ℚ) - 9) ((ny : ℚ) + 7.5),
             Cairo.line_to ((nx : ℚ) - 9) ((ny : ℚ) - 7.5), Cairo.stroke]

/-- A call of `remove_wall` from `make_path`: the drawing plus the ghost record. -/
def State.remove_wall (st : State) (i j previ prevj : Int) : State :=
  { st with cr := Maze.remove_wall st.cr i j previ prevj,
            trace := st.trace ++ [Step.wall i j previ prevj] }

/-! ## `check_available` -/

/-- The first half of `check_available`: the local array `available`, all
ones, overwritten by the neighbours' flags under the four bound guards. -/
def snapshot (N : Nat) (m : Grid) (i j : Int) : Option (List Int) :=
  let available : List Int := [1, 1, 1, 1]
  (if i > 0 then (rd m (i - 1) j).map (fun v => available.set 0 v)
   else some available).bind fun available =>
  (if j < (N : Int) - 1 then (rd m i (j + 1)).map (fun v => available.set 1 v)
   else some available).bind fun available =>
  (if i < (N : Int) - 1 then (rd m (i + 1) j).map (fun v => available.set 2 v)
   else some available).bind fun available =>
  (if j > 0 then (rd m i (j - 1)).map (fun v => available.set 3 v)
   else some available)

/-- The rejection loop `do next = rand() % 4 + 1; while (available[next-1] != 0)`
with a budget of `k` draws. -/
def check_available_loop (draws : Nat → Nat) (available : List Int) :
    Nat → State → Res (Int × State)
  | 0, st => Except.error (Fault.starved, st)
  | k + 1, st =>
    let next : Int := ((draws st.pos % 4 : Nat) : Int) + 1
    let st := { st with pos := st.pos + 1 }
    if next - 1 < 0 then Except.error (Fault.oob, st)
    else match available[(next - 1).toNat]? with
      | none => Except.error (Fault.oob, st)
      | some v => if v ≠ 0 then check_available_loop draws available k st
                  else Except.ok (next, st)

/-- The function `check_available`. -/
def check_available (N : Nat) (draws : Nat → Nat) (k : Nat) (i j : Int) (st : State) :
    Res (Int × State) :=
  match snapshot N st.maze i j with
  | none => Except.error (Fault.oob, st)
  | some available =>
    let st := { st with trace := st.trace ++ [Step.query i j available] }
    match available with
    | [a0, a1, a2, a3] =>
      if a0 = 1 ∧ a1 = 1 ∧ a2 = 1 ∧ a3 = 1 then Except.ok (0, st)
      else check_available_loop draws available k st
    | _ => Except.error (Fault.oob, st)

/-! ## `make_path` and `generate_maze` -/

/-- The function `make_path`, given the meaning `loop` of its do-while: record
the call, mark the tile, run the loop. -/
def make_path_body (loop : Nat → Int → Int → State → Res State)
    (depth : Nat) (i j previ prevj : Int) (st : State) : Res State :=
  let st := { st with trace := st.trace ++ [Step.enter i j previ prevj depth] }
  match wr st.maze i j 1 with
  | none => Except.error (Fault.oob, st)
  | some m => loop depth i j { st with maze := m }

/-- The do-while of `make_path(cr, i, j, ..)` run at nesting depth `depth`. -/
def make_path_loop (N : Nat) (draws : Nat → Nat) (k : Nat) :
    Nat → Nat → Int → Int → State → Res State
  | 0, _, _, _, st => Except.error (Fault.fuel, st)
  | fuel + 1, depth, i, j, st =>
    match check_available N draws k i j st with
    | Except.error e => Except.error e
    | Except.ok (next, st) =>
      let make_path := make_path_body (make_path_loop N draws k fuel) (depth + 1)
      let again := make_path_loop N draws k fuel depth i j
      if next = 1 then
        (make_path (i - 1) j i j (st.remove_wall (i - 1) j i j)).bind again
      else if next = 2 then
        (make_path i (j + 1) i j (st.remove_wall i (j + 1) i j)).bind again
      else if next = 3 then
        (make_path (i + 1) j i j (st.remove_wall (i + 1) j i j)).bind again
      else if next = 4 then
        (make_path i (j - 1) i j (st.remove_wall i (j - 1) i j)).bind again
      else if next = 0 then Except.ok st
      else again st

/-- The function `make_path`. -/
def make_path (N : Nat) (draws : Nat → Nat) (k fuel depth : Nat)
    (i j previ prevj : Int) (st : State) : Res State :=
  make_path_body (make_path_loop N draws k fuel) depth i j previ prevj st

/-- The function `generate_maze`: allocate the grid with every tile unvisited
and run `make_path(cr, 0, 0, 0, 0)`. -/
def generate_maze (N : Nat) (draws : Nat → Nat) (k fuel : Nat) (cr : List Cairo) :
    Res State :=
  let maze : Grid := List.replicate N (List.replicate N 0)
  make_path N draws k fuel 1 0 0 0 0 { maze := maze, pos := 0, cr := cr, trace := [] }

/-! ## `draw_grid` -/

/-- The cell lies inside the `N x N` grid. -/
def InB (N : Nat) (c : Cell) : Prop :=
  0 ≤ c.1 ∧ c.1 < (N : Int) ∧ 0 ≤ c.2 ∧ c.2 < (N : Int)

instance (N : Nat) (c : Cell) : Decidable (InB N c) := by
  unfold InB; infer_instance

/-- The grid is the `N x N` allocation of `generate_maze`. -/
def WF (N : Nat) (m : Grid) : Prop :=
  m.length = N ∧ ∀ row ∈ m, row.length = N

instance (N : Nat) (m : Grid) : Decidable (WF N m) := by
  unfold WF; infer_instance

/-- Every flag of the grid is `0` or `1`. -/
def Binary (m : Grid) : Prop :=
  ∀ row ∈ m, ∀ v ∈ row, v = 0 ∨ v = 1

instance (m : Grid) : Decidable (Binary m) := by
  unfold Binary; infer_instance

/-- The tile is marked visited. -/
def Vis (m : Grid) (c : Cell) : Prop := rd m c.1 c.2 = some 1

/-- The tile is inside the grid and unvisited. -/
def Unv (m : Grid) (c : Cell) : Prop := rd m c.1 c.2 = some 0

/-- The neighbour of a cell in direction `d`: 1 up, 2 right, 3 down, 4 left. -/
def nbr (c : Cell) (d : Int) : Cell :=
  if d = 1 then (c.1 - 1, c.2)
  else if d = 2 then (c.1, c.2 + 1)
  else if d = 3 then (c.1 + 1, c.2)
  else (c.1, c.2 - 1)

/-- The flag `check_available` copies for a neighbour: the tile's value, and
`1` when the bound guard skips the read. -/
def flag (m : Grid) (c : Cell) : Int := (rd m c.1 c.2).getD 1

/-- The array `available` of `check_available(i, j)` on a well-formed grid. -/
def flags (m : Grid) (c : Cell) : List Int :=
  [flag m (nbr c 1), flag m (nbr c 2), flag m (nbr c 3), flag m (nbr c 4)]

/-- The state after `check_available(i, j)` has filled `available`. -/
def State.queried (st : State) (i j : Int) : State :=
  { st with trace := st.trace ++ [Step.query i j (flags st.maze (i, j))] }

/-! ## The ghost trace -/

/-- The cells `make_path` was entered on, in order. -/
def entered (tr : List Step) : List Cell :=
  tr.filterMap fun s =>
    match s with
    | Step.enter i j _ _ _ => some (i, j)
    | _ => none

/-- The wall-removal events `(current, previous)`, in order. -/
def events (tr : List Step) : List (Cell × Cell) :=
  tr.filterMap fun s =>
    match s with
    | Step.wall i j previ prevj => some ((i, j), (previ, prevj))
    | _ => none

/-- The flag of a neighbour as the set of entered cells determines it. -/
def availFlag (N : Nat) (vis : List Cell) (x : Cell) : Int :=
  if InB N x ∧ x ∉ vis then 0 else 1

/-- The array `available` as the set of entered cells determines it. -/
def avail (N : Nat) (vis : List Cell) (c : Cell) : List Int :=
  [availFlag N vis (nbr c 1), availFlag N vis (nbr c 2),
   availFlag N vis (nbr c 3), availFlag N vis (nbr c 4)]

/-- The traces a generation run from the seed `(0, 0)` can produce: the seed
call, then queries by entered cells and descents from an entered cell into an
in-bounds neighbour that has not been entered. -/
inductive GenTrace (N : Nat) : List Step → Prop where
  | seed : 1 ≤ N → GenTrace N [Step.enter 0 0 0 0 1]
  | query {tr : List Step} {i j previ prevj : Int} {depth : Nat} :
      GenTrace N tr → Step.enter i j previ prevj depth ∈ tr →
      GenTrace N (tr ++ [Step.query i j (avail N (entered tr) (i, j))])
  | descend {tr : List Step} {i j previ prevj : Int} {depth : Nat} {d : Int} :
      GenTrace N tr → Step.enter i j previ prevj depth ∈ tr →
      1 ≤ d → d ≤ 4 → InB N (nbr (i, j) d) → nbr (i, j) d ∉ entered tr →
      GenTrace N (tr ++ [Step.wall (nbr (i, j) d).1 (nbr (i, j) d).2 i j,
        Step.enter (nbr (i, j) d).1 (nbr (i, j) d).2 i j (depth + 1)])

/-- The invariant of generation at the head of every do-while iteration: the
grid is the allocation, its flags are exactly the entered cells, and the trace
is a generation trace. -/
def J (N : Nat) (st : State) : Prop :=
  WF N st.maze
  ∧ (∀ c : Cell, InB N c → rd st.maze c.1 c.2 = some (if c ∈ entered st.trace then 1 else 0))
  ∧ GenTrace N st.trace

/-- The state `st2` continues the state `st1`: the trace and the draw position
only grow. -/
def Ext (st1 st2 : State) : Prop :=
  (∃ ext, st2.trace = st1.trace ++ ext) ∧ st1.pos ≤ st2.pos

/-- Every in-bounds neighbour of the cell has been entered. -/
def Closed (N : Nat) (tr : List Step) (x : Cell) : Prop :=
  ∀ d : Int, 1 ≤ d → d ≤ 4 → InB N (nbr x d) → nbr x d ∈ entered tr

/-- The state in which `make_path(cr, i, j, previ, prevj)` starts its do-while. -/
def State.marked (st : State) (m : Grid) (i j previ prevj : Int) (depth : Nat) : State :=
  { st with maze := m, trace := st.trace ++ [Step.enter i j previ prevj depth] }

/-- The cells of the grid, as a finite set. -/
def cellSet (N : Nat) : Finset Cell := Finset.Ico (0 : Int) N ×ˢ Finset.Ico (0 : Int) N

/-- What a do-while of `make_path` guarantees when it returns. -/
def LoopOk (N : Nat) (c : Cell) (st st' : State) : Prop :=
  J N st' ∧ Ext st st' ∧ Closed N st'.trace c
    ∧ ∀ x ∈ entered st'.trace, x ∉ entered st.trace → Closed N st'.trace x

/-- What a do-while of `make_path` guarantees when it stops on a fault. -/
def LoopErr (N : Nat) (draws : Nat → Nat) (k fuel : Nat) (st : State) (f : Fault)
    (st' : State) : Prop :=
  f ≠ Fault.oob ∧ J N st' ∧ Ext st st'
    ∧ (f = Fault.fuel → fuel + (entered st.trace).length ≤ N * N)
    ∧ (f = Fault.starved → ∃ p r, r < 4 ∧ ∀ t, t < k → draws (p + t) % 4 ≠ r)

/-- The state a run ended in, returned or faulted. -/
def final (r : Res State) : State :=
  match r with
  | Except.ok st => st
  | Except.error (_, st) => st

/-- The grid `generate_maze` allocates: every tile unvisited. -/
def fresh (N : Nat) : Grid := List.replicate N (List.replicate N 0)

/-! ## The passages as a graph -/

/-- Two cells are 4-adjacent: they differ by one in one coordinate and agree
in the other. -/
def Adj (a b : Cell) : Prop := (a.1 - b.1).natAbs + (a.2 - b.2).natAbs = 1

instance (a b : Cell) : Decidable (Adj a b) := by
  unfold Adj; infer_instance

/-- Some event joins the two cells, in either orientation. -/
def Linked (es : List (Cell × Cell)) (a b : Cell) : Prop := (a, b) ∈ es ∨ (b, a) ∈ es

/-- The two cells are joined by a chain of events. -/
def Conn (es : List (Cell × Cell)) : Cell → Cell → Prop := Relation.ReflTransGen (Linked es)

/-- Two events join the same unordered pair of cells. -/
def SamePair (e f : Cell × Cell) : Prop :=
  (e.1 = f.1 ∧ e.2 = f.2) ∨ (e.1 = f.2 ∧ e.2 = f.1)

/-- A cycle of passages: at least three pairwise distinct cells, each linked
to the next one, the last to the first. -/
def IsCycle (es : List (Cell × Cell)) (vs : List Cell) : Prop :=
  3 ≤ vs.length ∧ vs.Nodup
    ∧ ∀ i a b, vs[i]? = some a → vs[(i + 1) % vs.length]? = some b → Linked es a b

/-- The coordinates a recorded call was made with lie inside the grid, and a
recorded array `available` has four entries. -/
def StepInB (N : Nat) (s : Step) : Prop :=
  match s with
  | Step.enter i j previ prevj _ => InB N (i, j) ∧ InB N (previ, prevj)
  | Step.query i j available => InB N (i, j) ∧ available.length = 4
  | Step.wall i j previ prevj => InB N (i, j) ∧ InB N (previ, prevj)

/-- The pixel centre `(x, y)` of a tile, as `remove_wall` computes it:
`50 + ((col+1)*18) - 9` and `50 + ((row+1)*18) - 9`. -/
def centre (c : Cell) : Int × Int := (50 + ((c.2 + 1) * 18) - 9, 50 + ((c.1 + 1) * 18) - 9)

/-- The passages form a spanning tree of the `N x N` grid: `N * N - 1` events
between in-bounds cells, no unordered pair joined twice, any two cells of the
grid joined by a chain of passages, and no cycle. -/
def SpanningTree (N : Nat) (es : List (Cell × Cell)) : Prop :=
  es.length = N * N - 1
  ∧ (∀ e ∈ es, InB N e.1 ∧ InB N e.2)
  ∧ es.Pairwise (fun e f => ¬ SamePair e f)
  ∧ (∀ a b, InB N a → InB N b → Conn es a b)
  ∧ ¬ ∃ vs, IsCycle es vs

/-- A draw sequence that cycles through the four directions. -/
def roundRobin : Nat → Nat := fun n => n

/-- A sample run: the `2 x 2` grid on the round-robin draws. -/
def run2 : Res State := generate_maze 2 roundRobin 4 4 []

/-- Direction `d` is available from the cell: its neighbour is inside the grid
and unvisited. -/
def Available (N : Nat) (m : Grid) (c : Cell) (d : Int) : Prop :=
  InB N (nbr c d) ∧ rd m (nbr c d).1 (nbr c d).2 = some 0

/-- A sample state: the `2 x 2` grid with only the seed visited. -/
def seeded2 : State := { maze := [[1, 0], [0, 0]], pos := 0, cr := [], trace := [] }

/-- The midpoint between the pixel centres of two tiles. -/
def midpoint (a b : Cell) : ℚ × ℚ :=
  ((((centre a).1 : ℚ) + ((centre b).1 : ℚ)) / 2, (((centre a).2 : ℚ) + ((centre b).2 : ℚ)) / 2)

/-- The erasing stroke as the specification words it: a segment through the
midpoint of the two centres, spanning 7.5 px to either side, horizontal for
vertical neighbours (same column) and vertical for horizontal neighbours. -/
def erasing_segment (a b : Cell) : List Cairo :=
  if a.2 = b.2 then
    [Cairo.move_to ((midpoint a b).1 - 7.5) (midpoint a b).2,
     Cairo.line_to ((midpoint a b).1 + 7.5) (midpoint a b).2, Cairo.stroke]
  else
    [Cairo.move_to (midpoint a b).1 ((midpoint a b).2 + 7.5),
     Cairo.line_to (midpoint a b).1 ((midpoint a b).2 - 7.5), Cairo.stroke]

/-- The state in which the recursive call starts its do-while, after
`check_available(i, j)` returned direction `d` having advanced the draw
position to `p`: the wall is removed and the neighbour is marked. -/
def State.descended (st : State) (i j : Int) (depth : Nat) (d : Int) (p : Nat) : State :=
  let st1 : State := { st.queried i j with pos := p }
  let st2 : State := st1.remove_wall (nbr (i, j) d).1 (nbr (i, j) d).2 i j
  st2.marked ((wr st2.maze (nbr (i, j) d).1 (nbr (i, j) d).2 1).getD st2.maze)
    (nbr (i, j) d).1 (nbr (i, j) d).2 i j (depth + 1)

/-- A draw sequence that agrees with `roundRobin` on its first four draws. -/
def roundRobinThenUp : Nat → Nat := fun n => if n < 4 then n else 0

/-- The state in which the seed call `make_path(cr, 0, 0, 0, 0)` starts its
do-while. -/
def seeded (N : Nat) (cr : List Cairo) : State :=
  ({ maze := fresh N, pos := 0, cr := cr, trace := [] } : State).marked
    ((wr (fresh N) 0 0 1).getD (fresh N)) 0 0 0 0 1

/-- The number of unvisited tiles of the grid. -/
def unvisited (m : Grid) : Nat := (m.map (List.count 0)).sum

/-- The unvisited tiles and the calls made add up to the grid. -/
def Tally (N : Nat) (st : State) : Prop :=
  unvisited st.maze + (entered st.trace).length = N * N

/-! ## Vocabulary of the later claims -/

/-- The cell `x` is reachable from the cell `a` by 4-adjacent steps through
tiles that are unvisited in `m`, both ends included. -/
inductive Reach (m : Grid) : Cell → Cell → Prop where
  | refl {a : Cell} : Unv m a → Reach m a a
  | step {a x : Cell} {d : Int} : Unv m a → 1 ≤ d → d ≤ 4 → Reach m (nbr a d) x → Reach m a x

/-- The grid `m'` is the grid `m` with exactly the tiles of `S` set to `1`. -/
def Marks (m m' : Grid) (S : Cell → Prop) : Prop :=
  ∀ x : Cell, (S x → rd m' x.1 x.2 = some 1) ∧ (¬ S x → rd m' x.1 x.2 = rd m x.1 x.2)

/-- What a returned do-while of `make_path` at the cell `c` has done to the
grid: it marked exactly the tiles reachable from a neighbour of `c` through
unvisited tiles, and left every neighbour of `c` with flag `1`. -/
def LoopClosure (N : Nat) (m : Grid) (c : Cell) (m' : Grid) : Prop :=
  WF N m'
  ∧ Marks m m' (fun x => ∃ d : Int, 1 ≤ d ∧ d ≤ 4 ∧ Reach m (nbr c d) x)
  ∧ ∀ d : Int, 1 ≤ d → d ≤ 4 → flag m' (nbr c d) = 1

/-- What a returned call of `make_path` on the cell `c` has done to the grid. -/
def CallClosure (N : Nat) (m : Grid) (c : Cell) (m' : Grid) : Prop :=
  WF N m'
  ∧ Marks m m' (Reach m c)
  ∧ ∀ d : Int, 1 ≤ d → d ≤ 4 → flag m' (nbr c d) = 1

/-- A sample state: a `3 x 3` grid whose middle column is visited. -/
def walled3 : State :=
  { maze := [[0, 1, 0], [0, 1, 0], [0, 1, 0]], pos := 0, cr := [], trace := [] }

instance (N : Nat) (m : Grid) (c : Cell) (d : Int) : Decidable (Available N m c d) := by
  unfold Available; infer_instance

/-- A straight segment on the surface: its two end points `(x, y)`. -/
abbrev Segment := (ℚ × ℚ) × (ℚ × ℚ)

/-- The straight segments a list of cairo calls strokes: one for every
`move_to; line_to; stroke`. -/
def strokes : List Cairo → List Segment
  | [] => []
  | Cairo.move_to x y :: Cairo.line_to x' y' :: Cairo.stroke :: rest =>
      ((x, y), (x', y')) :: strokes rest
  | _ :: rest => strokes rest

/-- The wall between two 4-adjacent cells in closed form: on the grid line
`50 + 18 * max` between them, from 1.5 px inside one orthogonal grid line to
1.5 px inside the next. -/
def wall_line (a b : Cell) : Segment :=
  if a.2 = b.2 then
    ((50 + 18 * (a.2 : ℚ) + 1.5, 50 + 18 * ((max a.1 b.1 : Int) : ℚ)),
     (50 + 18 * ((a.2 : ℚ) + 1) - 1.5, 50 + 18 * ((max a.1 b.1 : Int) : ℚ)))
  else
    ((50 + 18 * ((max a.2 b.2 : Int) : ℚ), 50 + 18 * ((a.1 : ℚ) + 1) - 1.5),
     (50 + 18 * ((max a.2 b.2 : Int) : ℚ), 50 + 18 * (a.1 : ℚ) + 1.5))

/-- The segments stroked by the `remove_wall` call of an event. -/
def stroked (e : Cell × Cell) : List Segment :=
  strokes (remove_wall [] e.1.1 e.1.2 e.2.1 e.2.2)

/-- A draw sequence that always maps to direction 1 (up). -/
def alwaysUp : Nat → Nat := fun _ => 0

/-- The cairo calls of the `remove_wall` call of an event, as appended to the
context. -/
def erase (e : Cell × Cell) : List Cairo := remove_wall [] e.1.1 e.1.2 e.2.1 e.2.2

/-- The cairo context of the state is the start context `cr0` followed by the
calls of the `remove_wall` calls the trace records, in order. -/
def Drawn (cr0 : List Cairo) (st : State) : Prop :=
  st.cr = cr0 ++ (events st.trace).flatMap erase

/-! ## Grid access lemmas -/

theorem rd_some_inB {N : Nat} {m : Grid} (hm : WF N m) {r c v : Int}
    (h : rd m r c = some v) : InB N (r, c) := by
  unfold rd at h
  split at h
  · cases h
  · rename_i hneg
    push_neg at hneg
    split at h
    · cases h
    · rename_i row hrow
      have h1 : r.toNat < m.length := by
        by_contra hc
        rw [List.getElem?_eq_none (by omega)] at hrow
        cases hrow
      have h2 : c.toNat < row.length := by
        by_contra hc
        rw [List.getElem?_eq_none (by omega)] at h
        cases h
      have hmem : row ∈ m := List.getElem?_mem hrow
      have := hm.2 row hmem
      have := hm.1
      refine ⟨hneg.1, ?_, hneg.2, ?_⟩ <;> omega

theorem rd_inB {N : Nat} {m : Grid} (hm : WF N m) {r c : Int}
    (h : InB N (r, c)) : ∃ v, rd m r c = some v := by
  obtain ⟨h1, h2, h3, h4⟩ := h
  simp only at h1 h2 h3 h4
  have hr : r.toNat < m.length := by have := hm.1; omega
  have hrow : m[r.toNat]? = some m[r.toNat] := List.getElem?_eq_getElem hr
  have hlen : (m[r.toNat]).length = N := hm.2 _ (List.getElem_mem _)
  have hc : c.toNat < (m[r.toNat]).length := by omega
  refine ⟨(m[r.toNat])[c.toNat], ?_⟩
  unfold rd
  rw [if_neg (by omega), hrow]
  exact List.getElem?_eq_getElem hc

theorem wr_inB {N : Nat} {m : Grid} (hm : WF N m) {r c : Int} (v : Int)
    (h : InB N (r, c)) : ∃ m', wr m r c v = some m' := by
  obtain ⟨h1, h2, h3, h4⟩ := h
  simp only at h1 h2 h3 h4
  have hr : r.toNat < m.length := by have := hm.1; omega
  have hrow : m[r.toNat]? = some m[r.toNat] := List.getElem?_eq_getElem hr
  have hlen : (m[r.toNat]).length = N := hm.2 _ (List.getElem_mem _)
  have hc : c.toNat < (m[r.toNat]).length := by omega
  unfold wr
  rw [if_neg (by omega), hrow]
  simp [hc]

theorem wr_spec {N : Nat} {m m' : Grid} (hm : WF N m) {r c v : Int}
    (h : wr m r c v = some m') :
    WF N m' ∧ InB N (r, c) ∧
      ∀ r' c', rd m' r' c' = if r' = r ∧ c' = c then some v else rd m r' c' := by
  unfold wr at h
  split at h
  · cases h
  · rename_i hneg
    push_neg at hneg
    split at h
    · cases h
    · rename_i row hrow
      split at h
      · rename_i hc
        injection h with h
        subst h
        have h1 : r.toNat < m.length := by
          by_contra hcc
          rw [List.getElem?_eq_none (by omega)] at hrow
          cases hrow
        have hmem : row ∈ m := List.getElem?_mem hrow
        have hrl := hm.2 row hmem
        have hml := hm.1
        refine ⟨⟨by simpa using hml, ?_⟩, ⟨hneg.1, by omega, hneg.2, by omega⟩, ?_⟩
        · intro row' hrow'
          rcases List.mem_or_eq_of_mem_set hrow' with h | h
          · exact hm.2 _ h
          · subst h; simpa using hrl
        · intro r' c'
          unfold rd
          by_cases hn : r' < 0 ∨ c' < 0
          · rw [if_pos hn, if_pos hn]
            split
            · rename_i hh; omega
            · rfl
          · rw [if_neg hn, if_neg hn]
            push_neg at hn
            by_cases hr : r' = r
            · subst hr
              rw [List.getElem?_set_self h1, hrow]
              simp only [true_and]
              by_cases hcc : c' = c
              · subst hcc
                simp [List.getElem?_set_self hc]
              · rw [if_neg hcc]
                have : c.toNat ≠ c'.toNat := by omega
                simp [List.getElem?_set_ne this]
            · have : r.toNat ≠ r'.toNat := by omega
              rw [List.getElem?_set_ne this]
              simp [hr]
      · cases h

/-! ## `check_available` -/

theorem flag_of_inB {N : Nat} {m : Grid} (hm : WF N m) {c : Cell} (h : InB N c) :
    rd m c.1 c.2 = some (flag m c) := by
  obtain ⟨v, hv⟩ := rd_inB hm (r := c.1) (c := c.2) h
  simp [flag, hv]

theorem flag_of_not_inB {N : Nat} {m : Grid} (hm : WF N m) {c : Cell} (h : ¬ InB N c) :
    flag m c = 1 := by
  unfold flag
  cases hv : rd m c.1 c.2 with
  | none => rfl
  | some v => exact absurd (rd_some_inB hm hv) h

theorem flag_eq_zero {N : Nat} {m : Grid} (hm : WF N m) {c : Cell} (h : flag m c = 0) :
    Unv m c := by
  by_cases hc : InB N c
  · have := flag_of_inB hm hc
    rw [h] at this
    exact this
  · rw [flag_of_not_inB hm hc] at h
    cases h

theorem Unv.inB_of_unv {N : Nat} {m : Grid} (hm : WF N m) {c : Cell} (h : Unv m c) : InB N c :=
  rd_some_inB hm h

theorem Vis.inB_of_vis {N : Nat} {m : Grid} (hm : WF N m) {c : Cell} (h : Vis m c) : InB N c :=
  rd_some_inB hm h

theorem Unv.flag_zero {m : Grid} {c : Cell} (h : Unv m c) : flag m c = 0 := by
  unfold Unv at h
  simp [flag, h]

theorem snapshot_eq {N : Nat} {m : Grid} (hm : WF N m) {i j : Int} (h : InB N (i, j)) :
    snapshot N m i j = some [flag m (nbr (i, j) 1), flag m (nbr (i, j) 2),
      flag m (nbr (i, j) 3), flag m (nbr (i, j) 4)] := by
  obtain ⟨h1, h2, h3, h4⟩ := h
  simp only at h1 h2 h3 h4
  have e1 : (if i > 0 then (rd m (i - 1) j).map (fun v => [(1 : Int), 1, 1, 1].set 0 v)
      else some [1, 1, 1, 1]) = some [flag m (nbr (i, j) 1), 1, 1, 1] := by
    by_cases hg : i > 0
    · rw [if_pos hg]
      have := flag_of_inB hm (c := (i - 1, j)) ⟨by simp; omega, by simp; omega, h3, h4⟩
      simp only at this
      rw [this]
      simp [nbr]
    · rw [if_neg hg]
      rw [flag_of_not_inB hm (c := nbr (i, j) 1) (by simp [nbr, InB]; omega)]
  have e2 : ∀ x : Int, (if j < (N : Int) - 1 then
      (rd m i (j + 1)).map (fun v => [x, (1 : Int), 1, 1].set 1 v)
      else some [x, 1, 1, 1]) = some [x, flag m (nbr (i, j) 2), 1, 1] := by
    intro x
    by_cases hg : j < (N : Int) - 1
    · rw [if_pos hg]
      have := flag_of_inB hm (c := (i, j + 1)) ⟨h1, h2, by simp; omega, by simp; omega⟩
      simp only at this
      rw [this]
      simp [nbr]
    · rw [if_neg hg]
      rw [flag_of_not_inB hm (c := nbr (i, j) 2) (by simp [nbr, InB]; omega)]
  have e3 : ∀ x y : Int, (if i < (N : Int) - 1 then
      (rd m (i + 1) j).map (fun v => [x, y, (1 : Int), 1].set 2 v)
      else some [x, y, 1, 1]) = some [x, y, flag m (nbr (i, j) 3), 1] := by
    intro x y
    by_cases hg : i < (N : Int) - 1
    · rw [if_pos hg]
      have := flag_of_inB hm (c := (i + 1, j)) ⟨by simp; omega, by simp; omega, h3, h4⟩
      simp only at this
      rw [this]
      simp [nbr]
    · rw [if_neg hg]
      rw [flag_of_not_inB hm (c := nbr (i, j) 3) (by simp [nbr, InB]; omega)]
  have e4 : ∀ x y z : Int, (if j > 0 then
      (rd m i (j - 1)).map (fun v => [x, y, z, (1 : Int)].set 3 v)
      else some [x, y, z, 1]) = some [x, y, z, flag m (nbr (i, j) 4)] := by
    intro x y z
    by_cases hg : j > 0
    · rw [if_pos hg]
      have := flag_of_inB hm (c := (i, j - 1)) ⟨h1, h2, by simp; omega, by simp; omega⟩
      simp only at this
      rw [this]
      simp [nbr]
    · rw [if_neg hg]
      rw [flag_of_not_inB hm (c := nbr (i, j) 4) (by simp [nbr, InB]; omega)]
  unfold snapshot
  simp only [e1, Option.some_bind, e2, e3, e4]

/-- The rejection loop, described: within its budget it either starves on
unavailable draws only, or returns at the first available draw. -/
theorem check_available_loop_spec (draws : Nat → Nat) (a : List Int) (ha : a.length = 4)
    (k : Nat) (st : State) :
    (check_available_loop draws a k st = Except.error (Fault.starved, { st with pos := st.pos + k })
      ∧ ∀ t, t < k → a[draws (st.pos + t) % 4]? ≠ some 0)
    ∨ ∃ t, t < k ∧ a[draws (st.pos + t) % 4]? = some 0
        ∧ (∀ s, s < t → a[draws (st.pos + s) % 4]? ≠ some 0)
        ∧ check_available_loop draws a k st
            = Except.ok (((draws (st.pos + t) % 4 : Nat) : Int) + 1,
                { st with pos := st.pos + t + 1 }) := by
  induction k generalizing st with
  | zero =>
    left
    exact ⟨rfl, fun t ht => absurd ht (Nat.not_lt_zero _)⟩
  | succ k ih =>
    have hlt : draws st.pos % 4 < a.length := by rw [ha]; exact Nat.mod_lt _ (by decide)
    have hidx : ((((draws st.pos % 4 : Nat) : Int) + 1) - 1).toNat = draws st.pos % 4 := by
      omega
    have hget : a[draws st.pos % 4]? = some a[draws st.pos % 4] := List.getElem?_eq_getElem hlt
    have hstep : check_available_loop draws a (k + 1) st
        = if a[draws st.pos % 4] ≠ 0 then
            check_available_loop draws a k { st with pos := st.pos + 1 }
          else Except.ok (((draws st.pos % 4 : Nat) : Int) + 1, { st with pos := st.pos + 1 }) := by
      rw [check_available_loop]
      rw [if_neg (by omega), hidx, hget]
    by_cases hv : a[draws st.pos % 4] ≠ 0
    · rw [hstep, if_pos hv]
      rcases ih { st with pos := st.pos + 1 } with ⟨h1, h2⟩ | ⟨t, ht, h1, h2, h3⟩
      · left
        refine ⟨?_, ?_⟩
        · rw [h1]
          simp only [Nat.add_assoc, Nat.add_comm 1 k]
        · intro t ht
          cases t with
          | zero =>
            simp only [Nat.add_zero, hget]
            intro hc
            exact hv (Option.some.inj hc)
          | succ t =>
            have := h2 t (by omega)
            simpa [Nat.add_assoc, Nat.add_comm 1 t] using this
      · right
        refine ⟨t + 1, by omega, ?_, ?_, ?_⟩
        · simpa [Nat.add_assoc, Nat.add_comm 1 t] using h1
        · intro s hs
          cases s with
          | zero =>
            simp only [Nat.add_zero, hget]
            intro hc
            exact hv (Option.some.inj hc)
          | succ s =>
            have := h2 s (by omega)
            simpa [Nat.add_assoc, Nat.add_comm 1 s] using this
        · rw [h3]
          simp [Nat.add_assoc, Nat.add_comm 1 t]
    · rw [hstep, if_neg hv]
      push_neg at hv
      right
      refine ⟨0, by omega, ?_, ?_, ?_⟩
      · simp only [Nat.add_zero, hget, hv]
      · intro s hs
        exact absurd hs (Nat.not_lt_zero _)
      · rfl

theorem flags_getElem? (m : Grid) (c : Cell) (r : Nat) :
    (flags m c)[r % 4]? = some (flag m (nbr c (((r % 4 : Nat) : Int) + 1))) := by
  have h : r % 4 < 4 := Nat.mod_lt _ (by decide)
  generalize r % 4 = d at h
  interval_cases d <;> simp [flags, nbr]

/-- The three ways `check_available(i, j)` can end on a well-formed grid. -/
theorem check_available_cases {N : Nat} (draws : Nat → Nat) (k : Nat) {i j : Int}
    {st : State} (hm : WF N st.maze) (hc : InB N (i, j)) :
    ((∀ d : Int, 1 ≤ d → d ≤ 4 → flag st.maze (nbr (i, j) d) = 1)
      ∧ check_available N draws k i j st = Except.ok (0, st.queried i j))
    ∨ ((∃ d : Int, 1 ≤ d ∧ d ≤ 4 ∧ flag st.maze (nbr (i, j) d) ≠ 1)
      ∧ (∀ t, t < k → flag st.maze (nbr (i, j) (((draws (st.pos + t) % 4 : Nat) : Int) + 1)) ≠ 0)
      ∧ check_available N draws k i j st
          = Except.error (Fault.starved, { st.queried i j with pos := st.pos + k }))
    ∨ ∃ t, t < k
      ∧ flag st.maze (nbr (i, j) (((draws (st.pos + t) % 4 : Nat) : Int) + 1)) = 0
      ∧ (∀ s, s < t → flag st.maze (nbr (i, j) (((draws (st.pos + s) % 4 : Nat) : Int) + 1)) ≠ 0)
      ∧ check_available N draws k i j st
          = Except.ok (((draws (st.pos + t) % 4 : Nat) : Int) + 1,
              { st.queried i j with pos := st.pos + t + 1 }) := by
  have hsnap := snapshot_eq hm hc
  have hunf : check_available N draws k i j st
      = if flag st.maze (nbr (i, j) 1) = 1 ∧ flag st.maze (nbr (i, j) 2) = 1
            ∧ flag st.maze (nbr (i, j) 3) = 1 ∧ flag st.maze (nbr (i, j) 4) = 1
        then Except.ok (0, st.queried i j)
        else check_available_loop draws (flags st.maze (i, j)) k (st.queried i j) := by
    unfold check_available
    rw [hsnap]
    rfl
  rw [hunf]
  by_cases hall : flag st.maze (nbr (i, j) 1) = 1 ∧ flag st.maze (nbr (i, j) 2) = 1
      ∧ flag st.maze (nbr (i, j) 3) = 1 ∧ flag st.maze (nbr (i, j) 4) = 1
  · left
    rw [if_pos hall]
    refine ⟨?_, rfl⟩
    intro d h1 h4
    obtain ⟨a1, a2, a3, a4⟩ := hall
    have : d = 1 ∨ d = 2 ∨ d = 3 ∨ d = 4 := by omega
    rcases this with h | h | h | h <;> subst h <;> assumption
  · right
    rw [if_neg hall]
    have hex : ∃ d : Int, 1 ≤ d ∧ d ≤ 4 ∧ flag st.maze (nbr (i, j) d) ≠ 1 := by
      by_contra hcon
      push_neg at hcon
      exact hall ⟨hcon 1 (by decide) (by decide), hcon 2 (by decide) (by decide),
        hcon 3 (by decide) (by decide), hcon 4 (by decide) (by decide)⟩
    rcases check_available_loop_spec draws (flags st.maze (i, j)) rfl k (st.queried i j)
      with ⟨h1, h2⟩ | ⟨t, ht, h1, h2, h3⟩
    · left
      refine ⟨hex, ?_, h1⟩
      intro t ht hz
      apply h2 t ht
      rw [flags_getElem?]
      exact congrArg some hz
    · right
      refine ⟨t, ht, ?_, ?_, h3⟩
      · rw [flags_getElem?] at h1
        exact Option.some.inj h1
      · intro s hs hz
        apply h2 s hs
        rw [flags_getElem?]
        exact congrArg some hz

/-! ## One iteration of `make_path` -/

theorem make_path_loop_zero (N : Nat) (draws : Nat → Nat) (k depth : Nat) (i j : Int)
    (st : State) :
    make_path_loop N draws k 0 depth i j st = Except.error (Fault.fuel, st) := rfl

theorem make_path_loop_error (N : Nat) (draws : Nat → Nat) (k fuel depth : Nat) (i j : Int)
    (st : State) (e : Fault × State)
    (h : check_available N draws k i j st = Except.error e) :
    make_path_loop N draws k (fuel + 1) depth i j st = Except.error e := by
  rw [make_path_loop, h]

theorem make_path_loop_done (N : Nat) (draws : Nat → Nat) (k fuel depth : Nat) (i j : Int)
    (st st1 : State) (h : check_available N draws k i j st = Except.ok (0, st1)) :
    make_path_loop N draws k (fuel + 1) depth i j st = Except.ok st1 := by
  rw [make_path_loop, h]
  rfl

theorem make_path_loop_dir (N : Nat) (draws : Nat → Nat) (k fuel depth : Nat) (i j : Int)
    (st st1 : State) (d : Int) (h1 : 1 ≤ d) (h4 : d ≤ 4)
    (h : check_available N draws k i j st = Except.ok (d, st1)) :
    make_path_loop N draws k (fuel + 1) depth i j st
      = (make_path N draws k fuel (depth + 1) (nbr (i, j) d).1 (nbr (i, j) d).2 i j
          (st1.remove_wall (nbr (i, j) d).1 (nbr (i, j) d).2 i j)).bind
        (make_path_loop N draws k fuel depth i j) := by
  rw [make_path_loop, h]
  have : d = 1 ∨ d = 2 ∨ d = 3 ∨ d = 4 := by omega
  rcases this with h | h | h | h <;> subst h <;> rfl

theorem make_path_eq {N : Nat} (draws : Nat → Nat) (k fuel depth : Nat) {i j : Int}
    (previ prevj : Int) {st : State} (hm : WF N st.maze) (hc : InB N (i, j)) :
    ∃ m, wr st.maze i j 1 = some m ∧
      make_path N draws k fuel depth i j previ prevj st
        = make_path_loop N draws k fuel depth i j (st.marked m i j previ prevj depth) := by
  obtain ⟨m, hmw⟩ := wr_inB hm 1 hc
  refine ⟨m, hmw, ?_⟩
  unfold make_path make_path_body
  simp only [hmw]
  rfl

/-! ## Generation traces -/

theorem entered_append (a b : List Step) : entered (a ++ b) = entered a ++ entered b := by
  simp [entered, List.filterMap_append]

theorem events_append (a b : List Step) : events (a ++ b) = events a ++ events b := by
  simp [events, List.filterMap_append]

theorem entered_query (tr : List Step) (i j : Int) (a : List Int) :
    entered (tr ++ [Step.query i j a]) = entered tr := by
  simp [entered, List.filterMap_append]

theorem events_query (tr : List Step) (i j : Int) (a : List Int) :
    events (tr ++ [Step.query i j a]) = events tr := by
  simp [events, List.filterMap_append]

theorem entered_descend (tr : List Step) (i j pi pj i2 j2 pi2 pj2 : Int) (depth : Nat) :
    entered (tr ++ [Step.wall i j pi pj, Step.enter i2 j2 pi2 pj2 depth])
      = entered tr ++ [(i2, j2)] := by
  simp [entered, List.filterMap_append]

theorem events_descend (tr : List Step) (i j pi pj i2 j2 pi2 pj2 : Int) (depth : Nat) :
    events (tr ++ [Step.wall i j pi pj, Step.enter i2 j2 pi2 pj2 depth])
      = events tr ++ [((i, j), (pi, pj))] := by
  simp [events, List.filterMap_append]

theorem mem_entered_of_enter {tr : List Step} {i j pi pj : Int} {depth : Nat}
    (h : Step.enter i j pi pj depth ∈ tr) : (i, j) ∈ entered tr := by
  unfold entered
  rw [List.mem_filterMap]
  exact ⟨_, h, rfl⟩

theorem enter_of_mem_entered {tr : List Step} {c : Cell} (h : c ∈ entered tr) :
    ∃ pi pj depth, Step.enter c.1 c.2 pi pj depth ∈ tr := by
  unfold entered at h
  rw [List.mem_filterMap] at h
  obtain ⟨s, hs, he⟩ := h
  cases s with
  | enter i j pi pj depth =>
    simp only [Option.some.injEq] at he
    subst he
    exact ⟨pi, pj, depth, hs⟩
  | query i j a => simp at he
  | wall i j pi pj => simp at he

theorem GenTrace.one_le {N : Nat} {tr : List Step} (h : GenTrace N tr) : 1 ≤ N := by
  induction h with
  | seed h => exact h
  | query _ _ ih => exact ih
  | descend _ _ _ _ _ _ ih => exact ih

theorem GenTrace.entered_inB {N : Nat} {tr : List Step} (h : GenTrace N tr) :
    ∀ c ∈ entered tr, InB N c := by
  induction h with
  | seed h =>
    intro c hc
    simp [entered] at hc
    subst hc
    simp [InB]
    omega
  | query _ _ ih =>
    rw [entered_query]
    exact ih
  | descend _ _ _ _ hin _ ih =>
    rw [entered_descend]
    intro c hc
    rcases List.mem_append.1 hc with h | h
    · exact ih c h
    · simp at h
      subst h
      exact hin

theorem GenTrace.entered_nodup {N : Nat} {tr : List Step} (h : GenTrace N tr) :
    (entered tr).Nodup := by
  induction h with
  | seed h => simp [entered]
  | query _ _ ih =>
    rw [entered_query]
    exact ih
  | descend _ _ _ _ _ hnot ih =>
    rw [entered_descend]
    rw [List.nodup_append]
    refine ⟨ih, List.nodup_singleton _, ?_⟩
    intro a ha hb
    simp at hb
    subst hb
    exact hnot ha

theorem mem_cellSet {N : Nat} {c : Cell} : c ∈ cellSet N ↔ InB N c := by
  simp [cellSet, InB, Finset.mem_product, and_assoc]

theorem card_cellSet (N : Nat) : (cellSet N).card = N * N := by
  simp [cellSet, Finset.card_product]

theorem length_le_of_nodup_inB {N : Nat} {l : List Cell} (hn : l.Nodup)
    (hb : ∀ c ∈ l, InB N c) : l.length ≤ N * N := by
  rw [← card_cellSet N, ← List.toFinset_card_of_nodup hn]
  apply Finset.card_le_card
  intro c hc
  rw [List.mem_toFinset] at hc
  exact mem_cellSet.2 (hb c hc)

theorem length_eq_of_nodup_cover {N : Nat} {l : List Cell} (hn : l.Nodup)
    (hb : ∀ c, c ∈ l ↔ InB N c) : l.length = N * N := by
  rw [← card_cellSet N, ← List.toFinset_card_of_nodup hn]
  congr 1
  ext c
  rw [List.mem_toFinset, mem_cellSet]
  exact hb c

theorem GenTrace.calls_le {N : Nat} {tr : List Step} (h : GenTrace N tr) :
    (entered tr).length ≤ N * N :=
  length_le_of_nodup_inB h.entered_nodup h.entered_inB

/-! ## The invariant is kept -/

theorem J.flag_eq {N : Nat} {st : State} (h : J N st) (x : Cell) :
    flag st.maze x = availFlag N (entered st.trace) x := by
  unfold availFlag
  by_cases hx : InB N x
  · have h1 := h.2.1 x hx
    unfold flag
    rw [h1]
    by_cases he : x ∈ entered st.trace <;> simp [he, hx]
  · rw [flag_of_not_inB h.1 hx]
    simp [hx]

theorem J.flags_eq {N : Nat} {st : State} (h : J N st) (c : Cell) :
    flags st.maze c = avail N (entered st.trace) c := by
  simp [flags, avail, h.flag_eq]

theorem J.queried_inv {N : Nat} {st : State} (h : J N st) {i j pi pj : Int} {depth : Nat}
    (he : Step.enter i j pi pj depth ∈ st.trace) (p : Nat) :
    J N { st.queried i j with pos := p } := by
  refine ⟨h.1, ?_, ?_⟩
  · intro c hc
    show rd st.maze c.1 c.2 = _
    simp only [State.queried, entered_query]
    exact h.2.1 c hc
  · show GenTrace N (st.trace ++ [Step.query i j (flags st.maze (i, j))])
    rw [h.flags_eq]
    exact GenTrace.query h.2.2 he

theorem J.not_entered {N : Nat} {st : State} (h : J N st) {x : Cell}
    (hz : flag st.maze x = 0) : InB N x ∧ x ∉ entered st.trace := by
  rw [h.flag_eq] at hz
  unfold availFlag at hz
  by_contra hc
  rw [if_neg hc] at hz
  cases hz

theorem J.descend_inv {N : Nat} {st : State} (h : J N st) {i j pi pj : Int} {depth : Nat}
    (he : Step.enter i j pi pj depth ∈ st.trace) {d : Int} (h1 : 1 ≤ d) (h4 : d ≤ 4)
    (hz : flag st.maze (nbr (i, j) d) = 0) {m : Grid}
    (hw : wr st.maze (nbr (i, j) d).1 (nbr (i, j) d).2 1 = some m) :
    J N ((st.remove_wall (nbr (i, j) d).1 (nbr (i, j) d).2 i j).marked m
      (nbr (i, j) d).1 (nbr (i, j) d).2 i j (depth + 1)) := by
  obtain ⟨hin, hnot⟩ := h.not_entered hz
  obtain ⟨hwf, _, hrd⟩ := wr_spec h.1 hw
  have htr : ((st.remove_wall (nbr (i, j) d).1 (nbr (i, j) d).2 i j).marked m
      (nbr (i, j) d).1 (nbr (i, j) d).2 i j (depth + 1)).trace
      = st.trace ++ [Step.wall (nbr (i, j) d).1 (nbr (i, j) d).2 i j,
          Step.enter (nbr (i, j) d).1 (nbr (i, j) d).2 i j (depth + 1)] := by
    simp [State.marked, State.remove_wall]
  refine ⟨hwf, ?_, ?_⟩
  · intro c hc
    rw [htr, entered_descend]
    show rd m c.1 c.2 = _
    rw [hrd]
    by_cases hcn : c = nbr (i, j) d
    · subst hcn
      simp
    · have : ¬ (c.1 = (nbr (i, j) d).1 ∧ c.2 = (nbr (i, j) d).2) := by
        intro hh
        exact hcn (Prod.ext hh.1 hh.2)
      rw [if_neg this, h.2.1 c hc]
      simp [hcn]
  · rw [htr]
    exact GenTrace.descend h.2.2 he h1 h4 hin hnot

theorem Ext.refl (st : State) : Ext st st := ⟨⟨[], by simp⟩, Nat.le_refl _⟩

theorem Ext.trans_ext {a b c : State} (h1 : Ext a b) (h2 : Ext b c) : Ext a c := by
  obtain ⟨⟨e1, he1⟩, hp1⟩ := h1
  obtain ⟨⟨e2, he2⟩, hp2⟩ := h2
  exact ⟨⟨e1 ++ e2, by rw [he2, he1, List.append_assoc]⟩, Nat.le_trans hp1 hp2⟩

theorem Ext.mem {a b : State} (h : Ext a b) {s : Step} (hs : s ∈ a.trace) : s ∈ b.trace := by
  obtain ⟨⟨e, he⟩, _⟩ := h
  rw [he]
  exact List.mem_append_left _ hs

theorem Ext.entered_eq {a b : State} (h : Ext a b) :
    ∃ l, entered b.trace = entered a.trace ++ l := by
  obtain ⟨⟨e, he⟩, _⟩ := h
  exact ⟨entered e, by rw [he, entered_append]⟩

theorem Ext.mem_entered {a b : State} (h : Ext a b) {x : Cell} (hx : x ∈ entered a.trace) :
    x ∈ entered b.trace := by
  obtain ⟨l, hl⟩ := h.entered_eq
  rw [hl]
  exact List.mem_append_left _ hx

theorem Ext.length_le {a b : State} (h : Ext a b) :
    (entered a.trace).length ≤ (entered b.trace).length := by
  obtain ⟨l, hl⟩ := h.entered_eq
  rw [hl, List.length_append]
  omega

theorem Ext.closed {N : Nat} {a b : State} (h : Ext a b) {x : Cell}
    (hx : Closed N a.trace x) : Closed N b.trace x :=
  fun d h1 h4 hin => h.mem_entered (hx d h1 h4 hin)

theorem Ext.queried_ext (st : State) (i j : Int) (p : Nat) (hp : st.pos ≤ p) :
    Ext st { st.queried i j with pos := p } :=
  ⟨⟨_, rfl⟩, hp⟩

theorem Ext.descend_ext (st : State) (m : Grid) (i j pi pj i2 j2 pi2 pj2 : Int) (depth : Nat) :
    Ext st ((st.remove_wall i j pi pj).marked m i2 j2 pi2 pj2 depth) :=
  ⟨⟨[Step.wall i j pi pj, Step.enter i2 j2 pi2 pj2 depth], by
    simp [State.marked, State.remove_wall]⟩, Nat.le_refl _⟩

/-! ## The main induction -/

theorem availFlag_cases (N : Nat) (vis : List Cell) (x : Cell) :
    availFlag N vis x = 0 ∨ availFlag N vis x = 1 := by
  unfold availFlag
  split
  · exact Or.inl rfl
  · exact Or.inr rfl

theorem starved_window {N : Nat} {st : State} (h : J N st) (draws : Nat → Nat) (k : Nat)
    {c : Cell} (hex : ∃ d : Int, 1 ≤ d ∧ d ≤ 4 ∧ flag st.maze (nbr c d) ≠ 1)
    (hall : ∀ t, t < k → flag st.maze (nbr c (((draws (st.pos + t) % 4 : Nat) : Int) + 1)) ≠ 0) :
    ∃ p r, r < 4 ∧ ∀ t, t < k → draws (p + t) % 4 ≠ r := by
  obtain ⟨d, h1, h4, hne⟩ := hex
  have hz : flag st.maze (nbr c d) = 0 := by
    rw [h.flag_eq] at hne ⊢
    rcases availFlag_cases N (entered st.trace) (nbr c d) with h0 | h0
    · exact h0
    · exact absurd h0 hne
  refine ⟨st.pos, (d - 1).toNat, by omega, ?_⟩
  intro t ht heq
  apply hall t ht
  have : (((draws (st.pos + t) % 4 : Nat) : Int) + 1) = d := by omega
  rw [this]
  exact hz

theorem closed_of_flags {N : Nat} {st : State} (h : J N st) {c : Cell}
    (hall : ∀ d : Int, 1 ≤ d → d ≤ 4 → flag st.maze (nbr c d) = 1) (tr : List Step)
    (htr : entered tr = entered st.trace) : Closed N tr c := by
  intro d h1 h4 hin
  have := hall d h1 h4
  rw [h.flag_eq] at this
  unfold availFlag at this
  rw [htr]
  by_contra hc
  rw [if_pos ⟨hin, hc⟩] at this
  cases this

/-- The main invariant of the recursive backtracker: by induction on the fuel. -/
theorem make_path_loop_inv (N : Nat) (draws : Nat → Nat) (k : Nat) :
    ∀ (fuel depth : Nat) (i j pi pj : Int) (st : State), J N st →
      Step.enter i j pi pj depth ∈ st.trace →
      (∀ st', make_path_loop N draws k fuel depth i j st = Except.ok st' →
        LoopOk N (i, j) st st')
      ∧ (∀ f st', make_path_loop N draws k fuel depth i j st = Except.error (f, st') →
        LoopErr N draws k fuel st f st') := by
  intro fuel
  induction fuel with
  | zero =>
    intro depth i j pi pj st hJ he
    rw [make_path_loop_zero]
    refine ⟨fun st' h => (by cases h), fun f st' h => ?_⟩
    injection h with h
    injection h with h1 h2
    subst h1 h2
    refine ⟨by decide, hJ, Ext.refl _, fun _ => ?_, fun h => (by cases h)⟩
    have := hJ.2.2.calls_le
    omega
  | succ fuel ih =>
    intro depth i j pi pj st hJ he
    have hc : InB N (i, j) := hJ.2.2.entered_inB _ (mem_entered_of_enter he)
    rcases check_available_cases draws k hJ.1 hc with
      ⟨hall, hres⟩ | ⟨hex, hnone, hres⟩ | ⟨t, _, hz, _, hres⟩
    · -- no tile left: the loop returns
      rw [make_path_loop_done _ _ _ _ _ _ _ _ _ hres]
      refine ⟨fun st' h => ?_, fun f st' h => by cases h⟩
      injection h with h
      subst h
      have hJq := hJ.queried_inv he st.pos
      refine ⟨hJq, Ext.queried_ext st i j st.pos (Nat.le_refl _), ?_, ?_⟩
      · exact closed_of_flags hJ hall _ (entered_query _ _ _ _)
      · intro x hx hnx
        exact absurd (by simpa [State.queried, entered_query] using hx) hnx
    · -- the rejection loop starves
      rw [make_path_loop_error _ _ _ _ _ _ _ _ _ hres]
      refine ⟨fun st' h => (by cases h), fun f st' h => ?_⟩
      injection h with h
      injection h with h1 h2
      subst h1 h2
      exact ⟨by decide, hJ.queried_inv he _, Ext.queried_ext st i j _ (Nat.le_add_right _ _),
        fun h => (by cases h), fun _ => starved_window hJ draws k hex hnone⟩
    · -- a direction was drawn: remove the wall, recurse, loop again
      have hJ1 := hJ.queried_inv he (st.pos + t + 1)
      have hE1 : Ext st { st.queried i j with pos := st.pos + t + 1 } :=
        Ext.queried_ext st i j _ (by omega)
      have he1 : Step.enter i j pi pj depth
          ∈ ({ st.queried i j with pos := st.pos + t + 1 } : State).trace := hE1.mem he
      generalize hd : (((draws (st.pos + t) % 4 : Nat) : Int) + 1) = d at hz hres
      have h1 : 1 ≤ d := by omega
      have h4 : d ≤ 4 := by omega
      generalize hst1 : ({ st.queried i j with pos := st.pos + t + 1 } : State) = st1
        at hres hJ1 hE1 he1
      have hz1 : flag st1.maze (nbr (i, j) d) = 0 := by
        rw [← hst1]
        exact hz
      obtain ⟨hin, hnot⟩ := hJ1.not_entered hz1
      rw [make_path_loop_dir _ _ _ _ _ _ _ _ _ d h1 h4 hres]
      obtain ⟨m, hw, hmp⟩ := @make_path_eq N draws k fuel (depth + 1)
        (nbr (i, j) d).1 (nbr (i, j) d).2 i j
        (st1.remove_wall (nbr (i, j) d).1 (nbr (i, j) d).2 i j) hJ1.1 hin
      rw [hmp]
      have hJ2 := hJ1.descend_inv he1 h1 h4 hz1 hw
      have hE2 := Ext.descend_ext st1 m (nbr (i, j) d).1 (nbr (i, j) d).2 i j
        (nbr (i, j) d).1 (nbr (i, j) d).2 i j (depth + 1)
      generalize hst2 : (st1.remove_wall (nbr (i, j) d).1 (nbr (i, j) d).2 i j).marked m
        (nbr (i, j) d).1 (nbr (i, j) d).2 i j (depth + 1) = st2 at hJ2 hE2
      have hen2 : entered st2.trace = entered st1.trace ++ [nbr (i, j) d] := by
        rw [← hst2]
        simp [State.marked, State.remove_wall, entered_append, entered]
      have he2 : Step.enter (nbr (i, j) d).1 (nbr (i, j) d).2 i j (depth + 1) ∈ st2.trace := by
        rw [← hst2]
        simp [State.marked, State.remove_wall]
      have hen1 : entered st1.trace = entered st.trace := by
        rw [← hst1]
        simp [State.queried, entered_query]
      obtain ⟨ihok, iherr⟩ := ih (depth + 1) (nbr (i, j) d).1 (nbr (i, j) d).2 i j st2 hJ2 he2
      cases hr : make_path_loop N draws k fuel (depth + 1) (nbr (i, j) d).1 (nbr (i, j) d).2 st2 with
      | error e =>
        obtain ⟨f, st'⟩ := e
        obtain ⟨hf, hJ', hE', hfu, hsv⟩ := iherr f st' hr
        refine ⟨fun st'' h => (by cases h), fun f' st'' h => ?_⟩
        injection h with h
        injection h with h1 h2
        subst h1 h2
        refine ⟨hf, hJ', hE1.trans_ext (hE2.trans_ext hE'), fun hff => ?_, hsv⟩
        have := hfu hff
        rw [hen2, hen1, List.length_append] at this
        simp only [List.length_singleton] at this
        omega
      | ok st3 =>
        obtain ⟨hJ3, hE3, hcl3, hnew3⟩ := ihok st3 hr
        have he3 : Step.enter i j pi pj depth ∈ st3.trace := hE3.mem (hE2.mem he1)
        obtain ⟨ihok', iherr'⟩ := ih depth i j pi pj st3 hJ3 he3
        have hlen3 : (entered st.trace).length + 1 ≤ (entered st3.trace).length := by
          have := hE3.length_le
          rw [hen2, hen1, List.length_append] at this
          simpa using this
        refine ⟨fun st' h => ?_, fun f st' h => ?_⟩
        · obtain ⟨hJ', hE', hcl', hnew'⟩ := ihok' st' h
          refine ⟨hJ', hE1.trans_ext (hE2.trans_ext (hE3.trans_ext hE')), hcl', ?_⟩
          intro x hx hnx
          by_cases hx3 : x ∈ entered st3.trace
          · by_cases hx2 : x ∈ entered st2.trace
            · rw [hen2, hen1] at hx2
              rcases List.mem_append.1 hx2 with hh | hh
              · exact absurd hh hnx
              · simp only [List.mem_singleton] at hh
                subst hh
                exact hE'.closed hcl3
            · exact hE'.closed (hnew3 x hx3 hx2)
          · exact hnew' x hx hx3
        · obtain ⟨hf, hJ', hE', hfu, hsv⟩ := iherr' f st' h
          refine ⟨hf, hJ', hE1.trans_ext (hE2.trans_ext (hE3.trans_ext hE')), fun hff => ?_, hsv⟩
          have := hfu hff
          omega

/-! ## `generate_maze` -/

theorem fresh_WF (N : Nat) : WF N (fresh N) := by
  refine ⟨by simp [fresh], ?_⟩
  intro row hrow
  simp only [fresh] at hrow
  rw [List.eq_of_mem_replicate hrow]
  simp

theorem fresh_rd {N : Nat} {c : Cell} (h : InB N c) : rd (fresh N) c.1 c.2 = some 0 := by
  obtain ⟨v, hv⟩ := rd_inB (fresh_WF N) (r := c.1) (c := c.2) h
  rw [hv]
  unfold rd at hv
  split at hv
  · cases hv
  · split at hv
    · cases hv
    · rename_i row hrow
      have h1 : row = List.replicate N 0 :=
        List.eq_of_mem_replicate (List.getElem?_mem hrow)
      subst h1
      have h2 := List.getElem?_mem hv
      rw [List.eq_of_mem_replicate h2]

/-- The seed call: `generate_maze` is the do-while of `make_path` on the seeded
state, which satisfies the invariant. -/
theorem generate_maze_seeded {N : Nat} (hN : 1 ≤ N) (draws : Nat → Nat) (k fuel : Nat)
    (cr : List Cairo) :
    J N (seeded N cr) ∧ (seeded N cr).trace = [Step.enter 0 0 0 0 1] ∧ (seeded N cr).pos = 0 ∧
      generate_maze N draws k fuel cr = make_path_loop N draws k fuel 1 0 0 (seeded N cr) := by
  have hc : InB N ((0 : Int), (0 : Int)) := by
    simp [InB]
    omega
  obtain ⟨m, hw, hmp⟩ := @make_path_eq N draws k fuel 1 0 0 0 0
    { maze := fresh N, pos := 0, cr := cr, trace := [] } (fresh_WF N) hc
  obtain ⟨hwf, _, hrd⟩ := wr_spec (fresh_WF N) hw
  have hw' : wr (fresh N) 0 0 1 = some m := hw
  have hs : seeded N cr
      = ({ maze := fresh N, pos := 0, cr := cr, trace := [] } : State).marked m 0 0 0 0 1 := by
    unfold seeded
    rw [hw']
    rfl
  rw [hs]
  refine ⟨⟨hwf, ?_, ?_⟩, ?_, ?_, hmp⟩
  · intro c hcb
    show rd m c.1 c.2 = _
    rw [hrd]
    have hent : entered (({ maze := fresh N, pos := 0, cr := cr, trace := [] } : State).marked
        m 0 0 0 0 1).trace = [((0 : Int), (0 : Int))] := by
      simp [State.marked, entered]
    rw [hent]
    by_cases h0 : c = (0, 0)
    · subst h0
      simp
    · have : ¬ (c.1 = 0 ∧ c.2 = 0) := fun hh => h0 (Prod.ext hh.1 hh.2)
      rw [if_neg this]
      simp only [List.mem_singleton, h0, if_false]
      exact fresh_rd hcb
  · exact GenTrace.seed hN
  · rfl
  · rfl

theorem generate_maze_eq {N : Nat} (hN : 1 ≤ N) (draws : Nat → Nat) (k fuel : Nat)
    (cr : List Cairo) :
    ∃ st0 : State, J N st0 ∧ st0.trace = [Step.enter 0 0 0 0 1] ∧ st0.pos = 0 ∧
      generate_maze N draws k fuel cr = make_path_loop N draws k fuel 1 0 0 st0 :=
  ⟨seeded N cr, generate_maze_seeded hN draws k fuel cr⟩

/-- A returned run: the invariant holds and every entered cell is closed. -/
theorem generate_maze_ok {N : Nat} (hN : 1 ≤ N) {draws : Nat → Nat} {k fuel : Nat}
    {cr : List Cairo} {st : State} (h : generate_maze N draws k fuel cr = Except.ok st) :
    J N st ∧ ∀ x ∈ entered st.trace, Closed N st.trace x := by
  obtain ⟨st0, hJ0, htr0, _, heq⟩ := generate_maze_eq hN draws k fuel cr
  rw [heq] at h
  have he0 : Step.enter 0 0 0 0 1 ∈ st0.trace := by
    rw [htr0]
    exact List.mem_singleton_self _
  obtain ⟨hJ, _, hcl, hnew⟩ := (make_path_loop_inv N draws k fuel 1 0 0 0 0 st0 hJ0 he0).1 st h
  refine ⟨hJ, ?_⟩
  intro x hx
  by_cases hx0 : x ∈ entered st0.trace
  · rw [htr0] at hx0
    simp [entered] at hx0
    subst hx0
    exact hcl
  · exact hnew x hx hx0

/-- A faulted run: never out of bounds; out of fuel only below `N * N`; starved
only on a window of `k` draws that misses a direction. -/
theorem generate_maze_error {N : Nat} (hN : 1 ≤ N) {draws : Nat → Nat} {k fuel : Nat}
    {cr : List Cairo} {f : Fault} {st : State}
    (h : generate_maze N draws k fuel cr = Except.error (f, st)) :
    f ≠ Fault.oob ∧ J N st ∧ (f = Fault.fuel → fuel < N * N)
      ∧ (f = Fault.starved → ∃ p r, r < 4 ∧ ∀ t, t < k → draws (p + t) % 4 ≠ r) := by
  obtain ⟨st0, hJ0, htr0, _, heq⟩ := generate_maze_eq hN draws k fuel cr
  rw [heq] at h
  have he0 : Step.enter 0 0 0 0 1 ∈ st0.trace := by
    rw [htr0]
    exact List.mem_singleton_self _
  obtain ⟨hf, hJ, _, hfu, hsv⟩ :=
    (make_path_loop_inv N draws k fuel 1 0 0 0 0 st0 hJ0 he0).2 f st h
  refine ⟨hf, hJ, fun hff => ?_, hsv⟩
  have := hfu hff
  rw [htr0] at this
  simp [entered] at this
  omega

/-- Every run, returned or not, ends in a state that satisfies the invariant. -/
theorem generate_maze_final {N : Nat} (hN : 1 ≤ N) (draws : Nat → Nat) (k fuel : Nat)
    (cr : List Cairo) : J N (final (generate_maze N draws k fuel cr)) := by
  cases h : generate_maze N draws k fuel cr with
  | ok st => exact (generate_maze_ok hN h).1
  | error e =>
    obtain ⟨f, st⟩ := e
    exact (generate_maze_error hN h).2.1

/-- On the empty grid the seed call faults at once. -/
theorem generate_maze_zero (draws : Nat → Nat) (k fuel : Nat) (cr : List Cairo) :
    generate_maze 0 draws k fuel cr
      = Except.error (Fault.oob,
          { maze := [], pos := 0, cr := cr, trace := [Step.enter 0 0 0 0 1] }) := rfl

/-! ## What a generation trace says about the passages -/

theorem nbr_adj (c : Cell) {d : Int} (h1 : 1 ≤ d) (h4 : d ≤ 4) : Adj (nbr c d) c := by
  have : d = 1 ∨ d = 2 ∨ d = 3 ∨ d = 4 := by omega
  rcases this with h | h | h | h <;> subst h <;> simp [nbr, Adj]

theorem GenTrace.seed_mem {N : Nat} {tr : List Step} (h : GenTrace N tr) :
    ((0 : Int), (0 : Int)) ∈ entered tr := by
  induction h with
  | seed h => simp [entered]
  | query _ _ ih =>
    rw [entered_query]
    exact ih
  | descend _ _ _ _ _ _ ih =>
    rw [entered_descend]
    exact List.mem_append_left _ ih

theorem GenTrace.entered_cons {N : Nat} {tr : List Step} (h : GenTrace N tr) :
    entered tr = ((0 : Int), (0 : Int)) :: (events tr).map Prod.fst := by
  induction h with
  | seed h => simp [entered, events]
  | query _ _ ih =>
    rw [entered_query, events_query]
    exact ih
  | descend _ _ _ _ _ _ ih =>
    rw [entered_descend, events_descend, ih]
    simp

theorem GenTrace.event_mem {N : Nat} {tr : List Step} (h : GenTrace N tr) :
    ∀ e ∈ events tr, e.1 ∈ entered tr ∧ e.2 ∈ entered tr ∧ Adj e.1 e.2 := by
  induction h with
  | seed h =>
    intro e he
    simp [events] at he
  | query _ _ ih =>
    rw [entered_query, events_query]
    exact ih
  | descend _ hen h1 h4 _ _ ih =>
    rw [entered_descend, events_descend]
    intro e he
    rcases List.mem_append.1 he with h | h
    · obtain ⟨a, b, c⟩ := ih e h
      exact ⟨List.mem_append_left _ a, List.mem_append_left _ b, c⟩
    · simp only [List.mem_singleton] at h
      subst h
      exact ⟨List.mem_append_right _ (List.mem_singleton_self _),
        List.mem_append_left _ (mem_entered_of_enter hen), nbr_adj _ h1 h4⟩

/-- Each event's current cell is new: no earlier event touches it. -/
theorem GenTrace.events_pairwise {N : Nat} {tr : List Step} (h : GenTrace N tr) :
    (events tr).Pairwise (fun e f => f.1 ≠ e.1 ∧ f.1 ≠ e.2) := by
  induction h with
  | seed h => simp [events]
  | query _ _ ih =>
    rw [events_query]
    exact ih
  | @descend tr i j pi pj depth d hg hen h1 h4 _ hnot ih =>
    rw [events_descend, List.pairwise_append]
    refine ⟨ih, List.pairwise_singleton _ _, ?_⟩
    intro e he f hf
    simp only [List.mem_singleton] at hf
    subst hf
    obtain ⟨a, b, _⟩ := hg.event_mem e he
    constructor
    · intro hh
      have hh' : nbr (i, j) d = e.1 := hh
      exact hnot (hh' ▸ a)
    · intro hh
      have hh' : nbr (i, j) d = e.2 := hh
      exact hnot (hh' ▸ b)

theorem Linked.symm_linked {es : List (Cell × Cell)} {a b : Cell} (h : Linked es a b) :
    Linked es b a := Or.symm h

theorem Linked.mono_linked {es es' : List (Cell × Cell)} (hs : ∀ e ∈ es, e ∈ es') {a b : Cell}
    (h : Linked es a b) : Linked es' a b :=
  h.elim (fun h => Or.inl (hs _ h)) (fun h => Or.inr (hs _ h))

theorem Conn.mono_conn {es es' : List (Cell × Cell)} (hs : ∀ e ∈ es, e ∈ es') {a b : Cell}
    (h : Conn es a b) : Conn es' a b :=
  Relation.ReflTransGen.mono (fun _ _ hl => Linked.mono_linked hs hl) h

theorem Conn.symm_conn {es : List (Cell × Cell)} {a b : Cell} (h : Conn es a b) : Conn es b a :=
  Relation.ReflTransGen.symmetric (fun _ _ hl => Linked.symm_linked hl) h

theorem Conn.trans_conn {es : List (Cell × Cell)} {a b c : Cell} (h1 : Conn es a b)
    (h2 : Conn es b c) : Conn es a c :=
  Relation.ReflTransGen.trans h1 h2

/-- Every entered cell is joined to the seed by passages. -/
theorem GenTrace.conn_seed {N : Nat} {tr : List Step} (h : GenTrace N tr) :
    ∀ c ∈ entered tr, Conn (events tr) (0, 0) c := by
  induction h with
  | seed h =>
    intro c hc
    simp [entered] at hc
    subst hc
    exact Relation.ReflTransGen.refl
  | query _ _ ih =>
    rw [entered_query, events_query]
    exact ih
  | @descend tr i j pi pj depth d hg hen _ _ _ _ ih =>
    rw [entered_descend, events_descend]
    intro c hc
    have hsub : ∀ e ∈ events tr,
        e ∈ events tr ++ [(((nbr (i, j) d).1, (nbr (i, j) d).2), (i, j))] :=
      fun e he => List.mem_append_left _ he
    rcases List.mem_append.1 hc with h | h
    · exact Conn.mono_conn hsub (ih c h)
    · simp only [List.mem_singleton] at h
      subst h
      have h0 := Conn.mono_conn hsub (ih _ (mem_entered_of_enter hen))
      exact Relation.ReflTransGen.tail h0
        (Or.inr (List.mem_append_right _ (List.mem_singleton_self _)))

/-- A set of entered cells closed under in-bounds neighbours is the whole grid. -/
theorem all_entered {N : Nat} {tr : List Step} (h : GenTrace N tr)
    (hcl : ∀ x ∈ entered tr, Closed N tr x) : ∀ c, InB N c → c ∈ entered tr := by
  have hrow : ∀ r : Nat, (r : Int) < N → ((r : Int), (0 : Int)) ∈ entered tr := by
    intro r
    induction r with
    | zero => intro _; exact h.seed_mem
    | succ r ih =>
      intro hr
      have hprev := ih (by omega)
      have := hcl _ hprev 3 (by decide) (by decide)
        (by simp [nbr, InB]; omega)
      simpa [nbr] using this
  have hcol : ∀ (c : Nat) (r : Int), 0 ≤ r → r < N → (c : Int) < N →
      (r, (c : Int)) ∈ entered tr := by
    intro c
    induction c with
    | zero =>
      intro r h0 hr _
      have := hrow r.toNat (by omega)
      rwa [Int.toNat_of_nonneg h0] at this
    | succ c ih =>
      intro r h0 hr hc
      have hprev := ih r h0 hr (by omega)
      have := hcl _ hprev 2 (by decide) (by decide)
        (by simp [nbr, InB]; omega)
      simpa [nbr] using this
  intro c hc
  obtain ⟨h1, h2, h3, h4⟩ := hc
  have := hcol c.2.toNat c.1 h1 h2 (by omega)
  rwa [Int.toNat_of_nonneg h3] at this

/-! ## No cycle of passages -/

theorem linked_snoc {es : List (Cell × Cell)} {n c a b : Cell}
    (h : Linked (es ++ [(n, c)]) a b) :
    Linked es a b ∨ (a = n ∧ b = c) ∨ (a = c ∧ b = n) := by
  rcases h with h | h
  · rcases List.mem_append.1 h with h | h
    · exact Or.inl (Or.inl h)
    · simp only [List.mem_singleton, Prod.mk.injEq] at h
      exact Or.inr (Or.inl h)
  · rcases List.mem_append.1 h with h | h
    · exact Or.inl (Or.inr h)
    · simp only [List.mem_singleton, Prod.mk.injEq] at h
      exact Or.inr (Or.inr ⟨h.2, h.1⟩)

theorem cycle_index {m i : Nat} (hm : 3 ≤ m) (hi : i < m) :
    (i + m - 1) % m < m ∧ ((i + m - 1) % m + 1) % m = i ∧ (i + m - 1) % m ≠ (i + 1) % m := by
  have hpos : 0 < m := by omega
  by_cases h0 : i = 0
  · subst h0
    have e1 : (0 + m - 1) % m = m - 1 := by
      rw [Nat.zero_add]
      exact Nat.mod_eq_of_lt (by omega)
    have e2 : (m - 1 + 1) % m = 0 := by
      rw [Nat.sub_add_cancel (by omega)]
      exact Nat.mod_self m
    have e3 : (0 + 1) % m = 1 := Nat.mod_eq_of_lt (by omega)
    rw [e1, e2, e3]
    exact ⟨by omega, rfl, by omega⟩
  · have e1 : (i + m - 1) % m = i - 1 := by
      have : i + m - 1 = (i - 1) + m := by omega
      rw [this, Nat.add_mod_right]
      exact Nat.mod_eq_of_lt (by omega)
    have e2 : (i - 1 + 1) % m = i := by
      rw [Nat.sub_add_cancel (by omega)]
      exact Nat.mod_eq_of_lt hi
    rw [e1, e2]
    refine ⟨by omega, rfl, ?_⟩
    by_cases h1 : i + 1 < m
    · rw [Nat.mod_eq_of_lt h1]
      omega
    · have : i + 1 = m := by omega
      rw [this, Nat.mod_self]
      omega

/-- Attaching a new cell by one passage creates no cycle. -/
theorem not_cycle_snoc {es : List (Cell × Cell)} {n c : Cell}
    (hes : ∀ a b, Linked es a b → a ≠ n ∧ b ≠ n)
    (hold : ¬ ∃ vs, IsCycle es vs) : ¬ ∃ vs, IsCycle (es ++ [(n, c)]) vs := by
  rintro ⟨vs, hlen, hnd, hlink⟩
  by_cases hn : n ∈ vs
  · obtain ⟨i, hi⟩ := List.mem_iff_getElem?.1 hn
    have hilt : i < vs.length := by
      by_contra hc
      rw [List.getElem?_eq_none (by omega)] at hi
      cases hi
    obtain ⟨hp, hps, hne⟩ := cycle_index hlen hilt
    have hq : (i + 1) % vs.length < vs.length := Nat.mod_lt _ (by omega)
    have key : ∀ x, Linked (es ++ [(n, c)]) n x ∨ Linked (es ++ [(n, c)]) x n → x = c := by
      intro x hx
      rcases hx with hx | hx
      · rcases linked_snoc hx with h | h | h
        · exact absurd rfl (hes _ _ h).1
        · exact h.2
        · exact h.2.trans h.1
      · rcases linked_snoc hx with h | h | h
        · exact absurd rfl (hes _ _ h).2
        · exact h.1.trans h.2
        · exact h.1
    have g1 : vs[(i + 1) % vs.length]? = some vs[(i + 1) % vs.length] :=
      List.getElem?_eq_getElem hq
    have g2 : vs[(i + vs.length - 1) % vs.length]?
        = some vs[(i + vs.length - 1) % vs.length] := List.getElem?_eq_getElem hp
    have k1 : vs[(i + 1) % vs.length] = c := key _ (Or.inl (hlink i _ _ hi g1))
    have k2 : vs[(i + vs.length - 1) % vs.length] = c := by
      apply key _ (Or.inr _)
      apply hlink ((i + vs.length - 1) % vs.length) _ _ g2
      rw [hps]
      exact hi
    have := hnd.getElem_inj_iff.1 (k2.trans k1.symm)
    exact hne this
  · apply hold
    refine ⟨vs, hlen, hnd, ?_⟩
    intro i a b ha hb
    rcases linked_snoc (hlink i a b ha hb) with h | h | h
    · exact h
    · exact absurd (h.1 ▸ List.getElem?_mem ha) hn
    · exact absurd (h.2 ▸ List.getElem?_mem hb) hn

/-- The passages of a generation trace contain no cycle. -/
theorem GenTrace.acyclic {N : Nat} {tr : List Step} (h : GenTrace N tr) :
    ¬ ∃ vs, IsCycle (events tr) vs := by
  induction h with
  | seed h =>
    rintro ⟨vs, hlen, _, hlink⟩
    have hq : (0 + 1) % vs.length < vs.length := Nat.mod_lt _ (by omega)
    have h0 : vs[0]? = some vs[0] := List.getElem?_eq_getElem (by omega)
    have h1 : vs[(0 + 1) % vs.length]? = some vs[(0 + 1) % vs.length] :=
      List.getElem?_eq_getElem hq
    have := hlink 0 _ _ h0 h1
    simp [Linked, events] at this
  | query _ _ ih =>
    rw [events_query]
    exact ih
  | @descend tr i j pi pj depth d hg hen _ _ _ hnot ih =>
    rw [events_descend]
    apply not_cycle_snoc _ ih
    intro a b hl
    have hnot' : ((nbr (i, j) d).1, (nbr (i, j) d).2) ∉ entered tr := hnot
    rcases hl with hl | hl
    · obtain ⟨ha, hb, _⟩ := hg.event_mem _ hl
      exact ⟨fun h => hnot' (h ▸ ha), fun h => hnot' (h ▸ hb)⟩
    · obtain ⟨ha, hb, _⟩ := hg.event_mem _ hl
      exact ⟨fun h => hnot' (h ▸ hb), fun h => hnot' (h ▸ ha)⟩

/-! ## Consequences for every run -/

theorem mem_events_of_wall {tr : List Step} {i j pi pj : Int}
    (h : Step.wall i j pi pj ∈ tr) : ((i, j), (pi, pj)) ∈ events tr := by
  unfold events
  rw [List.mem_filterMap]
  exact ⟨_, h, rfl⟩

theorem GenTrace.step_inB {N : Nat} {tr : List Step} (h : GenTrace N tr) :
    ∀ s ∈ tr, StepInB N s := by
  induction h with
  | seed h =>
    intro s hs
    simp only [List.mem_singleton] at hs
    subst hs
    simp [StepInB, InB]
    omega
  | @query tr i j pi pj depth hg hen ih =>
    intro s hs
    rcases List.mem_append.1 hs with h | h
    · exact ih s h
    · simp only [List.mem_singleton] at h
      subst h
      exact ⟨hg.entered_inB _ (mem_entered_of_enter hen), rfl⟩
  | @descend tr i j pi pj depth d hg hen _ _ hin _ ih =>
    intro s hs
    have hc := hg.entered_inB _ (mem_entered_of_enter hen)
    rcases List.mem_append.1 hs with h | h
    · exact ih s h
    · simp only [List.mem_cons, List.mem_singleton, List.not_mem_nil, or_false] at h
      rcases h with h | h <;> subst h <;> exact ⟨hin, hc⟩

/-- The recorded depth of a call never exceeds the number of calls made. -/
theorem GenTrace.depth_le {N : Nat} {tr : List Step} (h : GenTrace N tr) :
    ∀ i j pi pj depth, Step.enter i j pi pj depth ∈ tr → depth ≤ (entered tr).length := by
  induction h with
  | seed h =>
    intro i j pi pj depth hs
    simp only [List.mem_singleton] at hs
    injection hs with _ _ _ _ h5
    subst h5
    simp [entered]
  | query _ _ ih =>
    intro i j pi pj depth hs
    rw [entered_query]
    rcases List.mem_append.1 hs with h | h
    · exact ih _ _ _ _ _ h
    · simp at h
  | @descend tr i j pi pj depth d hg hen _ _ hin _ ih =>
    intro i' j' pi' pj' depth' hs
    rw [entered_descend, List.length_append, List.length_singleton]
    rcases List.mem_append.1 hs with h | h
    · exact Nat.le_succ_of_le (ih _ _ _ _ _ h)
    · simp only [List.mem_cons, List.mem_singleton, List.not_mem_nil, or_false] at h
      rcases h with h | h
      · cases h
      · injection h with _ _ _ _ h5
        subst h5
        exact Nat.succ_le_succ (ih _ _ _ _ _ hen)

theorem not_samePair_of_fresh {e f : Cell × Cell} (h : f.1 ≠ e.1 ∧ f.1 ≠ e.2) :
    ¬ SamePair e f := by
  rintro (⟨h1, _⟩ | ⟨_, h2⟩)
  · exact h.1 h1.symm
  · exact h.2 h2.symm

/-- The passages of any generation trace: adjacent in-bounds cells, no pair
joined twice, every current cell new, everything entered joined to the seed,
no cycle. -/
theorem GenTrace.tree {N : Nat} {tr : List Step} (h : GenTrace N tr) :
    (events tr).length + 1 = (entered tr).length
    ∧ (∀ e ∈ events tr, InB N e.1 ∧ InB N e.2 ∧ Adj e.1 e.2)
    ∧ (events tr).Pairwise (fun e f => ¬ SamePair e f)
    ∧ ((events tr).map Prod.fst).Nodup
    ∧ ((0 : Int), (0 : Int)) ∉ (events tr).map Prod.fst
    ∧ (∀ a b, a ∈ entered tr → b ∈ entered tr → Conn (events tr) a b)
    ∧ ¬ ∃ vs, IsCycle (events tr) vs := by
  have hnd := h.entered_nodup
  rw [h.entered_cons] at hnd
  refine ⟨?_, ?_, ?_, ?_, ?_, ?_, h.acyclic⟩
  · rw [h.entered_cons]
    simp
  · intro e he
    obtain ⟨a, b, c⟩ := h.event_mem e he
    exact ⟨h.entered_inB _ a, h.entered_inB _ b, c⟩
  · exact h.events_pairwise.imp (fun hh => not_samePair_of_fresh hh)
  · exact (List.nodup_cons.1 hnd).2
  · exact (List.nodup_cons.1 hnd).1
  · intro a b ha hb
    exact (h.conn_seed a ha).symm_conn.trans_conn (h.conn_seed b hb)

/-- The trace of every run on a non-empty grid is a generation trace; on the
empty grid it is the seed call alone. -/
theorem final_trace (N : Nat) (draws : Nat → Nat) (k fuel : Nat) (cr : List Cairo) :
    (1 ≤ N ∧ GenTrace N (final (generate_maze N draws k fuel cr)).trace)
    ∨ (N = 0 ∧ (final (generate_maze N draws k fuel cr)).trace = [Step.enter 0 0 0 0 1]) := by
  rcases Nat.eq_zero_or_pos N with h | h
  · right
    subst h
    exact ⟨rfl, rfl⟩
  · left
    exact ⟨h, (generate_maze_final h draws k fuel cr).2.2⟩

/-- A returned run has entered every cell of the grid, each once. -/
theorem returned_cover {N : Nat} (hN : 1 ≤ N) {draws : Nat → Nat} {k fuel : Nat}
    {cr : List Cairo} {st : State} (h : generate_maze N draws k fuel cr = Except.ok st) :
    (∀ c, c ∈ entered st.trace ↔ InB N c) ∧ (entered st.trace).length = N * N := by
  obtain ⟨hJ, hcl⟩ := generate_maze_ok hN h
  have hcov : ∀ c, c ∈ entered st.trace ↔ InB N c :=
    fun c => ⟨hJ.2.2.entered_inB c, all_entered hJ.2.2 hcl c⟩
  exact ⟨hcov, length_eq_of_nodup_cover hJ.2.2.entered_nodup hcov⟩

/-- The passages of a returned run form a spanning tree of the grid. -/
theorem returned_tree {N : Nat} (hN : 1 ≤ N) {draws : Nat → Nat} {k fuel : Nat}
    {cr : List Cairo} {st : State} (h : generate_maze N draws k fuel cr = Except.ok st) :
    (events st.trace).length = N * N - 1
    ∧ (∀ e ∈ events st.trace, InB N e.1 ∧ InB N e.2 ∧ Adj e.1 e.2)
    ∧ (events st.trace).Pairwise (fun e f => ¬ SamePair e f)
    ∧ (∀ a b, InB N a → InB N b → Conn (events st.trace) a b)
    ∧ ¬ ∃ vs, IsCycle (events st.trace) vs := by
  obtain ⟨hJ, _⟩ := generate_maze_ok hN h
  obtain ⟨hcov, hlen⟩ := returned_cover hN h
  obtain ⟨t1, t2, t3, _, _, t6, t7⟩ := hJ.2.2.tree
  refine ⟨by omega, t2, t3, ?_, t7⟩
  intro a b ha hb
  exact t6 a b ((hcov a).2 ha) ((hcov b).2 hb)

/-! ## Determinism -/

/-- One iteration of the do-while that descends in direction `d`. -/
theorem make_path_loop_step {N : Nat} (draws : Nat → Nat) (k : Nat) {i j pi pj : Int}
    {depth : Nat} {st : State} (hJ : J N st) (he : Step.enter i j pi pj depth ∈ st.trace)
    {d : Int} (h1 : 1 ≤ d) (h4 : d ≤ 4) (hz : flag st.maze (nbr (i, j) d) = 0)
    {p : Nat} (hp : st.pos ≤ p)
    (hres : check_available N draws k i j st
      = Except.ok (d, { st.queried i j with pos := p })) :
    J N (st.descended i j depth d p) ∧ Ext st (st.descended i j depth d p)
    ∧ (st.descended i j depth d p).pos = p
    ∧ Step.enter (nbr (i, j) d).1 (nbr (i, j) d).2 i j (depth + 1)
        ∈ (st.descended i j depth d p).trace
    ∧ ∀ fuel, make_path_loop N draws k (fuel + 1) depth i j st
        = (make_path_loop N draws k fuel (depth + 1) (nbr (i, j) d).1 (nbr (i, j) d).2
            (st.descended i j depth d p)).bind (make_path_loop N draws k fuel depth i j) := by
  have hJ1 := hJ.queried_inv he p
  have hE1 : Ext st { st.queried i j with pos := p } := Ext.queried_ext st i j _ hp
  have he1 : Step.enter i j pi pj depth ∈ ({ st.queried i j with pos := p } : State).trace :=
    hE1.mem he
  obtain ⟨hin, _⟩ := hJ1.not_entered hz
  obtain ⟨m, hw, hmp⟩ := @make_path_eq N draws k 0 (depth + 1)
    (nbr (i, j) d).1 (nbr (i, j) d).2 i j
    (({ st.queried i j with pos := p } : State).remove_wall
      (nbr (i, j) d).1 (nbr (i, j) d).2 i j) hJ1.1 hin
  have hJ2 := hJ1.descend_inv he1 h1 h4 hz hw
  have hdesc : st.descended i j depth d p
      = (({ st.queried i j with pos := p } : State).remove_wall
          (nbr (i, j) d).1 (nbr (i, j) d).2 i j).marked m
          (nbr (i, j) d).1 (nbr (i, j) d).2 i j (depth + 1) := by
    unfold State.descended
    simp only [hw, Option.getD_some]
  rw [hdesc]
  refine ⟨hJ2, hE1.trans_ext (Ext.descend_ext _ m _ _ _ _ _ _ _ _ _), rfl, ?_, ?_⟩
  · simp [State.marked, State.remove_wall]
  · intro fuel
    rw [make_path_loop_dir _ _ _ _ _ _ _ _ _ d h1 h4 hres]
    obtain ⟨m', hw', hmp'⟩ := @make_path_eq N draws k fuel (depth + 1)
      (nbr (i, j) d).1 (nbr (i, j) d).2 i j
      (({ st.queried i j with pos := p } : State).remove_wall
        (nbr (i, j) d).1 (nbr (i, j) d).2 i j) hJ1.1 hin
    rw [hw] at hw'
    injection hw' with hw'
    subst hw'
    rw [hmp']

/-- Two returned do-whiles from the same state agree when their draw
sequences agree on the draws the first one consumed. -/
theorem make_path_loop_det (N : Nat) (d1 d2 : Nat → Nat) (k1 k2 : Nat) :
    ∀ (f1 f2 depth : Nat) (i j pi pj : Int) (st s1 s2 : State), J N st →
      Step.enter i j pi pj depth ∈ st.trace →
      make_path_loop N d1 k1 f1 depth i j st = Except.ok s1 →
      make_path_loop N d2 k2 f2 depth i j st = Except.ok s2 →
      (∀ t, st.pos ≤ t → t < s1.pos → d1 t = d2 t) → s1 = s2 := by
  intro f1
  induction f1 with
  | zero =>
    intro f2 depth i j pi pj st s1 s2 _ _ h
    rw [make_path_loop_zero] at h
    cases h
  | succ f1 ih =>
    intro f2 depth i j pi pj st s1 s2 hJ he hr1 hr2 hag
    cases f2 with
    | zero =>
      rw [make_path_loop_zero] at hr2
      cases hr2
    | succ f2 =>
      have hc : InB N (i, j) := hJ.2.2.entered_inB _ (mem_entered_of_enter he)
      rcases check_available_cases d1 k1 hJ.1 hc with
        ⟨hall, hres1⟩ | ⟨_, _, hres1⟩ | ⟨t1, _, hz1, hmin1, hres1⟩
      · rw [make_path_loop_done _ _ _ _ _ _ _ _ _ hres1] at hr1
        rcases check_available_cases d2 k2 hJ.1 hc with
          ⟨_, hres2⟩ | ⟨_, _, hres2⟩ | ⟨t2, _, hz2, _, _⟩
        · rw [make_path_loop_done _ _ _ _ _ _ _ _ _ hres2] at hr2
          injection hr1 with hr1
          injection hr2 with hr2
          rw [← hr1, ← hr2]
        · rw [make_path_loop_error _ _ _ _ _ _ _ _ _ hres2] at hr2
          cases hr2
        · rw [hall _ (by omega) (by omega)] at hz2
          cases hz2
      · rw [make_path_loop_error _ _ _ _ _ _ _ _ _ hres1] at hr1
        cases hr1
      · rcases check_available_cases d2 k2 hJ.1 hc with
          ⟨hall, _⟩ | ⟨_, _, hres2⟩ | ⟨t2, _, hz2, hmin2, hres2⟩
        · rw [hall _ (by omega) (by omega)] at hz1
          cases hz1
        · rw [make_path_loop_error _ _ _ _ _ _ _ _ _ hres2] at hr2
          cases hr2
        · obtain ⟨hJa, hEa, hpa, hea, hstepa⟩ := make_path_loop_step d1 k1 hJ he
            (by omega) (by omega) hz1 (by omega) hres1
          obtain ⟨hJb, _, _, heb, hstepb⟩ := make_path_loop_step d2 k2 hJ he
            (by omega) (by omega) hz2 (by omega) hres2
          rw [hstepa f1] at hr1
          rw [hstepb f2] at hr2
          cases hn1 : make_path_loop N d1 k1 f1 (depth + 1)
              (nbr (i, j) (((d1 (st.pos + t1) % 4 : Nat) : Int) + 1)).1
              (nbr (i, j) (((d1 (st.pos + t1) % 4 : Nat) : Int) + 1)).2
              (st.descended i j depth (((d1 (st.pos + t1) % 4 : Nat) : Int) + 1)
                (st.pos + t1 + 1)) with
          | error e =>
            rw [hn1] at hr1
            cases hr1
          | ok s3 =>
            rw [hn1] at hr1
            have hr1' : make_path_loop N d1 k1 f1 depth i j s3 = Except.ok s1 := hr1
            obtain ⟨hJ3, hE3, _, _⟩ :=
              (make_path_loop_inv N d1 k1 f1 (depth + 1) _ _ i j _ hJa hea).1 s3 hn1
            have he3 : Step.enter i j pi pj depth ∈ s3.trace := hE3.mem (hEa.mem he)
            obtain ⟨_, hE1, _, _⟩ :=
              (make_path_loop_inv N d1 k1 f1 depth i j pi pj s3 hJ3 he3).1 s1 hr1'
            have hpos3 : st.pos + t1 + 1 ≤ s3.pos := hpa ▸ hE3.2
            have hpos1 : s3.pos ≤ s1.pos := hE1.2
            have hsame : ∀ t, t ≤ t1 → d1 (st.pos + t) = d2 (st.pos + t) :=
              fun t ht => hag _ (by omega) (by omega)
            have ht : t1 = t2 := by
              rcases Nat.lt_trichotomy t1 t2 with hlt | heq | hgt
              · exfalso
                apply hmin2 t1 hlt
                rw [← hsame t1 (Nat.le_refl _)]
                exact hz1
              · exact heq
              · exfalso
                apply hmin1 t2 hgt
                rw [hsame t2 (by omega)]
                exact hz2
            subst ht
            rw [← hsame t1 (Nat.le_refl _)] at hr2 heb hJb
            cases hn2 : make_path_loop N d2 k2 f2 (depth + 1)
                (nbr (i, j) (((d1 (st.pos + t1) % 4 : Nat) : Int) + 1)).1
                (nbr (i, j) (((d1 (st.pos + t1) % 4 : Nat) : Int) + 1)).2
                (st.descended i j depth (((d1 (st.pos + t1) % 4 : Nat) : Int) + 1)
                  (st.pos + t1 + 1)) with
            | error e =>
              rw [hn2] at hr2
              cases hr2
            | ok s3' =>
              rw [hn2] at hr2
              have hr2' : make_path_loop N d2 k2 f2 depth i j s3' = Except.ok s2 := hr2
              have h33 : s3 = s3' := by
                apply ih f2 (depth + 1) _ _ i j _ s3 s3' hJa hea hn1 hn2
                intro t hlo hhi
                rw [hpa] at hlo
                exact hag t (by omega) (by omega)
              subst h33
              apply ih f2 depth i j pi pj s3 s1 s2 hJ3 he3 hr1' hr2'
              intro t hlo hhi
              exact hag t (by omega) hhi

/-! ## The count of unvisited tiles -/

theorem count_zero_set (v : Int) (hv : v ≠ 0) :
    ∀ (l : List Int) (i : Nat), l[i]? = some 0 → (l.set i v).count 0 + 1 = l.count 0 := by
  intro l
  induction l with
  | nil =>
    intro i h
    simp at h
  | cons a l ih =>
    intro i h
    cases i with
    | zero =>
      simp only [List.getElem?_cons_zero, Option.some.injEq] at h
      subst h
      simp only [List.set_cons_zero]
      rw [List.count_cons_of_ne (Ne.symm hv), List.count_cons_self]
    | succ i =>
      simp only [List.getElem?_cons_succ] at h
      simp only [List.set_cons_succ, List.count_cons]
      have := ih i h
      omega

theorem unvisited_set (row' : List Int) :
    ∀ (m : Grid) (i : Nat) (row : List Int), m[i]? = some row →
      row'.count 0 + 1 = row.count 0 → unvisited (m.set i row') + 1 = unvisited m := by
  intro m
  induction m with
  | nil =>
    intro i row h
    simp at h
  | cons a m ih =>
    intro i row h hc
    cases i with
    | zero =>
      simp only [List.getElem?_cons_zero, Option.some.injEq] at h
      subst h
      simp only [unvisited, List.set_cons_zero, List.map_cons, List.sum_cons]
      omega
    | succ i =>
      simp only [List.getElem?_cons_succ] at h
      have := ih i row h hc
      simp only [unvisited, List.set_cons_succ, List.map_cons, List.sum_cons] at this ⊢
      omega

/-- Marking an unvisited tile lowers the count of unvisited tiles by one. -/
theorem unvisited_wr {m m' : Grid} {r c : Int} (h0 : rd m r c = some 0)
    (hw : wr m r c 1 = some m') : unvisited m' + 1 = unvisited m := by
  unfold rd at h0
  unfold wr at hw
  split at h0
  · cases h0
  · rename_i hneg
    rw [if_neg hneg] at hw
    split at h0
    · cases h0
    · rename_i row hrow
      rw [hrow] at hw
      simp only at hw
      split at hw
      · injection hw with hw
        subst hw
        exact unvisited_set _ m _ row hrow (count_zero_set 1 (by decide) row _ h0)
      · cases hw

theorem unvisited_fresh (N : Nat) : unvisited (fresh N) = N * N := by
  simp [unvisited, fresh]

theorem tally_seeded {N : Nat} (hN : 1 ≤ N) (cr : List Cairo) : Tally N (seeded N cr) := by
  have hc : InB N ((0 : Int), (0 : Int)) := by
    simp [InB]
    omega
  obtain ⟨m, hw⟩ := wr_inB (fresh_WF N) 1 hc
  have h0 := fresh_rd hc
  have hu := unvisited_wr h0 hw
  have hm : (seeded N cr).maze = m := by
    unfold seeded
    rw [hw]
    rfl
  have ht : (seeded N cr).trace = [Step.enter 0 0 0 0 1] := rfl
  unfold Tally
  rw [hm, ht]
  rw [unvisited_fresh] at hu
  simp [entered]
  omega

theorem tally_descended {N : Nat} {st : State} (hJ : J N st) (ht : Tally N st)
    (i j : Int) (depth : Nat) {d : Int} (hz : flag st.maze (nbr (i, j) d) = 0) (p : Nat) :
    Tally N (st.descended i j depth d p) := by
  have h0 : rd st.maze (nbr (i, j) d).1 (nbr (i, j) d).2 = some 0 := flag_eq_zero hJ.1 hz
  obtain ⟨m, hw⟩ := wr_inB hJ.1 1 (rd_some_inB hJ.1 h0)
  have hu := unvisited_wr h0 hw
  have hm : (st.descended i j depth d p).maze = m := by
    unfold State.descended
    simp only [State.remove_wall, State.queried, State.marked]
    rw [hw]
    rfl
  have htr : entered (st.descended i j depth d p).trace
      = entered st.trace ++ [nbr (i, j) d] := by
    unfold State.descended
    simp [State.remove_wall, State.queried, State.marked, entered_append, entered]
  unfold Tally at ht ⊢
  rw [hm, htr, List.length_append, List.length_singleton]
  omega

/-- The tally holds in the state any do-while ends in. -/
theorem make_path_loop_tally (N : Nat) (draws : Nat → Nat) (k : Nat) :
    ∀ (fuel depth : Nat) (i j pi pj : Int) (st : State), J N st → Tally N st →
      Step.enter i j pi pj depth ∈ st.trace →
      Tally N (final (make_path_loop N draws k fuel depth i j st)) := by
  intro fuel
  induction fuel with
  | zero =>
    intro depth i j pi pj st _ ht _
    exact ht
  | succ fuel ih =>
    intro depth i j pi pj st hJ ht he
    have hc : InB N (i, j) := hJ.2.2.entered_inB _ (mem_entered_of_enter he)
    have htq : ∀ p, Tally N { st.queried i j with pos := p } := by
      intro p
      unfold Tally
      simp only [State.queried, entered_query]
      exact ht
    rcases check_available_cases draws k hJ.1 hc with
      ⟨_, hres⟩ | ⟨_, _, hres⟩ | ⟨t, _, hz, _, hres⟩
    · rw [make_path_loop_done _ _ _ _ _ _ _ _ _ hres]
      exact htq st.pos
    · rw [make_path_loop_error _ _ _ _ _ _ _ _ _ hres]
      exact htq _
    · obtain ⟨hJa, hEa, _, hea, hstep⟩ := make_path_loop_step draws k hJ he
        (by omega) (by omega) hz (by omega) hres
      rw [hstep fuel]
      have hta := tally_descended hJ ht i j depth hz (st.pos + t + 1)
      have ih1 := ih (depth + 1) _ _ i j _ hJa hta hea
      cases hn : make_path_loop N draws k fuel (depth + 1)
          (nbr (i, j) (((draws (st.pos + t) % 4 : Nat) : Int) + 1)).1
          (nbr (i, j) (((draws (st.pos + t) % 4 : Nat) : Int) + 1)).2
          (st.descended i j depth (((draws (st.pos + t) % 4 : Nat) : Int) + 1)
            (st.pos + t + 1)) with
      | error e =>
        rw [hn] at ih1
        exact ih1
      | ok s3 =>
        rw [hn] at ih1
        obtain ⟨hJ3, hE3, _, _⟩ :=
          (make_path_loop_inv N draws k fuel (depth + 1) _ _ i j _ hJa hea).1 s3 hn
        exact ih depth i j pi pj s3 hJ3 ih1 (hE3.mem (hEa.mem he))

/-- In the state any run ends in, the unvisited tiles and the calls of
`make_path` add up to `N * N`: every call marks one more tile. -/
theorem generate_maze_tally {N : Nat} (hN : 1 ≤ N) (draws : Nat → Nat) (k fuel : Nat)
    (cr : List Cairo) : Tally N (final (generate_maze N draws k fuel cr)) := by
  obtain ⟨hJ, htr, _, heq⟩ := generate_maze_seeded hN draws k fuel cr
  rw [heq]
  apply make_path_loop_tally N draws k fuel 1 0 0 0 0 _ hJ (tally_seeded hN cr)
  rw [htr]
  exact List.mem_singleton_self _

/-! ## Termination -/

theorem never_out_of_fuel {N : Nat} (hN : 1 ≤ N) (draws : Nat → Nat) (k : Nat) {fuel : Nat}
    (hfuel : N * N ≤ fuel) (cr : List Cairo) (st : State) :
    generate_maze N draws k fuel cr ≠ Except.error (Fault.fuel, st) := by
  intro h
  have := (generate_maze_error hN h).2.2.1 rfl
  omega

theorem returns_of_not_starved {N : Nat} (hN : 1 ≤ N) (draws : Nat → Nat) (k : Nat)
    {fuel : Nat} (hfuel : N * N ≤ fuel) (cr : List Cairo)
    (hns : ∀ st, generate_maze N draws k fuel cr ≠ Except.error (Fault.starved, st)) :
    ∃ st, generate_maze N draws k fuel cr = Except.ok st := by
  cases h : generate_maze N draws k fuel cr with
  | ok st => exact ⟨st, rfl⟩
  | error e =>
    obtain ⟨f, st⟩ := e
    cases f with
    | oob => exact absurd rfl (generate_maze_error hN h).1
    | starved => exact absurd h (hns st)
    | fuel => exact absurd h (never_out_of_fuel hN draws k hfuel cr st)

theorem returns_of_fair {N : Nat} (hN : 1 ≤ N) (draws : Nat → Nat) (k : Nat)
    {fuel : Nat} (hfuel : N * N ≤ fuel) (cr : List Cairo)
    (hfair : ∀ p r, r < 4 → ∃ t, t < k ∧ draws (p + t) % 4 = r) :
    ∃ st, generate_maze N draws k fuel cr = Except.ok st := by
  apply returns_of_not_starved hN draws k hfuel cr
  intro st h
  obtain ⟨p, r, hr, hmiss⟩ := (generate_maze_error hN h).2.2.2 rfl
  obtain ⟨t, ht, hhit⟩ := hfair p r hr
  exact hmiss t ht hhit

theorem roundRobin_fair (p r : Nat) (hr : r < 4) : ∃ t, t < 4 ∧ roundRobin (p + t) % 4 = r := by
  refine ⟨(r + 4 - p % 4) % 4, Nat.mod_lt _ (by decide), ?_⟩
  unfold roundRobin
  omega

/-- On every non-empty grid some run returns: the round-robin draws with a
budget of four draws per rejection loop and fuel `N * N`. -/
theorem generate_maze_returns {N : Nat} (hN : 1 ≤ N) (cr : List Cairo) :
    ∃ st, generate_maze N roundRobin 4 (N * N) cr = Except.ok st :=
  returns_of_fair hN roundRobin 4 (Nat.le_refl _) cr roundRobin_fair

/-- The definition of a cycle is met by the four passages around a square. -/
theorem isCycle_square :
    IsCycle [((0, 1), (0, 0)), ((1, 1), (0, 1)), ((1, 0), (1, 1)), ((0, 0), (1, 0))]
      [(0, 0), (0, 1), (1, 1), (1, 0)] := by
  refine ⟨by decide, by decide, ?_⟩
  intro i a b ha hb
  have hi : i < 4 := by
    by_contra hc
    rw [List.getElem?_eq_none (by simpa using hc)] at ha
    cases ha
  interval_cases i <;> simp at ha hb <;> subst ha hb <;> simp [Linked]

/-! ## Auxiliary facts for the claims -/

theorem grid_all_ones {N : Nat} {m : Grid} (hm : WF N m)
    (h : ∀ c : Cell, InB N c → rd m c.1 c.2 = some 1) :
    m = List.replicate N (List.replicate N 1) := by
  rw [List.eq_replicate_iff]
  refine ⟨hm.1, ?_⟩
  intro row hrow
  rw [List.eq_replicate_iff]
  refine ⟨hm.2 row hrow, ?_⟩
  intro v hv
  obtain ⟨r, hr⟩ := List.mem_iff_getElem?.1 hrow
  obtain ⟨c, hc⟩ := List.mem_iff_getElem?.1 hv
  have hrd : rd m (r : Int) (c : Int) = some v := by
    unfold rd
    rw [if_neg (by omega)]
    simp only [Int.toNat_ofNat, hr, hc]
  have hin := rd_some_inB hm hrd
  have := h _ hin
  simp only at this
  rw [hrd] at this
  exact Option.some.inj this

theorem rd_isSome_iff {N : Nat} {m : Grid} (hm : WF N m) (r c : Int) :
    (rd m r c).isSome = true ↔ InB N (r, c) := by
  constructor
  · intro h
    obtain ⟨v, hv⟩ := Option.isSome_iff_exists.1 h
    exact rd_some_inB hm hv
  · intro h
    obtain ⟨v, hv⟩ := rd_inB hm h
    rw [hv]
    rfl

theorem check_available_loop_not_oob (draws : Nat → Nat) (a : List Int) (ha : a.length = 4)
    (k : Nat) (st st' : State) :
    check_available_loop draws a k st ≠ Except.error (Fault.oob, st') := by
  rcases check_available_loop_spec draws a ha k st with ⟨h, _⟩ | ⟨t, _, _, _, h⟩
  · rw [h]
    intro hc
    injection hc with hc
    injection hc with hc _
    cases hc
  · rw [h]
    intro hc
    cases hc

theorem Binary.rd_cases {m : Grid} (hb : Binary m) {r c v : Int} (h : rd m r c = some v) :
    v = 0 ∨ v = 1 := by
  unfold rd at h
  split at h
  · cases h
  · split at h
    · cases h
    · rename_i row hrow
      exact hb row (List.getElem?_mem hrow) v (List.getElem?_mem h)

theorem Binary.flag_cases {m : Grid} (hb : Binary m) (x : Cell) :
    flag m x = 0 ∨ flag m x = 1 := by
  unfold flag
  cases h : rd m x.1 x.2 with
  | none => exact Or.inr rfl
  | some v => exact hb.rd_cases h

theorem available_iff_flag {N : Nat} {m : Grid} (hm : WF N m) (c : Cell) (d : Int) :
    Available N m c d ↔ flag m (nbr c d) = 0 := by
  constructor
  · rintro ⟨_, h⟩
    unfold flag
    rw [h]
    rfl
  · intro h
    have hu := flag_eq_zero hm h
    exact ⟨rd_some_inB hm hu, hu⟩

theorem adj_cases {i j previ prevj : Int} (h : Adj (i, j) (previ, prevj)) :
    (j = prevj ∧ i = previ + 1) ∨ (j = prevj ∧ i = previ - 1)
    ∨ (i = previ ∧ j = prevj + 1) ∨ (i = previ ∧ j = prevj - 1) := by
  unfold Adj at h
  simp only at h
  omega

/-! ## The claims -/

/-- C1 (spanning tree): for every grid side `N >= 1` and every run of
`generate_maze` that returns, the wall-removal events are `N * N - 1` edges
between cells of the grid, no two on the same pair of cells, that connect any
two cells of the grid and contain no cycle. -/
theorem spanning_tree (N : Nat) (draws : Nat → Nat) (k fuel : Nat) (cr : List Cairo)
    (st : State) (hN : 1 ≤ N) (h : generate_maze N draws k fuel cr = Except.ok st) :
    SpanningTree N (events st.trace) := by
  obtain ⟨t1, t2, t3, t4, t5⟩ := returned_tree hN h
  exact ⟨t1, fun e he => ⟨(t2 e he).1, (t2 e he).2.1⟩, t3, t4, t5⟩

theorem spanning_tree_witness :
    1 ≤ 2 ∧ generate_maze 2 roundRobin 4 4 [] = Except.ok (final run2)
    ∧ events (final run2).trace = [((0, 1), (0, 0)), ((1, 1), (0, 1)), ((1, 0), (1, 1))]
    ∧ SpanningTree 2 (events (final run2).trace) :=
  ⟨by decide, rfl, by decide, spanning_tree 2 roundRobin 4 4 [] (final run2) (by decide) rfl⟩

/-- C2 (full coverage): for every grid side `N >= 1`, when the seed call of a
run returns every entry of `maze` is `1` (so the visited count is `N * N`), and
`make_path` was entered exactly once on each cell of the grid and on nothing
else (the list of entered cells has `N * N` entries, no repetition, and its
members are the cells of the grid). -/
theorem full_coverage (N : Nat) (draws : Nat → Nat) (k fuel : Nat) (cr : List Cairo)
    (st : State) (hN : 1 ≤ N) (h : generate_maze N draws k fuel cr = Except.ok st) :
    st.maze = List.replicate N (List.replicate N 1)
    ∧ (st.maze.map (List.count 1)).sum = N * N
    ∧ (entered st.trace).length = N * N
    ∧ (entered st.trace).Nodup
    ∧ ∀ c : Cell, c ∈ entered st.trace ↔ InB N c := by
  obtain ⟨hJ, _⟩ := generate_maze_ok hN h
  obtain ⟨hcov, hlen⟩ := returned_cover hN h
  have hall : st.maze = List.replicate N (List.replicate N 1) := by
    apply grid_all_ones hJ.1
    intro c hc
    rw [hJ.2.1 c hc, if_pos ((hcov c).2 hc)]
  refine ⟨hall, ?_, hlen, hJ.2.2.entered_nodup, hcov⟩
  rw [hall]
  simp

theorem full_coverage_witness :
    1 ≤ 2 ∧ generate_maze 2 roundRobin 4 4 [] = Except.ok (final run2)
    ∧ (final run2).maze = List.replicate 2 (List.replicate 2 1)
    ∧ (((final run2).maze).map (List.count 1)).sum = 2 * 2
    ∧ (entered (final run2).trace).length = 2 * 2
    ∧ (entered (final run2).trace).Nodup
    ∧ ∀ c : Cell, c ∈ entered (final run2).trace ↔ InB 2 c :=
  ⟨by decide, rfl, full_coverage 2 roundRobin 4 4 [] (final run2) (by decide) rfl⟩

/-- C3 (adjacency validity): in every run, returned or not, every call
`remove_wall(i, j, previ, prevj)` joins two cells with
`|i - previ| + |j - prevj| = 1`: they differ by one in one coordinate and agree
in the other. -/
theorem adjacency_validity (N : Nat) (draws : Nat → Nat) (k fuel : Nat) (cr : List Cairo)
    (i j previ prevj : Int)
    (h : Step.wall i j previ prevj ∈ (final (generate_maze N draws k fuel cr)).trace) :
    (i - previ).natAbs + (j - prevj).natAbs = 1
    ∧ ((j = prevj ∧ (i = previ + 1 ∨ i = previ - 1))
      ∨ (i = previ ∧ (j = prevj + 1 ∨ j = prevj - 1))) := by
  rcases final_trace N draws k fuel cr with ⟨_, hg⟩ | ⟨_, htr⟩
  · have hadj : Adj (i, j) (previ, prevj) := (hg.event_mem _ (mem_events_of_wall h)).2.2
    unfold Adj at hadj
    simp only at hadj
    refine ⟨hadj, ?_⟩
    omega
  · rw [htr] at h
    simp at h

theorem adjacency_validity_witness :
    Step.wall 1 1 0 1 ∈ (final (generate_maze 2 roundRobin 4 4 [])).trace
    ∧ ((1 : Int) - 0).natAbs + ((1 : Int) - 1).natAbs = 1
    ∧ (((1 : Int) = 1 ∧ ((1 : Int) = 0 + 1 ∨ (1 : Int) = 0 - 1))
      ∨ ((1 : Int) = 0 ∧ ((1 : Int) = 1 + 1 ∨ (1 : Int) = 1 - 1))) :=
  ⟨by decide, adjacency_validity 2 roundRobin 4 4 [] 1 1 0 1 (by decide)⟩

/-- C4 (no out-of-bounds access): for every grid side `N >= 1` and every draw
sequence, no run (returned, starved or cut short by any fuel) reaches the
out-of-bounds fault of a grid access or of the index `next - 1` into
`available`; every recorded call of `make_path`, `check_available` and
`remove_wall` has its cell coordinates in `[0, N)`, and the grid reads are
defined exactly on `[0, N) x [0, N)`. -/
theorem no_out_of_bounds (N : Nat) (draws : Nat → Nat) (k fuel : Nat) (cr : List Cairo)
    (hN : 1 ≤ N) :
    (∀ st, generate_maze N draws k fuel cr ≠ Except.error (Fault.oob, st))
    ∧ (∀ s ∈ (final (generate_maze N draws k fuel cr)).trace, StepInB N s)
    ∧ (∀ (a : List Int) (n : Nat) (st st' : State), a.length = 4 →
        check_available_loop draws a n st ≠ Except.error (Fault.oob, st'))
    ∧ (∀ p : Nat, 0 ≤ (((draws p % 4 : Nat) : Int) + 1) - 1
        ∧ (((draws p % 4 : Nat) : Int) + 1) - 1 < 4)
    ∧ (∀ r c : Int, (rd (final (generate_maze N draws k fuel cr)).maze r c).isSome = true
        ↔ InB N (r, c)) := by
  have hJ := generate_maze_final hN draws k fuel cr
  refine ⟨?_, hJ.2.2.step_inB, ?_, ?_, rd_isSome_iff hJ.1⟩
  · intro st h
    exact (generate_maze_error hN h).1 rfl
  · intro a n st st' ha
    exact check_available_loop_not_oob draws a ha n st st'
  · intro p
    omega

theorem no_out_of_bounds_witness :
    1 ≤ 3 ∧
    ((∀ st, generate_maze 3 roundRobin 4 2 [] ≠ Except.error (Fault.oob, st))
    ∧ (∀ s ∈ (final (generate_maze 3 roundRobin 4 2 [])).trace, StepInB 3 s)
    ∧ (∀ (a : List Int) (n : Nat) (st st' : State), a.length = 4 →
        check_available_loop roundRobin a n st ≠ Except.error (Fault.oob, st'))
    ∧ (∀ p : Nat, 0 ≤ (((roundRobin p % 4 : Nat) : Int) + 1) - 1
        ∧ (((roundRobin p % 4 : Nat) : Int) + 1) - 1 < 4)
    ∧ (∀ r c : Int, (rd (final (generate_maze 3 roundRobin 4 2 [])).maze r c).isSome = true
        ↔ InB 3 (r, c))) :=
  ⟨by decide, no_out_of_bounds 3 roundRobin 4 2 [] (by decide)⟩

/-- C5 (`check_available`): on an in-bounds cell of a well-formed grid with
flags in `{0, 1}`, `check_available(i, j)` returns `0` exactly when no
direction is available (and then at once, consuming no draw); any other value
it returns is a code `d` in `{1, 2, 3, 4}` whose neighbour `nbr (i, j) d` is
inside the grid with flag `0`; it never faults out of bounds, it can only
starve while a direction is available, and it returns as soon as one of its
`k` draws is an available direction. -/
theorem check_available_spec (N : Nat) (draws : Nat → Nat) (k : Nat) (i j : Int)
    (st : State) (hm : WF N st.maze) (hb : Binary st.maze) (hc : InB N (i, j)) :
    ((∀ d : Int, 1 ≤ d → d ≤ 4 → ¬ Available N st.maze (i, j) d) →
        check_available N draws k i j st = Except.ok (0, st.queried i j))
    ∧ (∀ next st', check_available N draws k i j st = Except.ok (next, st') →
        (next = 0 ↔ ∀ d : Int, 1 ≤ d → d ≤ 4 → ¬ Available N st.maze (i, j) d)
        ∧ (next ≠ 0 → 1 ≤ next ∧ next ≤ 4 ∧ InB N (nbr (i, j) next)
            ∧ rd st.maze (nbr (i, j) next).1 (nbr (i, j) next).2 = some 0))
    ∧ (∀ f st', check_available N draws k i j st = Except.error (f, st') →
        f = Fault.starved ∧ ∃ d : Int, 1 ≤ d ∧ d ≤ 4 ∧ Available N st.maze (i, j) d)
    ∧ ((∃ t, t < k ∧
          Available N st.maze (i, j) (((draws (st.pos + t) % 4 : Nat) : Int) + 1)) →
        ∃ next st', check_available N draws k i j st = Except.ok (next, st') ∧ next ≠ 0) := by
  rcases check_available_cases draws k hm hc with
    ⟨hall, hres⟩ | ⟨⟨d, h1, h4, hne⟩, hnone, hres⟩ | ⟨t, ht, hz, _, hres⟩
  · have hno : ∀ d : Int, 1 ≤ d → d ≤ 4 → ¬ Available N st.maze (i, j) d := by
      intro d h1 h4 ha
      have := (available_iff_flag hm (i, j) d).1 ha
      rw [hall d h1 h4] at this
      cases this
    refine ⟨fun _ => hres, ?_, ?_, ?_⟩
    · intro next st' h
      rw [hres] at h
      injection h with h
      injection h with h1 h2
      subst h1
      exact ⟨⟨fun _ => hno, fun _ => rfl⟩, fun hn => absurd rfl hn⟩
    · intro f st' h
      rw [hres] at h
      cases h
    · rintro ⟨t, _, ha⟩
      exact absurd ha (hno _ (by omega) (by omega))
  · have hav : Available N st.maze (i, j) d := by
      rw [available_iff_flag hm]
      rcases hb.flag_cases (nbr (i, j) d) with h | h
      · exact h
      · exact absurd h hne
    refine ⟨fun hno => absurd hav (hno d h1 h4), ?_, ?_, ?_⟩
    · intro next st' h
      rw [hres] at h
      cases h
    · intro f st' h
      rw [hres] at h
      injection h with h
      injection h with hf _
      exact ⟨hf.symm, d, h1, h4, hav⟩
    · rintro ⟨t, ht, ha⟩
      exact absurd ((available_iff_flag hm _ _).1 ha) (hnone t ht)
  · have hav : Available N st.maze (i, j) (((draws (st.pos + t) % 4 : Nat) : Int) + 1) :=
      (available_iff_flag hm _ _).2 hz
    refine ⟨fun hno => absurd hav (hno _ (by omega) (by omega)), ?_, ?_, ?_⟩
    · intro next st' h
      rw [hres] at h
      injection h with h
      injection h with h1 h2
      subst h1
      refine ⟨⟨fun h0 => ?_, fun hno => absurd hav (hno _ (by omega) (by omega))⟩,
        fun _ => ⟨by omega, by omega, hav.1, hav.2⟩⟩
      omega
    · intro f st' h
      rw [hres] at h
      cases h
    · intro _
      exact ⟨_, _, hres, by omega⟩

theorem check_available_spec_witness :
    WF 2 seeded2.maze ∧ Binary seeded2.maze ∧ InB 2 ((0 : Int), (0 : Int))
    ∧ check_available 2 roundRobin 4 0 0 seeded2
        = Except.ok (2, { seeded2.queried 0 0 with pos := 2 })
    ∧ (((∀ d : Int, 1 ≤ d → d ≤ 4 → ¬ Available 2 seeded2.maze (0, 0) d) →
        check_available 2 roundRobin 4 0 0 seeded2 = Except.ok (0, seeded2.queried 0 0))
    ∧ (∀ next st', check_available 2 roundRobin 4 0 0 seeded2 = Except.ok (next, st') →
        (next = 0 ↔ ∀ d : Int, 1 ≤ d → d ≤ 4 → ¬ Available 2 seeded2.maze (0, 0) d)
        ∧ (next ≠ 0 → 1 ≤ next ∧ next ≤ 4 ∧ InB 2 (nbr (0, 0) next)
            ∧ rd seeded2.maze (nbr (0, 0) next).1 (nbr (0, 0) next).2 = some 0))
    ∧ (∀ f st', check_available 2 roundRobin 4 0 0 seeded2 = Except.error (f, st') →
        f = Fault.starved ∧ ∃ d : Int, 1 ≤ d ∧ d ≤ 4 ∧ Available 2 seeded2.maze (0, 0) d)
    ∧ ((∃ t, t < 4 ∧
          Available 2 seeded2.maze (0, 0)
            (((roundRobin (seeded2.pos + t) % 4 : Nat) : Int) + 1)) →
        ∃ next st', check_available 2 roundRobin 4 0 0 seeded2 = Except.ok (next, st')
          ∧ next ≠ 0)) :=
  ⟨by decide, by decide, by decide, rfl,
    check_available_spec 2 roundRobin 4 0 0 seeded2 (by decide) (by decide) (by decide)⟩

/-- C6 (no repeated event): in every run, returned or not, no two wall-removal
events join the same unordered pair of cells, no cell is the current (first)
cell of two events, and the seed `(0, 0)` is the current cell of none. -/
theorem no_repeated_event (N : Nat) (draws : Nat → Nat) (k fuel : Nat) (cr : List Cairo) :
    (events (final (generate_maze N draws k fuel cr)).trace).Pairwise
        (fun e f => ¬ SamePair e f)
    ∧ ((events (final (generate_maze N draws k fuel cr)).trace).map Prod.fst).Nodup
    ∧ ((0 : Int), (0 : Int))
        ∉ (events (final (generate_maze N draws k fuel cr)).trace).map Prod.fst := by
  rcases final_trace N draws k fuel cr with ⟨_, hg⟩ | ⟨_, htr⟩
  · obtain ⟨_, _, t3, t4, t5, _, _⟩ := hg.tree
    exact ⟨t3, t4, t5⟩
  · rw [htr]
    simp [events]

/-- C7 (shared-wall geometry): for 4-adjacent cells `remove_wall` sets the
black, 4 px, butt-capped stroke and strokes exactly one segment, the one the
specification describes: through the midpoint of the two pixel centres
`(50 + (col+1)*18 - 9, 50 + (row+1)*18 - 9)`, spanning 7.5 px to either side,
horizontal for vertical neighbours and vertical for horizontal neighbours.
That midpoint lies on the grid line `50 + 18 * max` between the two cells and
the segment ends 1.5 px short of the two orthogonal grid lines. -/
theorem shared_wall_geometry (cr : List Cairo) (i j previ prevj : Int)
    (h : Adj (i, j) (previ, prevj)) :
    remove_wall cr i j previ prevj
      = (cr ++ [Cairo.set_source_rgb 0 0 0, Cairo.set_line_width 4,
          Cairo.set_line_cap LineCap.butt]) ++ erasing_segment (i, j) (previ, prevj)
    ∧ (j = prevj →
        (midpoint (i, j) (previ, prevj)).2 = 50 + 18 * ((max i previ : Int) : ℚ)
        ∧ (midpoint (i, j) (previ, prevj)).1 - 7.5 = (50 + 18 * (j : ℚ)) + 1.5
        ∧ (midpoint (i, j) (previ, prevj)).1 + 7.5 = (50 + 18 * ((j : ℚ) + 1)) - 1.5)
    ∧ (j ≠ prevj →
        (midpoint (i, j) (previ, prevj)).1 = 50 + 18 * ((max j prevj : Int) : ℚ)
        ∧ (midpoint (i, j) (previ, prevj)).2 - 7.5 = (50 + 18 * (i : ℚ)) + 1.5
        ∧ (midpoint (i, j) (previ, prevj)).2 + 7.5 = (50 + 18 * ((i : ℚ) + 1)) - 1.5) := by
  rcases adj_cases h with ⟨h1, h2⟩ | ⟨h1, h2⟩ | ⟨h1, h2⟩ | ⟨h1, h2⟩
  · subst h1 h2
    refine ⟨?_, fun _ => ?_, fun hne => absurd rfl hne⟩
    · unfold remove_wall erasing_segment midpoint centre
      simp only [if_true]
      rw [if_pos (by omega)]
      congr 1
      simp only [List.cons.injEq, Cairo.move_to.injEq, Cairo.line_to.injEq, and_true]
      push_cast
      refine ⟨⟨?_, ?_⟩, ⟨?_, ?_⟩⟩ <;> ring
    · unfold midpoint centre
      rw [max_eq_left (by omega)]
      push_cast
      refine ⟨?_, ?_, ?_⟩ <;> ring
  · subst h1 h2
    refine ⟨?_, fun _ => ?_, fun hne => absurd rfl hne⟩
    · unfold remove_wall erasing_segment midpoint centre
      simp only [if_true]
      rw [if_neg (by omega)]
      congr 1
      simp only [List.cons.injEq, Cairo.move_to.injEq, Cairo.line_to.injEq, and_true]
      push_cast
      refine ⟨⟨?_, ?_⟩, ⟨?_, ?_⟩⟩ <;> ring
    · unfold midpoint centre
      rw [max_eq_right (by omega)]
      push_cast
      refine ⟨?_, ?_, ?_⟩ <;> ring
  · subst h1 h2
    have hne : prevj + 1 ≠ prevj := by omega
    refine ⟨?_, fun he => absurd he hne, fun _ => ?_⟩
    · unfold remove_wall erasing_segment midpoint centre
      simp only
      rw [if_neg (by omega), if_neg (by omega), if_neg hne]
      congr 1
      simp only [List.cons.injEq, Cairo.move_to.injEq, Cairo.line_to.injEq, and_true]
      push_cast
      refine ⟨⟨?_, ?_⟩, ⟨?_, ?_⟩⟩ <;> ring
    · unfold midpoint centre
      rw [max_eq_left (by omega)]
      push_cast
      refine ⟨?_, ?_, ?_⟩ <;> ring
  · subst h1 h2
    have hne : prevj - 1 ≠ prevj := by omega
    refine ⟨?_, fun he => absurd he hne, fun _ => ?_⟩
    · unfold remove_wall erasing_segment midpoint centre
      simp only
      rw [if_neg (by omega), if_pos (by omega), if_neg hne]
      congr 1
      simp only [List.cons.injEq, Cairo.move_to.injEq, Cairo.line_to.injEq, and_true]
      push_cast
      refine ⟨⟨?_, ?_⟩, ⟨?_, ?_⟩⟩ <;> ring
    · unfold midpoint centre
      rw [max_eq_right (by omega)]
      push_cast
      refine ⟨?_, ?_, ?_⟩ <;> ring

theorem shared_wall_geometry_witness :
    Adj ((1 : Int), (0 : Int)) ((0 : Int), (0 : Int))
    ∧ centre (0, 0) = (59, 59) ∧ centre (1, 0) = (59, 77)
    ∧ remove_wall [] 1 0 0 0
        = [Cairo.set_source_rgb 0 0 0, Cairo.set_line_width 4, Cairo.set_line_cap LineCap.butt,
           Cairo.move_to 51.5 68, Cairo.line_to 66.5 68, Cairo.stroke]
    ∧ (remove_wall [] 1 0 0 0
      = ([] ++ [Cairo.set_source_rgb 0 0 0, Cairo.set_line_width 4,
          Cairo.set_line_cap LineCap.butt]) ++ erasing_segment (1, 0) (0, 0)
    ∧ ((0 : Int) = 0 →
        (midpoint (1, 0) (0, 0)).2 = 50 + 18 * ((max (1 : Int) 0 : Int) : ℚ)
        ∧ (midpoint (1, 0) (0, 0)).1 - 7.5 = (50 + 18 * ((0 : Int) : ℚ)) + 1.5
        ∧ (midpoint (1, 0) (0, 0)).1 + 7.5 = (50 + 18 * (((0 : Int) : ℚ) + 1)) - 1.5)
    ∧ ((0 : Int) ≠ 0 →
        (midpoint (1, 0) (0, 0)).1 = 50 + 18 * ((max (0 : Int) 0 : Int) : ℚ)
        ∧ (midpoint (1, 0) (0, 0)).2 - 7.5 = (50 + 18 * ((1 : Int) : ℚ)) + 1.5
        ∧ (midpoint (1, 0) (0, 0)).2 + 7.5 = (50 + 18 * (((1 : Int) : ℚ) + 1)) - 1.5)) := by
  refine ⟨by decide, by decide, by decide, ?_, shared_wall_geometry [] 1 0 0 0 (by decide)⟩
  simp only [remove_wall]
  norm_num

/-- C8 (determinism under fixed randomness): two runs of `generate_maze` that
return, on the same grid side and cairo context, whose draw sequences agree on
the draws the first run consumed, end in the same state, whatever their
budgets: the same wall-removal events in the same order, the same cairo calls,
the same trace and grid, the same number of draws. -/
theorem determinism (N : Nat) (d1 d2 : Nat → Nat) (k1 k2 fuel1 fuel2 : Nat)
    (cr : List Cairo) (s1 s2 : State)
    (h1 : generate_maze N d1 k1 fuel1 cr = Except.ok s1)
    (h2 : generate_maze N d2 k2 fuel2 cr = Except.ok s2)
    (hag : ∀ t, t < s1.pos → d1 t = d2 t) :
    s1 = s2 ∧ events s1.trace = events s2.trace ∧ s1.cr = s2.cr ∧ s1.pos = s2.pos := by
  have hN : 1 ≤ N := by
    rcases Nat.eq_zero_or_pos N with h | h
    · subst h
      rw [generate_maze_zero] at h1
      cases h1
    · exact h
  obtain ⟨hJ, htr, _, heq1⟩ := generate_maze_seeded hN d1 k1 fuel1 cr
  obtain ⟨_, _, _, heq2⟩ := generate_maze_seeded hN d2 k2 fuel2 cr
  rw [heq1] at h1
  rw [heq2] at h2
  have he : Step.enter 0 0 0 0 1 ∈ (seeded N cr).trace := by
    rw [htr]
    exact List.mem_singleton_self _
  have hs : s1 = s2 :=
    make_path_loop_det N d1 d2 k1 k2 fuel1 fuel2 1 0 0 0 0 (seeded N cr) s1 s2 hJ he h1 h2
      (fun t _ ht => hag t ht)
  subst hs
  exact ⟨rfl, rfl, rfl, rfl⟩

theorem determinism_witness :
    generate_maze 2 roundRobin 4 4 [] = Except.ok (final run2)
    ∧ generate_maze 2 roundRobinThenUp 5 7 []
        = Except.ok (final (generate_maze 2 roundRobinThenUp 5 7 []))
    ∧ (∀ t, t < (final run2).pos → roundRobin t = roundRobinThenUp t)
    ∧ (final run2 = final (generate_maze 2 roundRobinThenUp 5 7 [])
      ∧ events (final run2).trace
          = events (final (generate_maze 2 roundRobinThenUp 5 7 [])).trace
      ∧ (final run2).cr = (final (generate_maze 2 roundRobinThenUp 5 7 [])).cr
      ∧ (final run2).pos = (final (generate_maze 2 roundRobinThenUp 5 7 [])).pos) := by
  have hag : ∀ t, t < (final run2).pos → roundRobin t = roundRobinThenUp t := by
    intro t ht
    have hp : (final run2).pos = 4 := by decide
    rw [hp] at ht
    simp [roundRobin, roundRobinThenUp, ht]
  exact ⟨rfl, rfl, hag,
    determinism 2 roundRobin roundRobinThenUp 4 5 4 7 [] _ _ rfl rfl hag⟩

/-- C9 (termination and bounded recursion): for every grid side `N >= 1`, every
draw sequence and every draw budget `k`, `generate_maze` run with fuel
`N * N` never runs out of fuel: it returns unless a rejection loop makes `k`
draws without an available direction, and it returns on every draw sequence
of which each window of `k` draws holds all four directions.  In the state
reached, returned or not, `make_path` has been entered on pairwise different
cells, exactly those whose flag is `1`, so that the unvisited tiles and the
calls add up to `N * N`; there are at most `N * N` calls and their nesting
depth is at most `N * N`. -/
theorem termination (N : Nat) (draws : Nat → Nat) (k fuel : Nat) (cr : List Cairo)
    (hN : 1 ≤ N) (hfuel : N * N ≤ fuel) :
    (∀ st, generate_maze N draws k fuel cr ≠ Except.error (Fault.fuel, st))
    ∧ ((∀ st, generate_maze N draws k fuel cr ≠ Except.error (Fault.starved, st)) →
        ∃ st, generate_maze N draws k fuel cr = Except.ok st)
    ∧ ((∀ p r, r < 4 → ∃ t, t < k ∧ draws (p + t) % 4 = r) →
        ∃ st, generate_maze N draws k fuel cr = Except.ok st)
    ∧ (entered (final (generate_maze N draws k fuel cr)).trace).Nodup
    ∧ (∀ c : Cell, InB N c →
        rd (final (generate_maze N draws k fuel cr)).maze c.1 c.2
          = some (if c ∈ entered (final (generate_maze N draws k fuel cr)).trace
              then 1 else 0))
    ∧ unvisited (final (generate_maze N draws k fuel cr)).maze
        + (entered (final (generate_maze N draws k fuel cr)).trace).length = N * N
    ∧ (entered (final (generate_maze N draws k fuel cr)).trace).length ≤ N * N
    ∧ (∀ i j previ prevj depth,
        Step.enter i j previ prevj depth ∈ (final (generate_maze N draws k fuel cr)).trace →
        depth ≤ N * N) := by
  have hJ := generate_maze_final hN draws k fuel cr
  refine ⟨never_out_of_fuel hN draws k hfuel cr, returns_of_not_starved hN draws k hfuel cr,
    returns_of_fair hN draws k hfuel cr, hJ.2.2.entered_nodup, hJ.2.1,
    generate_maze_tally hN draws k fuel cr, hJ.2.2.calls_le, ?_⟩
  intro i j previ prevj depth h
  exact Nat.le_trans (hJ.2.2.depth_le _ _ _ _ _ h) hJ.2.2.calls_le

theorem termination_witness :
    1 ≤ 2 ∧ 2 * 2 ≤ 4
    ∧ generate_maze 2 roundRobin 4 4 [] = Except.ok (final run2)
    ∧ ((∀ st, generate_maze 2 roundRobin 4 4 [] ≠ Except.error (Fault.fuel, st))
    ∧ ((∀ st, generate_maze 2 roundRobin 4 4 [] ≠ Except.error (Fault.starved, st)) →
        ∃ st, generate_maze 2 roundRobin 4 4 [] = Except.ok st)
    ∧ ((∀ p r, r < 4 → ∃ t, t < 4 ∧ roundRobin (p + t) % 4 = r) →
        ∃ st, generate_maze 2 roundRobin 4 4 [] = Except.ok st)
    ∧ (entered (final (generate_maze 2 roundRobin 4 4 [])).trace).Nodup
    ∧ (∀ c : Cell, InB 2 c →
        rd (final (generate_maze 2 roundRobin 4 4 [])).maze c.1 c.2
          = some (if c ∈ entered (final (generate_maze 2 roundRobin 4 4 [])).trace
              then 1 else 0))
    ∧ unvisited (final (generate_maze 2 roundRobin 4 4 [])).maze
        + (entered (final (generate_maze 2 roundRobin 4 4 [])).trace).length = 2 * 2
    ∧ (entered (final (generate_maze 2 roundRobin 4 4 [])).trace).length ≤ 2 * 2
    ∧ (∀ i j previ prevj depth,
        Step.enter i j previ prevj depth ∈ (final (generate_maze 2 roundRobin 4 4 [])).trace →
        depth ≤ 2 * 2)) :=
  ⟨by decide, by decide, rfl, termination 2 roundRobin 4 4 [] (by decide) (by decide)⟩

/-- C10 (scenario `N = 2`): with `SIZE = 2` every run that returns emits
exactly 3 wall-removal events; they form a spanning tree over the 4 cells and
no two of them join the same pair of cells. -/
theorem scenario_two (draws : Nat → Nat) (k fuel : Nat) (cr : List Cairo) (st : State)
    (h : generate_maze 2 draws k fuel cr = Except.ok st) :
    (events st.trace).length = 3
    ∧ (∀ e ∈ events st.trace, InB 2 e.1 ∧ InB 2 e.2 ∧ Adj e.1 e.2)
    ∧ (events st.trace).Pairwise (fun e f => ¬ SamePair e f)
    ∧ (∀ a b, InB 2 a → InB 2 b → Conn (events st.trace) a b)
    ∧ ¬ ∃ vs, IsCycle (events st.trace) vs :=
  returned_tree (by decide) h

theorem scenario_two_witness :
    generate_maze 2 roundRobin 4 4 [] = Except.ok (final run2)
    ∧ events (final run2).trace = [((0, 1), (0, 0)), ((1, 1), (0, 1)), ((1, 0), (1, 1))]
    ∧ ((events (final run2).trace).length = 3
    ∧ (∀ e ∈ events (final run2).trace, InB 2 e.1 ∧ InB 2 e.2 ∧ Adj e.1 e.2)
    ∧ (events (final run2).trace).Pairwise (fun e f => ¬ SamePair e f)
    ∧ (∀ a b, InB 2 a → InB 2 b → Conn (events (final run2).trace) a b)
    ∧ ¬ ∃ vs, IsCycle (events (final run2).trace) vs) :=
  ⟨rfl, by decide, scenario_two roundRobin 4 4 [] (final run2) rfl⟩

/-! ## Depth-first closure -/

theorem Reach.start_unv {m : Grid} {a x : Cell} (h : Reach m a x) : Unv m a := by
  cases h with
  | refl h => exact h
  | step h _ _ _ => exact h

theorem Reach.end_unv {m : Grid} {a x : Cell} (h : Reach m a x) : Unv m x := by
  induction h with
  | refl h => exact h
  | step _ _ _ _ ih => exact ih

theorem Reach.trans_reach {m : Grid} {a b x : Cell} (h1 : Reach m a b) (h2 : Reach m b x) :
    Reach m a x := by
  induction h1 with
  | refl _ => exact h2
  | step hu h1 h4 _ ih => exact Reach.step hu h1 h4 (ih h2)

theorem Reach.mono_reach {m m' : Grid} (hsub : ∀ y, Unv m' y → Unv m y) {a x : Cell}
    (h : Reach m' a x) : Reach m a x := by
  induction h with
  | refl hu => exact Reach.refl (hsub _ hu)
  | step hu h1 h4 _ ih => exact Reach.step (hsub _ hu) h1 h4 ih

/-- A path through unvisited tiles either survives the marking of the set `S`
or meets `S`, and then its end is reachable from a tile of `S`. -/
theorem reach_absorb {m m' : Grid} {S : Cell → Prop}
    (hkeep : ∀ y, Unv m y → ¬ S y → Unv m' y) {a x : Cell} (h : Reach m a x) :
    Reach m' a x ∨ ∃ s, S s ∧ Reach m s x := by
  induction h with
  | @refl a hu =>
    by_cases hs : S a
    · exact Or.inr ⟨a, hs, Reach.refl hu⟩
    · exact Or.inl (Reach.refl (hkeep a hu hs))
  | @step a x d hu h1 h4 hr ih =>
    rcases ih with ih | ih
    · by_cases hs : S a
      · exact Or.inr ⟨a, hs, Reach.step hu h1 h4 hr⟩
      · exact Or.inl (Reach.step (hkeep a hu hs) h1 h4 ih)
    · exact Or.inr ih

/-- A path through unvisited tiles, cut at its last visit of the tile `n`. -/
theorem reach_last {m m' : Grid} {n : Cell}
    (hkeep : ∀ y, Unv m y → y ≠ n → Unv m' y) {a x : Cell} (h : Reach m a x) :
    Reach m' a x ∨ x = n ∨ ∃ d : Int, 1 ≤ d ∧ d ≤ 4 ∧ Reach m' (nbr n d) x := by
  induction h with
  | @refl a hu =>
    by_cases hs : a = n
    · exact Or.inr (Or.inl hs)
    · exact Or.inl (Reach.refl (hkeep a hu hs))
  | @step a x d hu h1 h4 hr ih =>
    rcases ih with ih | ih | ih
    · by_cases hs : a = n
      · subst hs
        exact Or.inr (Or.inr ⟨d, h1, h4, ih⟩)
      · exact Or.inl (Reach.step (hkeep a hu hs) h1 h4 ih)
    · exact Or.inr (Or.inl ih)
    · exact Or.inr (Or.inr ih)

/-- The closure of a call follows from the closure of its do-while. -/
theorem call_closure_of_loop {N : Nat} {draws : Nat → Nat} {k fuel : Nat}
    (hloop : ∀ (depth : Nat) (i j : Int) (st st' : State), WF N st.maze → InB N (i, j) →
      make_path_loop N draws k fuel depth i j st = Except.ok st' →
      LoopClosure N st.maze (i, j) st'.maze)
    (depth : Nat) (i j previ prevj : Int) (st st' : State) (hm : WF N st.maze)
    (hu : Unv st.maze (i, j))
    (h : make_path N draws k fuel depth i j previ prevj st = Except.ok st') :
    CallClosure N st.maze (i, j) st'.maze := by
  have hc : InB N (i, j) := rd_some_inB hm hu
  obtain ⟨m2, hw, hmp⟩ := make_path_eq draws k fuel depth previ prevj hm hc
  obtain ⟨hwf2, _, hrd2⟩ := wr_spec hm hw
  rw [hmp] at h
  obtain ⟨hwf', hmarks, hflags⟩ :=
    hloop depth i j (st.marked m2 i j previ prevj depth) st' hwf2 hc h
  have hm2 : (st.marked m2 i j previ prevj depth).maze = m2 := rfl
  rw [hm2] at hmarks
  have hvis2 : rd m2 i j = some 1 := by
    rw [hrd2]
    simp
  have hkeep : ∀ y : Cell, Unv st.maze y → y ≠ (i, j) → Unv m2 y := by
    intro y hy hne
    unfold Unv
    rw [hrd2]
    have : ¬ (y.1 = i ∧ y.2 = j) := fun hh => hne (Prod.ext hh.1 hh.2)
    rw [if_neg this]
    exact hy
  have hsub : ∀ y : Cell, Unv m2 y → Unv st.maze y := by
    intro y hy
    unfold Unv at hy ⊢
    rw [hrd2] at hy
    by_cases hyn : y.1 = i ∧ y.2 = j
    · rw [if_pos hyn] at hy
      cases hy
    · rw [if_neg hyn] at hy
      exact hy
  have hnot2 : ∀ a : Cell, ¬ Reach m2 a (i, j) := by
    intro a hr
    have := hr.end_unv
    unfold Unv at this
    rw [hvis2] at this
    cases this
  have hnotR : ¬ ∃ d : Int, 1 ≤ d ∧ d ≤ 4 ∧ Reach m2 (nbr (i, j) d) (i, j) :=
    fun ⟨d, _, _, hr⟩ => hnot2 _ hr
  refine ⟨hwf', ?_, hflags⟩
  intro x
  constructor
  · intro hr
    rcases reach_last hkeep hr with h1 | h1 | h1
    · have := h1.start_unv
      unfold Unv at this
      rw [hvis2] at this
      cases this
    · subst h1
      rw [(hmarks (i, j)).2 hnotR]
      exact hvis2
    · exact (hmarks x).1 h1
  · intro hnr
    have hxn : x ≠ (i, j) := by
      intro hx
      subst hx
      exact hnr (Reach.refl hu)
    have hnR : ¬ ∃ d : Int, 1 ≤ d ∧ d ≤ 4 ∧ Reach m2 (nbr (i, j) d) x := by
      rintro ⟨d, h1, h4, hr⟩
      exact hnr (Reach.step hu h1 h4 (hr.mono_reach hsub))
    rw [(hmarks x).2 hnR, hrd2]
    have : ¬ (x.1 = i ∧ x.2 = j) := fun hh => hxn (Prod.ext hh.1 hh.2)
    rw [if_neg this]
/-- The do-while of `make_path` marks exactly what is reachable from the
neighbours of its cell through unvisited tiles: by induction on the fuel. -/
theorem make_path_loop_closure (N : Nat) (draws : Nat → Nat) (k : Nat) :
    ∀ (fuel depth : Nat) (i j : Int) (st st' : State), WF N st.maze → InB N (i, j) →
      make_path_loop N draws k fuel depth i j st = Except.ok st' →
      LoopClosure N st.maze (i, j) st'.maze := by
  intro fuel
  induction fuel with
  | zero =>
    intro depth i j st st' _ _ h
    rw [make_path_loop_zero] at h
    cases h
  | succ fuel ih =>
    intro depth i j st st' hm hc h
    rcases check_available_cases draws k hm hc with
      ⟨hall, hres⟩ | ⟨_, _, hres⟩ | ⟨t, _, hz, _, hres⟩
    · rw [make_path_loop_done _ _ _ _ _ _ _ _ _ hres] at h
      injection h with h
      subst h
      refine ⟨hm, ?_, hall⟩
      intro x
      refine ⟨?_, fun _ => rfl⟩
      rintro ⟨d, h1, h4, hr⟩
      have := hr.start_unv.flag_zero
      rw [hall d h1 h4] at this
      cases this
    · rw [make_path_loop_error _ _ _ _ _ _ _ _ _ hres] at h
      cases h
    · generalize hd : (((draws (st.pos + t) % 4 : Nat) : Int) + 1) = d at hz hres
      have h1 : 1 ≤ d := by omega
      have h4 : d ≤ 4 := by omega
      have hun : Unv st.maze (nbr (i, j) d) := flag_eq_zero hm hz
      rw [make_path_loop_dir _ _ _ _ _ _ _ _ _ d h1 h4 hres] at h
      cases hn : make_path N draws k fuel (depth + 1) (nbr (i, j) d).1 (nbr (i, j) d).2 i j
          (({ st.queried i j with pos := st.pos + t + 1 } : State).remove_wall
            (nbr (i, j) d).1 (nbr (i, j) d).2 i j) with
      | error e =>
        rw [hn] at h
        cases h
      | ok s3 =>
        rw [hn] at h
        have h' : make_path_loop N draws k fuel depth i j s3 = Except.ok st' := h
        obtain ⟨hwf3, hmarks3, _⟩ := call_closure_of_loop (ih) (depth + 1)
          (nbr (i, j) d).1 (nbr (i, j) d).2 i j
          (({ st.queried i j with pos := st.pos + t + 1 } : State).remove_wall
            (nbr (i, j) d).1 (nbr (i, j) d).2 i j) s3 hm hun hn
        have hmarks3' : Marks st.maze s3.maze (Reach st.maze (nbr (i, j) d)) := hmarks3
        obtain ⟨hwf', hmarks', hflags'⟩ := ih depth i j s3 st' hwf3 hc h'
        have hsub : ∀ y : Cell, Unv s3.maze y → Unv st.maze y := by
          intro y hy
          by_cases hr : Reach st.maze (nbr (i, j) d) y
          · unfold Unv at hy
            rw [(hmarks3' y).1 hr] at hy
            cases hy
          · unfold Unv at hy ⊢
            rw [(hmarks3' y).2 hr] at hy
            exact hy
        have hkeep : ∀ y : Cell, Unv st.maze y → ¬ Reach st.maze (nbr (i, j) d) y →
            Unv s3.maze y := by
          intro y hy hr
          unfold Unv
          rw [(hmarks3' y).2 hr]
          exact hy
        refine ⟨hwf', ?_, hflags'⟩
        intro x
        constructor
        · rintro ⟨d', h1', h4', hr⟩
          have hone : Reach st.maze (nbr (i, j) d) x → rd st'.maze x.1 x.2 = some 1 := by
            intro hrn
            by_cases hR3 : ∃ d : Int, 1 ≤ d ∧ d ≤ 4 ∧ Reach s3.maze (nbr (i, j) d) x
            · exact (hmarks' x).1 hR3
            · rw [(hmarks' x).2 hR3]
              exact (hmarks3' x).1 hrn
          rcases reach_absorb hkeep hr with hl | ⟨s, hs, hsx⟩
          · exact (hmarks' x).1 ⟨d', h1', h4', hl⟩
          · exact hone (hs.trans_reach hsx)
        · intro hnR
          have hnR3 : ¬ ∃ d : Int, 1 ≤ d ∧ d ≤ 4 ∧ Reach s3.maze (nbr (i, j) d) x := by
            rintro ⟨d', h1', h4', hr⟩
            exact hnR ⟨d', h1', h4', hr.mono_reach hsub⟩
          have hnn : ¬ Reach st.maze (nbr (i, j) d) x := fun hr => hnR ⟨d, h1, h4, hr⟩
          rw [(hmarks' x).2 hnR3]
          exact (hmarks3' x).2 hnn

/-- A returned call of `make_path` on an unvisited tile marks exactly the
tiles reachable from it through unvisited tiles. -/
theorem make_path_closure {N : Nat} (draws : Nat → Nat) (k fuel depth : Nat)
    (i j previ prevj : Int) (st st' : State) (hm : WF N st.maze) (hu : Unv st.maze (i, j))
    (h : make_path N draws k fuel depth i j previ prevj st = Except.ok st') :
    CallClosure N st.maze (i, j) st'.maze :=
  call_closure_of_loop (make_path_loop_closure N draws k fuel) depth i j previ prevj st st'
    hm hu h

/-! ## The base grid -/

theorem snoc_split {α : Type} {pre post l : List α} {y a : α}
    (h : pre ++ y :: post = l ++ [a]) :
    (post = [] ∧ y = a ∧ pre = l) ∨ ∃ post', post = post' ++ [a] ∧ l = pre ++ y :: post' := by
  rcases List.eq_nil_or_concat post with hp | ⟨post', b, hp⟩
  · subst hp
    have := List.append_inj' h rfl
    left
    exact ⟨rfl, by simpa using this.2, this.1⟩
  · rw [List.concat_eq_append] at hp
    subst hp
    have h' : (pre ++ y :: post') ++ [b] = l ++ [a] := by
      rw [← h]
      simp
    have := List.append_inj' h' rfl
    right
    refine ⟨post', ?_, this.1.symm⟩
    have hb : b = a := by simpa using this.2
    rw [hb]

/-- In a generation trace every `remove_wall` call is followed at once by the
`make_path` call on the same pair of cells; when it is made its second cell
has been entered, its first cell has not, and the first is a neighbour of the
second. -/
theorem GenTrace.wall_order {N : Nat} {tr : List Step} (h : GenTrace N tr) :
    ∀ (pre post : List Step) (i j pi pj : Int), tr = pre ++ Step.wall i j pi pj :: post →
      (∃ depth post', post = Step.enter i j pi pj depth :: post')
      ∧ (pi, pj) ∈ entered pre ∧ (i, j) ∉ entered pre
      ∧ ∃ d : Int, 1 ≤ d ∧ d ≤ 4 ∧ (i, j) = nbr (pi, pj) d := by
  induction h with
  | seed _ =>
    intro pre post i j pi pj heq
    cases pre with
    | nil => simp at heq
    | cons x pre' => simp at heq
  | @query tr i0 j0 pi0 pj0 depth0 hg hen ih =>
    intro pre post i j pi pj heq
    rcases snoc_split heq.symm with ⟨_, hy, _⟩ | ⟨post', hp, hl⟩
    · cases hy
    · obtain ⟨⟨depth, post'', hpost⟩, h2, h3, h4⟩ := ih pre post' i j pi pj hl
      refine ⟨⟨depth, post'' ++ [Step.query i0 j0 (avail N (entered tr) (i0, j0))], ?_⟩,
        h2, h3, h4⟩
      rw [hp, hpost]
      rfl
  | @descend tr i0 j0 pi0 pj0 depth0 d hg hen h1 h4 hin hnot ih =>
    intro pre post i j pi pj heq
    have heq' : pre ++ Step.wall i j pi pj :: post
        = (tr ++ [Step.wall (nbr (i0, j0) d).1 (nbr (i0, j0) d).2 i0 j0])
          ++ [Step.enter (nbr (i0, j0) d).1 (nbr (i0, j0) d).2 i0 j0 (depth0 + 1)] := by
      rw [← heq]
      simp
    rcases snoc_split heq' with ⟨_, hy, _⟩ | ⟨post', hp, hl⟩
    · cases hy
    · rcases snoc_split hl.symm with ⟨hp', hy, hpre⟩ | ⟨post'', hp'', hl'⟩
      · injection hy with e1 e2 e3 e4
        subst e1 e2 e3 e4 hp' hpre
        refine ⟨⟨depth0 + 1, [], ?_⟩, mem_entered_of_enter hen, hnot, d, h1, h4, rfl⟩
        rw [hp]
        rfl
      · obtain ⟨⟨depth, post3, hpost⟩, g2, g3, g4⟩ := ih pre post'' i j pi pj hl'
        refine ⟨⟨depth, post3 ++ [Step.wall (nbr (i0, j0) d).1 (nbr (i0, j0) d).2 i0 j0,
          Step.enter (nbr (i0, j0) d).1 (nbr (i0, j0) d).2 i0 j0 (depth0 + 1)], ?_⟩, g2, g3, g4⟩
        rw [hp, hp'', hpost]
        simp

/-- In the event sequence of a generation trace every event's previous cell is
the seed or the current cell of an earlier event. -/
theorem GenTrace.prev_earlier {N : Nat} {tr : List Step} (h : GenTrace N tr) :
    ∀ (pre post : List (Cell × Cell)) (e : Cell × Cell), events tr = pre ++ e :: post →
      e.2 = (0, 0) ∨ e.2 ∈ pre.map Prod.fst := by
  induction h with
  | seed _ =>
    intro pre post e heq
    simp [events] at heq
  | query _ _ ih =>
    rw [events_query]
    exact ih
  | @descend tr i0 j0 pi0 pj0 depth0 d hg hen h1 h4 hin hnot ih =>
    rw [events_descend]
    intro pre post e heq
    rcases snoc_split heq.symm with ⟨_, hy, hpre⟩ | ⟨post', _, hl⟩
    · subst hy hpre
      have := mem_entered_of_enter hen
      rw [hg.entered_cons] at this
      rcases List.mem_cons.1 this with h0 | h0
      · exact Or.inl h0
      · exact Or.inr h0
    · exact ih pre post' e hl

/-- A recorded `make_path` call is the seed call or a call on a neighbour of
its previous cell, which has been entered. -/
theorem GenTrace.enter_origin {N : Nat} {tr : List Step} (h : GenTrace N tr) :
    ∀ (i j pi pj : Int) (depth : Nat), Step.enter i j pi pj depth ∈ tr →
      ((i, j) = ((0 : Int), (0 : Int)) ∧ (pi, pj) = ((0 : Int), (0 : Int)))
      ∨ ((pi, pj) ∈ entered tr ∧ ∃ d : Int, 1 ≤ d ∧ d ≤ 4 ∧ (i, j) = nbr (pi, pj) d) := by
  induction h with
  | seed _ =>
    intro i j pi pj depth hs
    simp only [List.mem_singleton] at hs
    injection hs with e1 e2 e3 e4 _
    subst e1 e2 e3 e4
    exact Or.inl ⟨rfl, rfl⟩
  | query _ _ ih =>
    intro i j pi pj depth hs
    rw [entered_query]
    rcases List.mem_append.1 hs with hs | hs
    · exact ih _ _ _ _ _ hs
    · simp at hs
  | @descend tr i0 j0 pi0 pj0 depth0 d hg hen h1 h4 hin hnot ih =>
    intro i j pi pj depth hs
    rw [entered_descend]
    rcases List.mem_append.1 hs with hs | hs
    · rcases ih _ _ _ _ _ hs with h0 | ⟨hm, hd⟩
      · exact Or.inl h0
      · exact Or.inr ⟨List.mem_append_left _ hm, hd⟩
    · simp only [List.mem_cons, List.mem_singleton, List.not_mem_nil, or_false] at hs
      rcases hs with hs | hs
      · cases hs
      · injection hs with e1 e2 e3 e4 _
        subst e1 e2 e3 e4
        exact Or.inr ⟨List.mem_append_left _ (mem_entered_of_enter hen), d, h1, h4, rfl⟩

/-- Stepping to a neighbour and back: the opposite direction. -/
theorem nbr_back (c : Cell) {d : Int} (h1 : 1 ≤ d) (h4 : d ≤ 4) :
    ∃ d' : Int, 1 ≤ d' ∧ d' ≤ 4 ∧ nbr (nbr c d) d' = c := by
  have : d = 1 ∨ d = 2 ∨ d = 3 ∨ d = 4 := by omega
  rcases this with h | h | h | h <;> subst h
  · exact ⟨3, by decide, by decide, by simp [nbr]⟩
  · exact ⟨4, by decide, by decide, by simp [nbr]⟩
  · exact ⟨1, by decide, by decide, by simp [nbr]⟩
  · exact ⟨2, by decide, by decide, by simp [nbr]⟩

/-- From an entered cell of a generation trace some direction is unavailable:
up from the seed, back to the previous cell from any other cell. -/
theorem GenTrace.some_unavailable {N : Nat} {tr : List Step} (h : GenTrace N tr)
    {i j pi pj : Int} {depth : Nat} (he : Step.enter i j pi pj depth ∈ tr) :
    ∃ d : Int, 1 ≤ d ∧ d ≤ 4 ∧ ¬ (InB N (nbr (i, j) d) ∧ nbr (i, j) d ∉ entered tr) := by
  rcases h.enter_origin i j pi pj depth he with ⟨h0, _⟩ | ⟨hm, d, h1, h4, hd⟩
  · refine ⟨1, by decide, by decide, ?_⟩
    rw [h0]
    rintro ⟨hin, _⟩
    simp [nbr, InB] at hin
  · obtain ⟨d', h1', h4', hb⟩ := nbr_back (pi, pj) h1 h4
    refine ⟨d', h1', h4', ?_⟩
    rw [hd, hb]
    exact fun hh => hh.2 hm

theorem avail_count {N : Nat} {vis : List Cell} {c : Cell}
    (h : ∃ d : Int, 1 ≤ d ∧ d ≤ 4 ∧ ¬ (InB N (nbr c d) ∧ nbr c d ∉ vis)) :
    (avail N vis c).length = 4 ∧ (avail N vis c).count 0 ≤ 3 := by
  refine ⟨rfl, ?_⟩
  obtain ⟨d, h1, h4, hd⟩ := h
  have hone : availFlag N vis (nbr c d) = 1 := by
    unfold availFlag
    rw [if_neg hd]
  have hmem : availFlag N vis (nbr c d) ∈ avail N vis c := by
    have : d = 1 ∨ d = 2 ∨ d = 3 ∨ d = 4 := by omega
    rcases this with h | h | h | h <;> subst h <;> simp [avail]
  by_contra hc
  have hle : (avail N vis c).count 0 ≤ (avail N vis c).length := List.count_le_length _ _
  have hlen : (avail N vis c).length = 4 := rfl
  have hall : (avail N vis c).count 0 = (avail N vis c).length := by omega
  have := (List.count_eq_length.1 hall) _ hmem
  rw [hone] at this
  cases this

/-- In a generation trace, the array recorded by a `check_available` call is
the one the cells entered before it determine, and the trace up to the call is
itself a generation trace in which the calling cell has been entered. -/
theorem GenTrace.query_snapshot {N : Nat} {tr : List Step} (h : GenTrace N tr) :
    ∀ (pre post : List Step) (i j : Int) (a : List Int),
      tr = pre ++ Step.query i j a :: post →
      GenTrace N pre ∧ a = avail N (entered pre) (i, j)
      ∧ ∃ pi pj depth, Step.enter i j pi pj depth ∈ pre := by
  induction h with
  | seed _ =>
    intro pre post i j a heq
    cases pre with
    | nil => simp at heq
    | cons x pre' => simp at heq
  | @query tr i0 j0 pi0 pj0 depth0 hg hen ih =>
    intro pre post i j a heq
    rcases snoc_split heq.symm with ⟨_, hy, hpre⟩ | ⟨post', _, hl⟩
    · injection hy with e1 e2 e3
      subst e1 e2 e3 hpre
      exact ⟨hg, rfl, pi0, pj0, depth0, hen⟩
    · exact ih pre post' i j a hl
  | @descend tr i0 j0 pi0 pj0 depth0 d hg hen h1 h4 hin hnot ih =>
    intro pre post i j a heq
    have heq' : pre ++ Step.query i j a :: post
        = (tr ++ [Step.wall (nbr (i0, j0) d).1 (nbr (i0, j0) d).2 i0 j0])
          ++ [Step.enter (nbr (i0, j0) d).1 (nbr (i0, j0) d).2 i0 j0 (depth0 + 1)] := by
      rw [← heq]
      simp
    rcases snoc_split heq' with ⟨_, hy, _⟩ | ⟨post', _, hl⟩
    · cases hy
    · rcases snoc_split hl.symm with ⟨_, hy, _⟩ | ⟨post'', _, hl'⟩
      · cases hy
      · exact ih pre post'' i j a hl'

/-- The moment a wall is removed: in a state of the invariant, when
`check_available(i, j)` returns a direction, the cell `(i, j)` is visited, the
neighbour in that direction is unvisited, and the do-while goes on with
`remove_wall` on the neighbour and `(i, j)` followed by `make_path` on the
neighbour. -/
theorem emission_state {N : Nat} (draws : Nat → Nat) (k : Nat) {i j pi pj : Int}
    {depth : Nat} {st st1 : State} {next : Int} (hJ : J N st)
    (he : Step.enter i j pi pj depth ∈ st.trace)
    (hres : check_available N draws k i j st = Except.ok (next, st1)) (hne : next ≠ 0) :
    1 ≤ next ∧ next ≤ 4 ∧ rd st1.maze i j = some 1
    ∧ rd st1.maze (nbr (i, j) next).1 (nbr (i, j) next).2 = some 0
    ∧ ∀ fuel, make_path_loop N draws k (fuel + 1) depth i j st
        = (make_path N draws k fuel (depth + 1) (nbr (i, j) next).1 (nbr (i, j) next).2 i j
            (st1.remove_wall (nbr (i, j) next).1 (nbr (i, j) next).2 i j)).bind
          (make_path_loop N draws k fuel depth i j) := by
  have hmem := mem_entered_of_enter he
  have hc : InB N (i, j) := hJ.2.2.entered_inB _ hmem
  have hvis : rd st.maze i j = some 1 := by
    have := hJ.2.1 (i, j) hc
    rw [if_pos hmem] at this
    exact this
  rcases check_available_cases draws k hJ.1 hc with
    ⟨_, hres'⟩ | ⟨_, _, hres'⟩ | ⟨t, _, hz, _, hres'⟩
  · rw [hres'] at hres
    injection hres with hres
    injection hres with h1 _
    exact absurd h1.symm hne
  · rw [hres'] at hres
    cases hres
  · have hres0 := hres
    rw [hres'] at hres
    injection hres with hres
    injection hres with h1 h2
    subst h1 h2
    have h1 : (1 : Int) ≤ ((draws (st.pos + t) % 4 : Nat) : Int) + 1 := by omega
    have h4 : ((draws (st.pos + t) % 4 : Nat) : Int) + 1 ≤ 4 := by omega
    exact ⟨h1, h4, hvis, flag_eq_zero hJ.1 hz,
      fun fuel => make_path_loop_dir _ _ _ _ _ _ _ _ _ _ h1 h4 hres0⟩

/-! ## The erased walls -/

/-- On 4-adjacent cells `remove_wall` appends its three style calls and one
stroke along the wall between the cells. -/
theorem remove_wall_line (cr : List Cairo) {i j previ prevj : Int}
    (h : Adj (i, j) (previ, prevj)) :
    remove_wall cr i j previ prevj
      = cr ++ [Cairo.set_source_rgb 0 0 0, Cairo.set_line_width 4,
          Cairo.set_line_cap LineCap.butt,
          Cairo.move_to (wall_line (i, j) (previ, prevj)).1.1 (wall_line (i, j) (previ, prevj)).1.2,
          Cairo.line_to (wall_line (i, j) (previ, prevj)).2.1 (wall_line (i, j) (previ, prevj)).2.2,
          Cairo.stroke] := by
  rcases adj_cases h with ⟨h1, h2⟩ | ⟨h1, h2⟩ | ⟨h1, h2⟩ | ⟨h1, h2⟩
  · subst h1 h2
    unfold remove_wall wall_line
    simp only [if_true]
    rw [if_pos (by omega), max_eq_left (by omega)]
    simp only [List.append_assoc, List.cons_append, List.nil_append, List.append_cancel_left_eq,
      List.cons.injEq, Cairo.move_to.injEq, Cairo.line_to.injEq, and_true, true_and]
    push_cast
    refine ⟨⟨?_, ?_⟩, ⟨?_, ?_⟩⟩ <;> ring
  · subst h1 h2
    unfold remove_wall wall_line
    simp only [if_true]
    rw [if_neg (by omega), max_eq_right (by omega)]
    simp only [List.append_assoc, List.cons_append, List.nil_append, List.append_cancel_left_eq,
      List.cons.injEq, Cairo.move_to.injEq, Cairo.line_to.injEq, and_true, true_and]
    push_cast
    refine ⟨⟨?_, ?_⟩, ⟨?_, ?_⟩⟩ <;> ring
  · subst h1 h2
    have hne : prevj + 1 ≠ prevj := by omega
    unfold remove_wall wall_line
    simp only
    rw [if_neg (by omega), if_neg (by omega), if_neg hne, max_eq_left (by omega)]
    simp only [List.append_assoc, List.cons_append, List.nil_append, List.append_cancel_left_eq,
      List.cons.injEq, Cairo.move_to.injEq, Cairo.line_to.injEq, and_true, true_and]
    push_cast
    refine ⟨⟨?_, ?_⟩, ⟨?_, ?_⟩⟩ <;> ring
  · subst h1 h2
    have hne : prevj - 1 ≠ prevj := by omega
    unfold remove_wall wall_line
    simp only
    rw [if_neg (by omega), if_pos (by omega), if_neg hne, max_eq_right (by omega)]
    simp only [List.append_assoc, List.cons_append, List.nil_append, List.append_cancel_left_eq,
      List.cons.injEq, Cairo.move_to.injEq, Cairo.line_to.injEq, and_true, true_and]
    push_cast
    refine ⟨⟨?_, ?_⟩, ⟨?_, ?_⟩⟩ <;> ring

theorem stroked_eq {e : Cell × Cell} (h : Adj e.1 e.2) : stroked e = [wall_line e.1 e.2] := by
  unfold stroked
  rw [remove_wall_line [] h]
  simp [strokes]

theorem wall_line_symm {a b : Cell} (h : Adj a b) : wall_line a b = wall_line b a := by
  unfold Adj at h
  unfold wall_line
  by_cases hc : a.2 = b.2
  · rw [if_pos hc, if_pos hc.symm, hc, max_comm]
  · have hr : a.1 = b.1 := by omega
    rw [if_neg hc, if_neg (Ne.symm hc), hr, max_comm]

theorem adj_symm {a b : Cell} (h : Adj a b) : Adj b a := by
  unfold Adj at h ⊢
  omega

/-- Walls of 4-adjacent pairs coincide only for the same unordered pair. -/
theorem wall_line_inj {a b a' b' : Cell} (h : Adj a b) (h' : Adj a' b')
    (heq : wall_line a b = wall_line a' b') : SamePair (a, b) (a', b') := by
  have key : (a.1 = a'.1 ∧ a.2 = a'.2 ∧ b.1 = b'.1 ∧ b.2 = b'.2)
      ∨ (a.1 = b'.1 ∧ a.2 = b'.2 ∧ b.1 = a'.1 ∧ b.2 = a'.2) := by
    unfold Adj at h h'
    unfold wall_line at heq
    by_cases hc : a.2 = b.2
    · by_cases hc' : a'.2 = b'.2
      · rw [if_pos hc, if_pos hc'] at heq
        simp only [Prod.mk.injEq] at heq
        obtain ⟨⟨e1, e2⟩, _⟩ := heq
        have e1' : (a.2 : ℚ) = (a'.2 : ℚ) := by linarith
        have e2' : ((max a.1 b.1 : Int) : ℚ) = ((max a'.1 b'.1 : Int) : ℚ) := by linarith
        have f1 : a.2 = a'.2 := by exact_mod_cast e1'
        have f2 : max a.1 b.1 = max a'.1 b'.1 := by exact_mod_cast e2'
        omega
      · rw [if_pos hc, if_neg hc'] at heq
        simp only [Prod.mk.injEq] at heq
        obtain ⟨⟨e1, _⟩, ⟨e3, _⟩⟩ := heq
        exfalso
        linarith
    · by_cases hc' : a'.2 = b'.2
      · rw [if_neg hc, if_pos hc'] at heq
        simp only [Prod.mk.injEq] at heq
        obtain ⟨⟨e1, _⟩, ⟨e3, _⟩⟩ := heq
        exfalso
        linarith
      · rw [if_neg hc, if_neg hc'] at heq
        simp only [Prod.mk.injEq] at heq
        obtain ⟨⟨e1, e2⟩, _⟩ := heq
        have e1' : ((max a.2 b.2 : Int) : ℚ) = ((max a'.2 b'.2 : Int) : ℚ) := by linarith
        have e2' : (a.1 : ℚ) = (a'.1 : ℚ) := by linarith
        have f1 : max a.2 b.2 = max a'.2 b'.2 := by exact_mod_cast e1'
        have f2 : a.1 = a'.1 := by exact_mod_cast e2'
        omega
  rcases key with ⟨k1, k2, k3, k4⟩ | ⟨k1, k2, k3, k4⟩
  · exact Or.inl ⟨Prod.ext k1 k2, Prod.ext k3 k4⟩
  · exact Or.inr ⟨Prod.ext k1 k2, Prod.ext k3 k4⟩

theorem stroked_inj {e f : Cell × Cell} (h : Adj e.1 e.2) (h' : Adj f.1 f.2)
    (heq : stroked e = stroked f) : SamePair e f := by
  rw [stroked_eq h, stroked_eq h'] at heq
  exact wall_line_inj h h' (List.cons.inj heq).1

/-! ## Starvation of the rejection loop -/

/-- With every draw pointing at an unavailable direction, the rejection loop
uses up any budget. -/
theorem starves_on_constant {N : Nat} {i j : Int} {st : State} (hm : WF N st.maze)
    (hc : InB N (i, j)) {d0 d1 : Int} (h01 : 1 ≤ d0) (h04 : d0 ≤ 4)
    (hav : Available N st.maze (i, j) d0)
    (hun : ¬ Available N st.maze (i, j) d1) (draws : Nat → Nat)
    (hd : ∀ r, ((draws r % 4 : Nat) : Int) + 1 = d1) (k : Nat) :
    check_available N draws k i j st
      = Except.error (Fault.starved, { st.queried i j with pos := st.pos + k }) := by
  rcases check_available_cases draws k hm hc with
    ⟨hall, _⟩ | ⟨_, _, hres⟩ | ⟨t, _, hz, _, _⟩
  · have := (available_iff_flag hm _ _).1 hav
    rw [hall d0 h01 h04] at this
    cases this
  · exact hres
  · rw [hd] at hz
    exact absurd ((available_iff_flag hm _ _).2 hz) hun

/-- On a grid of side at least 2 the draws that always point up starve the
first `check_available` call of the seed. -/
theorem seeded_starves {N : Nat} (hN : 2 ≤ N) (k : Nat) (cr : List Cairo) :
    check_available N alwaysUp k 0 0 (seeded N cr)
      = Except.error (Fault.starved, { (seeded N cr).queried 0 0 with pos := k }) := by
  obtain ⟨hJ, htr, hpos, _⟩ := generate_maze_seeded (by omega : 1 ≤ N) alwaysUp k 0 cr
  have hc : InB N ((0 : Int), (0 : Int)) := by
    simp [InB]
    omega
  have hav : Available N (seeded N cr).maze (0, 0) 2 := by
    rw [available_iff_flag hJ.1, hJ.flag_eq]
    unfold availFlag
    rw [if_pos]
    refine ⟨by simp [nbr, InB]; omega, ?_⟩
    rw [htr]
    simp [entered, nbr]
  have hun : ¬ Available N (seeded N cr).maze (0, 0) 1 := by
    rintro ⟨hin, _⟩
    simp [nbr, InB] at hin
  have hres := starves_on_constant hJ.1 hc (by decide) (by decide) hav
    hun alwaysUp (fun r => by simp [alwaysUp]) k
  rw [hres, hpos, Nat.zero_add]

/-- On a grid of side at least 2 the draws that always point up starve the
seed call, whatever the budgets. -/
theorem generate_maze_starves {N : Nat} (hN : 2 ≤ N) (k fuel : Nat) (cr : List Cairo) :
    generate_maze N alwaysUp k (fuel + 1) cr
      = Except.error (Fault.starved, { (seeded N cr).queried 0 0 with pos := k }) := by
  rw [(generate_maze_seeded (by omega : 1 ≤ N) alwaysUp k (fuel + 1) cr).2.2.2,
    make_path_loop_error _ _ _ _ _ _ _ _ _ (seeded_starves hN k cr)]

/-! ## The cairo context of a run -/

theorem remove_wall_append (cr : List Cairo) (i j previ prevj : Int) :
    remove_wall cr i j previ prevj = cr ++ remove_wall [] i j previ prevj := by
  unfold remove_wall
  simp only
  split_ifs <;> simp

theorem drawn_seeded (N : Nat) (cr : List Cairo) : Drawn cr (seeded N cr) := by
  unfold Drawn
  have h1 : (seeded N cr).cr = cr := rfl
  have h2 : (seeded N cr).trace = [Step.enter 0 0 0 0 1] := rfl
  rw [h1, h2]
  simp [events]

theorem drawn_queried {cr0 : List Cairo} {st : State} (h : Drawn cr0 st) (i j : Int)
    (p : Nat) : Drawn cr0 { st.queried i j with pos := p } := by
  unfold Drawn at h ⊢
  show st.cr = cr0 ++ (events (st.trace ++ [Step.query i j (flags st.maze (i, j))])).flatMap erase
  rw [events_query]
  exact h

theorem drawn_descended {cr0 : List Cairo} {st : State} (h : Drawn cr0 st) (i j : Int)
    (depth : Nat) (d : Int) (p : Nat) : Drawn cr0 (st.descended i j depth d p) := by
  unfold Drawn at h ⊢
  have hcr : (st.descended i j depth d p).cr
      = remove_wall st.cr (nbr (i, j) d).1 (nbr (i, j) d).2 i j := rfl
  have htr : events (st.descended i j depth d p).trace
      = events st.trace ++ [(((nbr (i, j) d).1, (nbr (i, j) d).2), (i, j))] := by
    unfold State.descended
    simp [State.remove_wall, State.queried, State.marked, events_append, events]
  rw [hcr, htr, remove_wall_append, h, List.flatMap_append]
  simp [erase]

/-- The context stays the start context followed by the calls of the recorded
`remove_wall` calls, in the state any do-while ends in. -/
theorem make_path_loop_drawn (N : Nat) (draws : Nat → Nat) (k : Nat) (cr0 : List Cairo) :
    ∀ (fuel depth : Nat) (i j pi pj : Int) (st : State), J N st → Drawn cr0 st →
      Step.enter i j pi pj depth ∈ st.trace →
      Drawn cr0 (final (make_path_loop N draws k fuel depth i j st)) := by
  intro fuel
  induction fuel with
  | zero =>
    intro depth i j pi pj st _ hd _
    exact hd
  | succ fuel ih =>
    intro depth i j pi pj st hJ hd he
    have hc : InB N (i, j) := hJ.2.2.entered_inB _ (mem_entered_of_enter he)
    rcases check_available_cases draws k hJ.1 hc with
      ⟨_, hres⟩ | ⟨_, _, hres⟩ | ⟨t, _, hz, _, hres⟩
    · rw [make_path_loop_done _ _ _ _ _ _ _ _ _ hres]
      exact drawn_queried hd i j st.pos
    · rw [make_path_loop_error _ _ _ _ _ _ _ _ _ hres]
      exact drawn_queried hd i j _
    · obtain ⟨hJa, hEa, _, hea, hstep⟩ := make_path_loop_step draws k hJ he
        (by omega) (by omega) hz (by omega) hres
      rw [hstep fuel]
      have hda := drawn_descended hd i j depth
        (((draws (st.pos + t) % 4 : Nat) : Int) + 1) (st.pos + t + 1)
      have ih1 := ih (depth + 1) _ _ i j _ hJa hda hea
      cases hn : make_path_loop N draws k fuel (depth + 1)
          (nbr (i, j) (((draws (st.pos + t) % 4 : Nat) : Int) + 1)).1
          (nbr (i, j) (((draws (st.pos + t) % 4 : Nat) : Int) + 1)).2
          (st.descended i j depth (((draws (st.pos + t) % 4 : Nat) : Int) + 1)
            (st.pos + t + 1)) with
      | error e =>
        rw [hn] at ih1
        exact ih1
      | ok s3 =>
        rw [hn] at ih1
        obtain ⟨hJ3, hE3, _, _⟩ :=
          (make_path_loop_inv N draws k fuel (depth + 1) _ _ i j _ hJa hea).1 s3 hn
        exact ih depth i j pi pj s3 hJ3 ih1 (hE3.mem (hEa.mem he))

/-- In the state any run ends in, the cairo context is the one `generate_maze`
was given followed by the calls of the `remove_wall` calls made, in order. -/
theorem generate_maze_drawn {N : Nat} (hN : 1 ≤ N) (draws : Nat → Nat) (k fuel : Nat)
    (cr : List Cairo) : Drawn cr (final (generate_maze N draws k fuel cr)) := by
  obtain ⟨hJ, htr, _, heq⟩ := generate_maze_seeded hN draws k fuel cr
  rw [heq]
  apply make_path_loop_drawn N draws k cr fuel 1 0 0 0 0 _ hJ (drawn_seeded N cr)
  rw [htr]
  exact List.mem_singleton_self _

theorem strokes_erase {e : Cell × Cell} (h : Adj e.1 e.2) (rest : List Cairo) :
    strokes (erase e ++ rest) = wall_line e.1 e.2 :: strokes rest := by
  have hl := remove_wall_line [] (i := e.1.1) (j := e.1.2) h
  unfold erase
  rw [hl]
  simp [strokes]

/-- The segments stroked by the calls of a list of events between adjacent
cells: one wall per event, in order. -/
theorem strokes_erased (rest : List Cairo) :
    ∀ es : List (Cell × Cell), (∀ e ∈ es, Adj e.1 e.2) →
      strokes (es.flatMap erase ++ rest)
        = es.flatMap stroked ++ strokes rest := by
  intro es
  induction es with
  | nil =>
    intro _
    rfl
  | cons e es ih =>
    intro h
    have he : Adj e.1 e.2 := h e (List.mem_cons_self _ _)
    rw [List.flatMap_cons, List.append_assoc, strokes_erase he, List.flatMap_cons,
      stroked_eq he, ih (fun f hf => h f (List.mem_cons_of_mem _ hf))]
    rfl

theorem flatMap_stroked_eq :
    ∀ es : List (Cell × Cell), (∀ e ∈ es, Adj e.1 e.2) →
      es.flatMap stroked = es.map (fun e => wall_line e.1 e.2) := by
  intro es
  induction es with
  | nil =>
    intro _
    rfl
  | cons e es ih =>
    intro h
    rw [List.flatMap_cons, stroked_eq (h e (List.mem_cons_self _ _)), List.map_cons,
      ih (fun f hf => h f (List.mem_cons_of_mem _ hf))]
    rfl

/-- The walls of events between adjacent cells, no pair repeated, are pairwise
distinct. -/
theorem walls_nodup {es : List (Cell × Cell)} (hadj : ∀ e ∈ es, Adj e.1 e.2)
    (hp : es.Pairwise (fun e f => ¬ SamePair e f)) : (es.flatMap stroked).Nodup := by
  rw [flatMap_stroked_eq es hadj]
  unfold List.Nodup
  rw [List.pairwise_map]
  apply List.Pairwise.imp_of_mem _ hp
  intro e f he hf hne heq
  exact hne (wall_line_inj (hadj e he) (hadj f hf) heq)
/-- A triple `move_to, line_to, stroke` cannot straddle a `set_source_rgb`
call: the segments of a context that continues with one are those before it
followed by those after it. -/
theorem strokes_append_rgb (r g b : ℚ) (rest : List Cairo) :
    ∀ (n : Nat) (cr : List Cairo), cr.length ≤ n →
      strokes (cr ++ Cairo.set_source_rgb r g b :: rest) = strokes cr ++ strokes rest := by
  intro n
  induction n with
  | zero =>
    intro cr h
    have : cr = [] := List.length_eq_zero.mp (by omega)
    subst this
    simp [strokes]
  | succ n ih =>
    intro cr h
    cases cr with
    | nil => simp [strokes]
    | cons a t =>
      have ht : t.length ≤ n := by simp at h; omega
      cases a with
      | move_to x y =>
        cases t with
        | nil => simp [strokes]
        | cons a2 t2 =>
          cases a2 with
          | line_to x2 y2 =>
            cases t2 with
            | nil => simp [strokes]
            | cons a3 t3 =>
              have ht3 : t3.length ≤ n := by simp at ht; omega
              have h3 := ih t3 ht3
              have h2 := ih (a3 :: t3) (by simp at ht ⊢; omega)
              cases a3 <;> simp_all [strokes]
          | _ =>
            have h2 := ih (_ :: t2) ht
            simp_all [strokes]
      | _ =>
        have h1 := ih t ht
        simp_all [strokes]

theorem erase_head (e : Cell × Cell) :
    ∃ tl, erase e = Cairo.set_source_rgb 0 0 0 :: tl := by
  unfold erase remove_wall
  simp only
  split_ifs <;> exact ⟨_, rfl⟩

/-- The segments of a context extended by the calls of events between adjacent
cells: those of the context, then one wall per event, in order. -/
theorem strokes_context (cr : List Cairo) (es : List (Cell × Cell))
    (h : ∀ e ∈ es, Adj e.1 e.2) :
    strokes (cr ++ es.flatMap erase) = strokes cr ++ es.flatMap stroked := by
  have hes := strokes_erased [] es h
  rw [List.append_nil] at hes
  have hnil : strokes ([] : List Cairo) = [] := rfl
  rw [hnil, List.append_nil] at hes
  cases es with
  | nil => simp
  | cons e es =>
    obtain ⟨tl, htl⟩ := erase_head e
    rw [List.flatMap_cons, htl, List.cons_append] at hes ⊢
    rw [strokes_append_rgb 0 0 0 _ cr.length cr (le_refl _), ← hes]
    simp [strokes]

/-- The segments stroked on the context of the sample run. -/
theorem run2_strokes : strokes (final run2).cr
    = [((68, 66.5), (68, 51.5)), ((69.5, 68), (84.5, 68)), ((68, 84.5), (68, 69.5))] := by
  have h : (final run2).cr = [] ++ (events (final run2).trace).flatMap erase :=
    generate_maze_drawn (by decide) roundRobin 4 4 []
  have he : events (final run2).trace
      = [((0, 1), (0, 0)), ((1, 1), (0, 1)), ((1, 0), (1, 1))] := by
    decide
  rw [h, he]
  simp [erase, remove_wall, strokes]
  norm_num

/-! ## The later claims -/

/-- C11 (scenario `N = 1`): with `SIZE = 1`, for every draw sequence and every
draw budget, the seed call marks the single cell, `check_available(0, 0)`
finds `available = {1, 1, 1, 1}` and returns `0` without a draw, no wall is
removed and no cairo call is made, and `generate_maze` returns after one
iteration of the do-while (fuel `1` suffices, and so does any larger fuel). -/
theorem scenario_one (draws : Nat → Nat) (k fuel : Nat) (cr : List Cairo) :
    generate_maze 1 draws k (fuel + 1) cr
      = Except.ok { maze := [[1]], pos := 0, cr := cr,
                    trace := [Step.enter 0 0 0 0 1, Step.query 0 0 [1, 1, 1, 1]] }
    ∧ (seeded 1 cr).maze = [[1]]
    ∧ check_available 1 draws k 0 0 (seeded 1 cr) = Except.ok (0, (seeded 1 cr).queried 0 0)
    ∧ ((seeded 1 cr).queried 0 0).pos = 0
    ∧ events (final (generate_maze 1 draws k (fuel + 1) cr)).trace = []
    ∧ (final (generate_maze 1 draws k (fuel + 1) cr)).cr = cr
    ∧ generate_maze 1 draws k 0 cr = Except.error (Fault.fuel, seeded 1 cr) :=
  ⟨rfl, rfl, rfl, rfl, rfl, rfl, rfl⟩

/-- C13 (depth-first closure): on any `N x N` grid and any in-bounds cell
`(i, j)` with flag `0`, if `make_path(i, j)` returns then the visited cells
afterwards are the cells visited before together with exactly the cells
reachable from `(i, j)` by 4-adjacent steps through tiles unvisited before the
call; every other tile keeps its value, and every in-bounds neighbour of
`(i, j)` is visited. -/
theorem depth_first_closure (N : Nat) (draws : Nat → Nat) (k fuel depth : Nat)
    (i j previ prevj : Int) (st st' : State) (hm : WF N st.maze) (_hc : InB N (i, j))
    (h0 : rd st.maze i j = some 0)
    (h : make_path N draws k fuel depth i j previ prevj st = Except.ok st') :
    (∀ x : Cell, Vis st'.maze x ↔ Vis st.maze x ∨ Reach st.maze (i, j) x)
    ∧ (∀ x : Cell, ¬ Reach st.maze (i, j) x → rd st'.maze x.1 x.2 = rd st.maze x.1 x.2)
    ∧ (∀ d : Int, 1 ≤ d → d ≤ 4 → InB N (nbr (i, j) d) → Vis st'.maze (nbr (i, j) d))
    ∧ WF N st'.maze := by
  obtain ⟨hwf', hmarks, hflags⟩ :=
    make_path_closure draws k fuel depth i j previ prevj st st' hm h0 h
  refine ⟨?_, fun x hx => (hmarks x).2 hx, ?_, hwf'⟩
  · intro x
    constructor
    · intro hv
      by_cases hr : Reach st.maze (i, j) x
      · exact Or.inr hr
      · left
        unfold Vis at hv ⊢
        rw [(hmarks x).2 hr] at hv
        exact hv
    · rintro (hv | hr)
      · have hnr : ¬ Reach st.maze (i, j) x := by
          intro hr
          have := hr.end_unv
          unfold Unv at this
          unfold Vis at hv
          rw [hv] at this
          cases this
        unfold Vis at hv ⊢
        rw [(hmarks x).2 hnr]
        exact hv
      · exact (hmarks x).1 hr
  · intro d h1 h4 hin
    have := flag_of_inB hwf' hin
    rw [hflags d h1 h4] at this
    exact this

theorem depth_first_closure_witness :
    WF 3 walled3.maze ∧ InB 3 ((0 : Int), (0 : Int)) ∧ rd walled3.maze 0 0 = some 0
    ∧ make_path 3 roundRobin 4 3 1 0 0 0 0 walled3
        = Except.ok (final (make_path 3 roundRobin 4 3 1 0 0 0 0 walled3))
    ∧ (final (make_path 3 roundRobin 4 3 1 0 0 0 0 walled3)).maze
        = [[1, 1, 0], [1, 1, 0], [1, 1, 0]]
    ∧ ((∀ x : Cell, Vis (final (make_path 3 roundRobin 4 3 1 0 0 0 0 walled3)).maze x
          ↔ Vis walled3.maze x ∨ Reach walled3.maze (0, 0) x)
      ∧ (∀ x : Cell, ¬ Reach walled3.maze (0, 0) x →
          rd (final (make_path 3 roundRobin 4 3 1 0 0 0 0 walled3)).maze x.1 x.2
            = rd walled3.maze x.1 x.2)
      ∧ (∀ d : Int, 1 ≤ d → d ≤ 4 → InB 3 (nbr (0, 0) d) →
          Vis (final (make_path 3 roundRobin 4 3 1 0 0 0 0 walled3)).maze (nbr (0, 0) d))
      ∧ WF 3 (final (make_path 3 roundRobin 4 3 1 0 0 0 0 walled3)).maze) :=
  ⟨by decide, by decide, rfl, rfl, by decide,
    depth_first_closure 3 roundRobin 4 3 1 0 0 0 0 walled3 _ (by decide) (by decide) rfl rfl⟩

/-- C14 (rejection sampling): when a direction is available from an in-bounds
cell, every value `check_available` returns is `1 + (r mod 4)` for the first
draw `r`, counted from the draw position of the call, whose direction is
available in the grid as it was when the call started; the earlier draws are
discarded, the draw position moves just past that draw and the grid is not
touched.  It returns as soon as such a draw lies within the budget, and the
four residues select the four directions one to one. -/
theorem rejection_sampling (N : Nat) (draws : Nat → Nat) (k : Nat) (i j : Int) (st : State)
    (hm : WF N st.maze) (hc : InB N (i, j))
    (hav : ∃ d : Int, 1 ≤ d ∧ d ≤ 4 ∧ Available N st.maze (i, j) d) :
    (∀ next st', check_available N draws k i j st = Except.ok (next, st') →
      ∃ t, t < k ∧ next = ((draws (st.pos + t) % 4 : Nat) : Int) + 1
        ∧ Available N st.maze (i, j) next
        ∧ (∀ s, s < t →
            ¬ Available N st.maze (i, j) (((draws (st.pos + s) % 4 : Nat) : Int) + 1))
        ∧ st' = { st.queried i j with pos := st.pos + t + 1 }
        ∧ st'.maze = st.maze)
    ∧ (∀ t, t < k →
        Available N st.maze (i, j) (((draws (st.pos + t) % 4 : Nat) : Int) + 1) →
        (∀ s, s < t →
            ¬ Available N st.maze (i, j) (((draws (st.pos + s) % 4 : Nat) : Int) + 1)) →
        check_available N draws k i j st
          = Except.ok (((draws (st.pos + t) % 4 : Nat) : Int) + 1,
              { st.queried i j with pos := st.pos + t + 1 }))
    ∧ (∀ d : Int, 1 ≤ d → d ≤ 4 → ∀ r : Nat,
        (((r % 4 : Nat) : Int) + 1 = d ↔ r % 4 = (d - 1).toNat)) := by
  obtain ⟨d0, h01, h04, hav0⟩ := hav
  have hz0 : flag st.maze (nbr (i, j) d0) = 0 := (available_iff_flag hm _ _).1 hav0
  refine ⟨?_, ?_, ?_⟩
  · intro next st' h
    rcases check_available_cases draws k hm hc with
      ⟨hall, _⟩ | ⟨_, _, hres⟩ | ⟨t, ht, hz, hmin, hres⟩
    · rw [hall d0 h01 h04] at hz0
      cases hz0
    · rw [hres] at h
      cases h
    · rw [hres] at h
      injection h with h
      injection h with hn hs
      subst hn hs
      refine ⟨t, ht, rfl, (available_iff_flag hm _ _).2 hz, ?_, rfl, rfl⟩
      intro s hs ha
      exact hmin s hs ((available_iff_flag hm _ _).1 ha)
  · intro t ht ha hmin
    rcases check_available_cases draws k hm hc with
      ⟨hall, _⟩ | ⟨_, hnone, _⟩ | ⟨t', _, hz', hmin', hres⟩
    · rw [hall d0 h01 h04] at hz0
      cases hz0
    · exact absurd ((available_iff_flag hm _ _).1 ha) (hnone t ht)
    · have htt : t' = t := by
        rcases Nat.lt_trichotomy t' t with hlt | heq | hgt
        · exact absurd ((available_iff_flag hm _ _).2 hz') (hmin t' hlt)
        · exact heq
        · exact absurd ((available_iff_flag hm _ _).1 ha) (hmin' t hgt)
      subst htt
      exact hres
  · intro d h1 h4 r
    omega

theorem rejection_sampling_witness :
    WF 2 seeded2.maze ∧ InB 2 ((0 : Int), (0 : Int))
    ∧ (∃ d : Int, 1 ≤ d ∧ d ≤ 4 ∧ Available 2 seeded2.maze (0, 0) d)
    ∧ check_available 2 roundRobin 4 0 0 seeded2
        = Except.ok (2, { seeded2.queried 0 0 with pos := 2 })
    ∧ ((∀ next st', check_available 2 roundRobin 4 0 0 seeded2 = Except.ok (next, st') →
      ∃ t, t < 4 ∧ next = ((roundRobin (seeded2.pos + t) % 4 : Nat) : Int) + 1
        ∧ Available 2 seeded2.maze (0, 0) next
        ∧ (∀ s, s < t →
            ¬ Available 2 seeded2.maze (0, 0)
              (((roundRobin (seeded2.pos + s) % 4 : Nat) : Int) + 1))
        ∧ st' = { seeded2.queried 0 0 with pos := seeded2.pos + t + 1 }
        ∧ st'.maze = seeded2.maze)
    ∧ (∀ t, t < 4 →
        Available 2 seeded2.maze (0, 0) (((roundRobin (seeded2.pos + t) % 4 : Nat) : Int) + 1) →
        (∀ s, s < t →
            ¬ Available 2 seeded2.maze (0, 0)
              (((roundRobin (seeded2.pos + s) % 4 : Nat) : Int) + 1)) →
        check_available 2 roundRobin 4 0 0 seeded2
          = Except.ok (((roundRobin (seeded2.pos + t) % 4 : Nat) : Int) + 1,
              { seeded2.queried 0 0 with pos := seeded2.pos + t + 1 }))
    ∧ (∀ d : Int, 1 ≤ d → d ≤ 4 → ∀ r : Nat,
        (((r % 4 : Nat) : Int) + 1 = d ↔ r % 4 = (d - 1).toNat))) :=
  ⟨by decide, by decide, ⟨2, by decide, by decide, by decide⟩, rfl,
    rejection_sampling 2 roundRobin 4 0 0 seeded2 (by decide) (by decide)
      ⟨2, by decide, by decide, by decide⟩⟩

/-- C15 (event order and orientation): in every run, returned or not, every
call `remove_wall(new cell, current cell)` is followed at once by the call of
`make_path` on the new cell; when it is made the current (second) cell has
been entered and the new (first) cell has not, and the new cell is a
neighbour of the current one.  In the event sequence every event's previous
cell is the seed `(0, 0)` or the first cell of an earlier event.  In terms of
the grid: whenever `check_available` returns a direction in a state of the
generation invariant, the calling cell has flag `1`, the chosen neighbour has
flag `0`, and the do-while continues with `remove_wall` then `make_path` on
that neighbour. -/
theorem event_order (N : Nat) (draws : Nat → Nat) (k fuel : Nat) (cr : List Cairo) :
    (∀ (pre post : List Step) (i j pi pj : Int),
      (final (generate_maze N draws k fuel cr)).trace = pre ++ Step.wall i j pi pj :: post →
      (∃ depth post', post = Step.enter i j pi pj depth :: post')
      ∧ (pi, pj) ∈ entered pre ∧ (i, j) ∉ entered pre
      ∧ ∃ d : Int, 1 ≤ d ∧ d ≤ 4 ∧ (i, j) = nbr (pi, pj) d)
    ∧ (∀ (pre post : List (Cell × Cell)) (e : Cell × Cell),
      events (final (generate_maze N draws k fuel cr)).trace = pre ++ e :: post →
      e.2 = (0, 0) ∨ e.2 ∈ pre.map Prod.fst)
    ∧ (∀ (st st1 : State) (i j pi pj next : Int) (depth : Nat), J N st →
      Step.enter i j pi pj depth ∈ st.trace →
      check_available N draws k i j st = Except.ok (next, st1) → next ≠ 0 →
      1 ≤ next ∧ next ≤ 4 ∧ rd st1.maze i j = some 1
      ∧ rd st1.maze (nbr (i, j) next).1 (nbr (i, j) next).2 = some 0
      ∧ ∀ fuel, make_path_loop N draws k (fuel + 1) depth i j st
          = (make_path N draws k fuel (depth + 1) (nbr (i, j) next).1 (nbr (i, j) next).2 i j
              (st1.remove_wall (nbr (i, j) next).1 (nbr (i, j) next).2 i j)).bind
            (make_path_loop N draws k fuel depth i j)) := by
  refine ⟨?_, ?_, ?_⟩
  · rcases final_trace N draws k fuel cr with ⟨_, hg⟩ | ⟨_, htr⟩
    · exact hg.wall_order
    · intro pre post i j pi pj heq
      rw [htr] at heq
      cases pre with
      | nil => simp at heq
      | cons x pre' => simp at heq
  · rcases final_trace N draws k fuel cr with ⟨_, hg⟩ | ⟨_, htr⟩
    · exact hg.prev_earlier
    · intro pre post e heq
      rw [htr] at heq
      simp [events] at heq
  · intro st st1 i j pi pj next depth hJ he hres hne
    exact emission_state draws k hJ he hres hne

/-- C16 (at most three available neighbours): in every run, returned or not,
the array `available` recorded by each `check_available(i, j)` call is the one
determined by the cells entered before the call, it holds at most three zeros,
and some direction is unavailable (off the grid or already entered).  In
terms of the grid: in every state of the generation invariant the array
`check_available` fills for an entered cell holds at most three zeros and some
direction is not available. -/
theorem at_most_three (N : Nat) (draws : Nat → Nat) (k fuel : Nat) (cr : List Cairo) :
    (∀ (pre post : List Step) (i j : Int) (a : List Int),
      (final (generate_maze N draws k fuel cr)).trace = pre ++ Step.query i j a :: post →
      a = avail N (entered pre) (i, j) ∧ a.length = 4 ∧ a.count 0 ≤ 3
      ∧ ∃ d : Int, 1 ≤ d ∧ d ≤ 4 ∧ ¬ (InB N (nbr (i, j) d) ∧ nbr (i, j) d ∉ entered pre))
    ∧ (∀ (st : State) (i j pi pj : Int) (depth : Nat), J N st →
      Step.enter i j pi pj depth ∈ st.trace →
      snapshot N st.maze i j = some (flags st.maze (i, j))
      ∧ (flags st.maze (i, j)).count 0 ≤ 3
      ∧ ∃ d : Int, 1 ≤ d ∧ d ≤ 4 ∧ ¬ Available N st.maze (i, j) d) := by
  constructor
  · rcases final_trace N draws k fuel cr with ⟨_, hg⟩ | ⟨_, htr⟩
    · intro pre post i j a heq
      obtain ⟨hgp, ha, pi, pj, depth, he⟩ := hg.query_snapshot pre post i j a heq
      have hun := hgp.some_unavailable he
      obtain ⟨hlen, hcount⟩ := @avail_count N (entered pre) (i, j) hun
      rw [ha]
      exact ⟨rfl, hlen, hcount, hun⟩
    · intro pre post i j a heq
      rw [htr] at heq
      cases pre with
      | nil => simp at heq
      | cons x pre' => simp at heq
  · intro st i j pi pj depth hJ he
    have hc : InB N (i, j) := hJ.2.2.entered_inB _ (mem_entered_of_enter he)
    obtain ⟨d, h1, h4, hd⟩ := hJ.2.2.some_unavailable he
    refine ⟨snapshot_eq hJ.1 hc, ?_, d, h1, h4, ?_⟩
    · rw [hJ.flags_eq]
      exact (avail_count ⟨d, h1, h4, hd⟩).2
    · intro hav
      have hz := (available_iff_flag hJ.1 _ _).1 hav
      exact hd (hJ.not_entered hz)

/-- C17 (outer border is never erased): for two 4-adjacent cells with
coordinates in `[0, 50)`, `remove_wall` appends its calls to the context and
strokes exactly one segment; it lies on a grid line `50 + 18 q` with
`1 <= q <= 49` (so neither on `50` nor on `950`): a horizontal segment for
cells in the same column, a vertical one for cells in the same row, and its
varying coordinate runs between two values within `[51.5, 948.5]`. -/
theorem interior_wall (i j previ prevj : Int) (h1 : InB 50 (i, j))
    (h2 : InB 50 (previ, prevj)) (hadj : Adj (i, j) (previ, prevj)) :
    (∀ cr, remove_wall cr i j previ prevj = cr ++ remove_wall [] i j previ prevj)
    ∧ ∃ q : Int, 1 ≤ q ∧ q ≤ 49
      ∧ (50 + 18 * (q : ℚ) ≠ 50) ∧ (50 + 18 * (q : ℚ) ≠ 950)
      ∧ ∃ u v : ℚ, 51.5 ≤ u ∧ u ≤ 948.5 ∧ 51.5 ≤ v ∧ v ≤ 948.5
        ∧ ((j = prevj ∧ strokes (remove_wall [] i j previ prevj)
              = [((u, 50 + 18 * (q : ℚ)), (v, 50 + 18 * (q : ℚ)))])
          ∨ (i = previ ∧ strokes (remove_wall [] i j previ prevj)
              = [((50 + 18 * (q : ℚ), u), (50 + 18 * (q : ℚ), v))])) := by
  constructor
  · intro cr
    rw [remove_wall_line cr hadj, remove_wall_line [] hadj]
    simp
  · have hs : strokes (remove_wall [] i j previ prevj) = [wall_line (i, j) (previ, prevj)] :=
      stroked_eq (e := ((i, j), (previ, prevj))) hadj
    obtain ⟨a1, a2, a3, a4⟩ := h1
    obtain ⟨b1, b2, b3, b4⟩ := h2
    simp only at a1 a2 a3 a4 b1 b2 b3 b4
    have hi0 : (0 : ℚ) ≤ (i : ℚ) := by exact_mod_cast a1
    have hi49 : (i : ℚ) ≤ 49 := by
      have : i ≤ 49 := by omega
      exact_mod_cast this
    have hj0 : (0 : ℚ) ≤ (j : ℚ) := by exact_mod_cast a3
    have hj49 : (j : ℚ) ≤ 49 := by
      have : j ≤ 49 := by omega
      exact_mod_cast this
    have hadj' := hadj
    unfold Adj at hadj'
    simp only at hadj'
    by_cases hc : j = prevj
    · have hq1 : 1 ≤ max i previ := by omega
      have hq49 : max i previ ≤ 49 := by omega
      have hq1' : (1 : ℚ) ≤ ((max i previ : Int) : ℚ) := by exact_mod_cast hq1
      have hq49' : ((max i previ : Int) : ℚ) ≤ 49 := by exact_mod_cast hq49
      refine ⟨max i previ, hq1, hq49, by linarith, by linarith,
        50 + 18 * (j : ℚ) + 1.5, 50 + 18 * ((j : ℚ) + 1) - 1.5, by linarith, by linarith,
        by linarith, by linarith, Or.inl ⟨hc, ?_⟩⟩
      rw [hs]
      unfold wall_line
      rw [if_pos hc]
    · have hq1 : 1 ≤ max j prevj := by omega
      have hq49 : max j prevj ≤ 49 := by omega
      have hq1' : (1 : ℚ) ≤ ((max j prevj : Int) : ℚ) := by exact_mod_cast hq1
      have hq49' : ((max j prevj : Int) : ℚ) ≤ 49 := by exact_mod_cast hq49
      refine ⟨max j prevj, hq1, hq49, by linarith, by linarith,
        50 + 18 * ((i : ℚ) + 1) - 1.5, 50 + 18 * (i : ℚ) + 1.5, by linarith, by linarith,
        by linarith, by linarith, Or.inr ⟨by omega, ?_⟩⟩
      rw [hs]
      unfold wall_line
      rw [if_neg hc]

theorem interior_wall_witness :
    InB 50 ((1 : Int), (0 : Int)) ∧ InB 50 ((0 : Int), (0 : Int))
    ∧ Adj ((1 : Int), (0 : Int)) ((0 : Int), (0 : Int))
    ∧ strokes (remove_wall [] 1 0 0 0) = [((51.5, 68), (66.5, 68))]
    ∧ ((∀ cr, remove_wall cr 1 0 0 0 = cr ++ remove_wall [] 1 0 0 0)
    ∧ ∃ q : Int, 1 ≤ q ∧ q ≤ 49
      ∧ (50 + 18 * (q : ℚ) ≠ 50) ∧ (50 + 18 * (q : ℚ) ≠ 950)
      ∧ ∃ u v : ℚ, 51.5 ≤ u ∧ u ≤ 948.5 ∧ 51.5 ≤ v ∧ v ≤ 948.5
        ∧ (((0 : Int) = 0 ∧ strokes (remove_wall [] 1 0 0 0)
              = [((u, 50 + 18 * (q : ℚ)), (v, 50 + 18 * (q : ℚ)))])
          ∨ ((1 : Int) = 0 ∧ strokes (remove_wall [] 1 0 0 0)
              = [((50 + 18 * (q : ℚ), u), (50 + 18 * (q : ℚ), v))]))) := by
  refine ⟨by decide, by decide, by decide, ?_,
    interior_wall 1 0 0 0 (by decide) (by decide) (by decide)⟩
  simp only [remove_wall, strokes]
  norm_num [strokes]

/-- C18 (the rejection loop is not total): from an in-bounds cell of a
well-formed grid with an available direction `d0` and an unavailable direction
`d1`, there is a draw sequence, every draw of which maps to `d1`, on which
`check_available` has not returned after `k` draws, for every bound `k`: all
`k` draws are consumed and rejected.  So it is for the fresh grid of side at
least 2 at the seed with `r mod 4 = 0` for ever (up is off the grid), and
`generate_maze` then returns for no budgets at all. -/
theorem rejection_not_total (N : Nat) (i j : Int) (st : State) (d0 d1 : Int)
    (hm : WF N st.maze) (hc : InB N (i, j))
    (h0 : 1 ≤ d0 ∧ d0 ≤ 4 ∧ Available N st.maze (i, j) d0)
    (h1 : 1 ≤ d1 ∧ d1 ≤ 4 ∧ ¬ Available N st.maze (i, j) d1) :
    (∃ draws : Nat → Nat, (∀ r, ((draws r % 4 : Nat) : Int) + 1 = d1)
      ∧ ∀ k, check_available N draws k i j st
          = Except.error (Fault.starved, { st.queried i j with pos := st.pos + k }))
    ∧ (∀ (M : Nat), 2 ≤ M → ∀ (k fuel : Nat) (cr : List Cairo),
        (∀ r, alwaysUp r % 4 = 0)
        ∧ check_available M alwaysUp k 0 0 (seeded M cr)
            = Except.error (Fault.starved, { (seeded M cr).queried 0 0 with pos := k })
        ∧ ∀ s, generate_maze M alwaysUp k fuel cr ≠ Except.ok s) := by
  obtain ⟨h01, h04, hav⟩ := h0
  obtain ⟨h11, h14, hun⟩ := h1
  constructor
  · have hd : ∀ r : Nat, ((((fun _ : Nat => (d1 - 1).toNat) r % 4 : Nat) : Int)) + 1 = d1 := by
      intro r
      show ((((d1 - 1).toNat % 4 : Nat) : Int)) + 1 = d1
      omega
    exact ⟨fun _ => (d1 - 1).toNat, hd,
      fun k => starves_on_constant hm hc h01 h04 hav hun _ hd k⟩
  · intro M hM k fuel cr
    refine ⟨fun r => rfl, seeded_starves hM k cr, ?_⟩
    intro s hs
    cases fuel with
    | zero =>
      rw [(generate_maze_seeded (by omega : 1 ≤ M) alwaysUp k 0 cr).2.2.2,
        make_path_loop_zero] at hs
      cases hs
    | succ fuel =>
      rw [generate_maze_starves hM k fuel cr] at hs
      cases hs

theorem rejection_not_total_witness :
    WF 2 seeded2.maze ∧ InB 2 ((0 : Int), (0 : Int))
    ∧ ((1 : Int) ≤ 2 ∧ (2 : Int) ≤ 4 ∧ Available 2 seeded2.maze (0, 0) 2)
    ∧ ((1 : Int) ≤ 1 ∧ (1 : Int) ≤ 4 ∧ ¬ Available 2 seeded2.maze (0, 0) 1)
    ∧ check_available 2 alwaysUp 7 0 0 seeded2
        = Except.error (Fault.starved, { seeded2.queried 0 0 with pos := 7 })
    ∧ ((∃ draws : Nat → Nat, (∀ r, ((draws r % 4 : Nat) : Int) + 1 = 1)
      ∧ ∀ k, check_available 2 draws k 0 0 seeded2
          = Except.error (Fault.starved, { seeded2.queried 0 0 with pos := seeded2.pos + k }))
    ∧ (∀ (M : Nat), 2 ≤ M → ∀ (k fuel : Nat) (cr : List Cairo),
        (∀ r, alwaysUp r % 4 = 0)
        ∧ check_available M alwaysUp k 0 0 (seeded M cr)
            = Except.error (Fault.starved, { (seeded M cr).queried 0 0 with pos := k })
        ∧ ∀ s, generate_maze M alwaysUp k fuel cr ≠ Except.ok s)) :=
  ⟨by decide, by decide, by decide, by decide, rfl,
    rejection_not_total 2 0 0 seeded2 2 1 (by decide) (by decide) (by decide) (by decide)⟩

/-- C19 (distinct walls for distinct passages): on pairs of 4-adjacent cells
the map from the pair to the segment `remove_wall` strokes is injective up to
the order of the two cells, and each call strokes exactly one segment. In a
returned run the cairo context is the context `generate_maze` was given
followed by the calls of the `N * N - 1` `remove_wall` calls in order, so the
segments stroked on it are those of the given context followed by
`N * N - 1` pairwise distinct wall segments, one per passage. -/
theorem distinct_walls (N : Nat) (draws : Nat → Nat) (k fuel : Nat) (cr : List Cairo)
    (st : State) (hN : 1 ≤ N) (h : generate_maze N draws k fuel cr = Except.ok st) :
    (∀ e f : Cell × Cell, Adj e.1 e.2 → Adj f.1 f.2 → stroked e = stroked f → SamePair e f)
    ∧ (∀ e : Cell × Cell, Adj e.1 e.2 → ∃ s, stroked e = [s])
    ∧ (∀ e ∈ events st.trace, Adj e.1 e.2)
    ∧ ((events st.trace).map stroked).Nodup
    ∧ ((events st.trace).map stroked).length = N * N - 1
    ∧ st.cr = cr ++ (events st.trace).flatMap
        (fun e => remove_wall [] e.1.1 e.1.2 e.2.1 e.2.2)
    ∧ strokes st.cr = strokes cr ++ (events st.trace).flatMap stroked
    ∧ (∃ walls : List Segment, strokes st.cr = strokes cr ++ walls
        ∧ walls.Nodup ∧ walls.length = N * N - 1)
    ∧ (cr = [] → (strokes st.cr).Nodup ∧ (strokes st.cr).length = N * N - 1) := by
  obtain ⟨t1, t2, t3, _, _⟩ := returned_tree hN h
  have hadj : ∀ e ∈ events st.trace, Adj e.1 e.2 := fun e he => (t2 e he).2.2
  have hd : Drawn cr st := by
    have := generate_maze_drawn hN draws k fuel cr
    rw [h] at this
    exact this
  have hcr : st.cr = cr ++ (events st.trace).flatMap erase := hd
  have hs : strokes st.cr = strokes cr ++ (events st.trace).flatMap stroked := by
    rw [hcr]
    exact strokes_context cr _ hadj
  have hnd : ((events st.trace).flatMap stroked).Nodup := walls_nodup hadj t3
  have hlen : ((events st.trace).flatMap stroked).length = N * N - 1 := by
    rw [flatMap_stroked_eq _ hadj, List.length_map]
    exact t1
  refine ⟨fun e f he hf heq => stroked_inj he hf heq, fun e he => ⟨_, stroked_eq he⟩,
    hadj, ?_, ?_, hcr, hs, ⟨_, hs, hnd, hlen⟩, ?_⟩
  · unfold List.Nodup
    rw [List.pairwise_map]
    apply List.Pairwise.imp_of_mem _ t3
    intro e f he hf hne heq
    exact hne (stroked_inj (t2 e he).2.2 (t2 f hf).2.2 heq)
  · rw [List.length_map]
    exact t1
  · intro hnil
    have h0 : strokes cr = [] := by
      rw [hnil]
      rfl
    rw [hs, h0, List.nil_append]
    exact ⟨hnd, hlen⟩

theorem distinct_walls_witness :
    1 ≤ 2 ∧ generate_maze 2 roundRobin 4 4 [] = Except.ok (final run2)
    ∧ ((∀ e f : Cell × Cell, Adj e.1 e.2 → Adj f.1 f.2 → stroked e = stroked f → SamePair e f)
    ∧ (∀ e : Cell × Cell, Adj e.1 e.2 → ∃ s, stroked e = [s])
    ∧ (∀ e ∈ events (final run2).trace, Adj e.1 e.2)
    ∧ ((events (final run2).trace).map stroked).Nodup
    ∧ ((events (final run2).trace).map stroked).length = 2 * 2 - 1
    ∧ (final run2).cr = [] ++ (events (final run2).trace).flatMap
        (fun e => remove_wall [] e.1.1 e.1.2 e.2.1 e.2.2)
    ∧ strokes (final run2).cr = strokes [] ++ (events (final run2).trace).flatMap stroked
    ∧ (∃ walls : List Segment, strokes (final run2).cr = strokes [] ++ walls
        ∧ walls.Nodup ∧ walls.length = 2 * 2 - 1)
    ∧ (([] : List Cairo) = [] → (strokes (final run2).cr).Nodup
        ∧ (strokes (final run2).cr).length = 2 * 2 - 1))
    ∧ strokes (final run2).cr
        = [((68, 66.5), (68, 51.5)), ((69.5, 68), (84.5, 68)), ((68, 84.5), (68, 69.5))] :=
  ⟨by decide, rfl, distinct_walls 2 roundRobin 4 4 [] (final run2) (by decide) rfl, run2_strokes⟩

/-- C20 (`remove_wall` is symmetric): for 4-adjacent cells `a` and `b`, the
calls `remove_wall(a, b)` and `remove_wall(b, a)` append the same cairo calls
to the context, so they stroke the same single segment with the same end
points in the same order. -/
theorem remove_wall_symmetric (cr : List Cairo) (a b : Cell) (h : Adj a b) :
    remove_wall cr a.1 a.2 b.1 b.2 = remove_wall cr b.1 b.2 a.1 a.2
    ∧ strokes (remove_wall [] a.1 a.2 b.1 b.2) = strokes (remove_wall [] b.1 b.2 a.1 a.2)
    ∧ ∃ s : Segment, strokes (remove_wall [] a.1 a.2 b.1 b.2) = [s]
        ∧ strokes (remove_wall [] b.1 b.2 a.1 a.2) = [s] := by
  have hab : Adj (a.1, a.2) (b.1, b.2) := h
  have hba : Adj (b.1, b.2) (a.1, a.2) := adj_symm h
  have hw : wall_line (a.1, a.2) (b.1, b.2) = wall_line (b.1, b.2) (a.1, a.2) :=
    wall_line_symm hab
  have hcalls : ∀ c : List Cairo,
      remove_wall c a.1 a.2 b.1 b.2 = remove_wall c b.1 b.2 a.1 a.2 := by
    intro c
    rw [remove_wall_line c hab, remove_wall_line c hba, hw]
  have hs : strokes (remove_wall [] a.1 a.2 b.1 b.2) = [wall_line (a.1, a.2) (b.1, b.2)] :=
    stroked_eq (e := ((a.1, a.2), (b.1, b.2))) hab
  refine ⟨hcalls cr, by rw [hcalls []], _, hs, ?_⟩
  rw [← hcalls []]
  exact hs

theorem remove_wall_symmetric_witness :
    Adj ((1 : Int), (0 : Int)) ((0 : Int), (0 : Int))
    ∧ (remove_wall [] (1, 0).1 (1, 0).2 (0, 0).1 (0, 0).2
        = remove_wall [] (0, 0).1 (0, 0).2 (1, 0).1 (1, 0).2
    ∧ strokes (remove_wall [] (1, 0).1 (1, 0).2 (0, 0).1 (0, 0).2)
        = strokes (remove_wall [] (0, 0).1 (0, 0).2 (1, 0).1 (1, 0).2)
    ∧ ∃ s : Segment, strokes (remove_wall [] (1, 0).1 (1, 0).2 (0, 0).1 (0, 0).2) = [s]
        ∧ strokes (remove_wall [] (0, 0).1 (0, 0).2 (1, 0).1 (1, 0).2) = [s]) :=
  ⟨by decide, remove_wall_symmetric [] (1, 0) (0, 0) (by decide)⟩

end Maze
